import Mathlib

/-! Polygon Laplacian: discrete operators on polygonal meshes.

A shallow embedding of `src/src/PolyDiffGeo.cpp`.  Scalars (`double`, `pmp::Scalar`) are
read as elements of a linearly ordered field `K` (exact arithmetic); the square root is a
parameter `sqrt : K → K`.  Dense Eigen matrices and vectors are functions on `Fin n`,
sparse Eigen matrices are lists of triplets whose duplicates are summed.
-/

namespace PolyDiffGeo

open Finset

/-! ## Sparse matrices (`Eigen::SparseMatrix<double>`, `Eigen::Triplet<double>`) -/

/-- One `Eigen::Triplet<double>`: `(row, col, value)`. -/
structure Triplet (K : Type) where
  row : Nat
  col : Nat
  value : K

/-- An `Eigen::SparseMatrix<double>`: its dimensions and its stored entries.  The entries are
kept as the triplets they were built from; a coefficient is the sum of the stored values at
its position (`setFromTriplets` sums duplicates). -/
structure SparseMatrix (K : Type) where
  rows : Nat
  cols : Nat
  entries : List (Triplet K)

section Sparse

variable {K : Type} [LinearOrderedField K]

/-- The value a triplet contributes to position `(r, c)`. -/
def Triplet.contrib (t : Triplet K) (r c : Nat) : K :=
  if t.row = r ∧ t.col = c then t.value else 0

/-- Coefficient `A.coeff(r, c)`: the sum of all stored values at `(r, c)`. -/
def SparseMatrix.coeff (A : SparseMatrix K) (r c : Nat) : K :=
  (A.entries.map (fun t => t.contrib r c)).sum

/-- Every stored entry lies inside the matrix dimensions. -/
def SparseMatrix.InRange (A : SparseMatrix K) : Prop :=
  ∀ t ∈ A.entries, t.row < A.rows ∧ t.col < A.cols

/-- Sum of row `r` of `A`. -/
def SparseMatrix.rowSum (A : SparseMatrix K) (r : Nat) : K :=
  ∑ c in range A.cols, A.coeff r c

/-- `A.resize(r, c)` followed by `A.setFromTriplets(ts)`. -/
def SparseMatrix.resizeFromTriplets (r c : Nat) (ts : List (Triplet K)) : SparseMatrix K :=
  ⟨r, c, ts⟩

/-- `D.setFromTriplets(ts)` on an existing matrix: the dimensions are kept. -/
def SparseMatrix.setFromTriplets (D : SparseMatrix K) (ts : List (Triplet K)) :
    SparseMatrix K :=
  ⟨D.rows, D.cols, ts⟩

/-- `S *= s`. -/
def SparseMatrix.scale (s : K) (A : SparseMatrix K) : SparseMatrix K :=
  ⟨A.rows, A.cols, A.entries.map (fun t => ⟨t.row, t.col, s * t.value⟩)⟩

/-- `A.transpose()`. -/
def SparseMatrix.transpose (A : SparseMatrix K) : SparseMatrix K :=
  ⟨A.cols, A.rows, A.entries.map (fun t => ⟨t.col, t.row, t.value⟩)⟩

/-- Sparse product `A * B`: every pair of stored entries with matching inner index
contributes the product of the values. -/
def SparseMatrix.mul (A B : SparseMatrix K) : SparseMatrix K :=
  ⟨A.rows, B.cols,
    A.entries.flatMap (fun a =>
      (B.entries.filter (fun b => decide (b.row = a.col))).map
        (fun b => ⟨a.row, b.col, a.value * b.value⟩))⟩

/-- Quadratic form `x^T A x` of a sparse matrix. -/
def SparseMatrix.quadForm (A : SparseMatrix K) (x : Nat → K) : K :=
  ∑ r in range A.rows, ∑ c in range A.cols, x r * A.coeff r c * x c

/-- Matrix-vector product `A * u` at row `r`. -/
def SparseMatrix.mulVec (A : SparseMatrix K) (u : Nat → K) (r : Nat) : K :=
  ∑ c in range A.cols, A.coeff r c * u c

/-- Source lines 55-65.  `lump_matrix(D)`: every stored entry `(row, col, value)` is moved to
`(row, row, value)` and `D` is rebuilt from these triplets. -/
def lump_matrix (D : SparseMatrix K) : SparseMatrix K :=
  let triplets := D.entries.map (fun it => (⟨it.row, it.row, it.value⟩ : Triplet K))
  D.setFromTriplets triplets

end Sparse

/-! ## The mesh (`pmp::SurfaceMesh`) -/

/-- A polygon mesh as this code reads it: vertex positions, the faces as cyclic vertex
sequences, and the two face properties `"f:point"` and `"f:weights"`. -/
structure SurfaceMesh (K : Type) where
  nv : Nat
  position : Fin nv → Fin 3 → K
  faces : List (List (Fin nv))
  f_point : List (Fin 3 → K)
  f_weights : List (List K)

section Mesh

variable {K : Type} [LinearOrderedField K]

/-- Number of faces `mesh.n_faces()`. -/
def SurfaceMesh.n_faces (mesh : SurfaceMesh K) : Nat := mesh.faces.length

/-- The face with index `j` (its vertex sequence `mesh.vertices(f)`). -/
def SurfaceMesh.face (mesh : SurfaceMesh K) (j : Nat) : List (Fin mesh.nv) :=
  mesh.faces.getD j []

/-- The stored property `area_weights[f]` of the face with index `j`. -/
def SurfaceMesh.area_weights (mesh : SurfaceMesh K) (j : Nat) : List K :=
  mesh.f_weights.getD j []

/-- The stored property `area_points[f]` of the face with index `j`. -/
def SurfaceMesh.area_points (mesh : SurfaceMesh K) (j : Nat) : Fin 3 → K :=
  mesh.f_point.getD j 0

/-- Entry `w(i)` of a dynamically sized vector. -/
def vecAt (w : List K) (i : Nat) : K := w.getD i 0

/-- Source lines 22-51.  `setup_prolongation_matrix`: one unit triplet per vertex, then for
the `j`-th face and its `i`-th vertex `v` the triplet `(nv + j, v, w(i))`. -/
def setup_prolongation_matrix (mesh : SurfaceMesh K) : SparseMatrix K :=
  let nv := mesh.nv
  let nf := mesh.n_faces
  let tripletsV : List (Triplet K) :=
    (List.finRange nv).map (fun v => ⟨v.val, v.val, 1⟩)
  let tripletsF : List (Triplet K) :=
    (List.range nf).flatMap (fun j =>
      let w := mesh.area_weights j
      (List.finRange (mesh.face j).length).map (fun i =>
        ⟨nv + j, ((mesh.face j).get i).val, vecAt w i.val⟩))
  SparseMatrix.resizeFromTriplets (nv + nf) nv (tripletsV ++ tripletsF)

end Mesh

/-! ## Dense helpers -/

section Dense

variable {K : Type} [LinearOrderedField K]

/-- The cyclic successor `(i + 1) % n` of a row index. -/
def nextIdx {n : Nat} (i : Fin n) : Fin n := ⟨(i.val + 1) % n, Nat.mod_lt _ i.pos⟩

/-- `v.squaredNorm()` of a 3-vector. -/
def squaredNorm (v : Fin 3 → K) : K := v 0 * v 0 + v 1 * v 1 + v 2 * v 2

/-- `M(r, c) += v` on a dense matrix. -/
def addAt {n m : Nat} (M : Fin n → Fin m → K) (r : Fin n) (c : Fin m) (v : K) :
    Fin n → Fin m → K :=
  fun r1 c1 => if r1 = r ∧ c1 = c then M r1 c1 + v else M r1 c1

/-- `ln(r) += v` on a dense vector. -/
def addAtVec {n : Nat} (ln : Fin n → K) (r : Fin n) (v : K) : Fin n → K :=
  fun r1 => if r1 = r then ln r1 + v else ln r1

/-- `poly.transpose() * w`: the combination of the polygon rows with weights `w`. -/
def polyTransposeMul {n : Nat} (poly : Fin n → Fin 3 → K) (w : Fin n → K) : Fin 3 → K :=
  fun h => ∑ i, poly i h * w i

/-- The tolerance `1e-7` of the stiffness loop. -/
def areaTol : K := 1 / 10000000

/-- Source lines 384-414: one pass of the kite loop of `localStiffnessMatrix` for the
boundary edge `(i, i1)`, acting on the pair `(L, ln)`. -/
def stiffnessKite (sqrt : K → K) {n : Nat} (poly : Fin n → Fin 3 → K) (min : Fin 3 → K)
    (s : (Fin n → Fin n → K) × (Fin (n + 1) → K)) (i : Fin n) :
    (Fin n → Fin n → K) × (Fin (n + 1) → K) :=
  let i1 := nextIdx i
  let l2_2 := squaredNorm (poly i - poly i1)
  let l2_0 := squaredNorm (poly i1 - min)
  let l2_1 := squaredNorm (poly i - min)
  let l_0 := sqrt l2_0
  let l_1 := sqrt l2_1
  let l_2 := sqrt l2_2
  let arg := (l_0 + (l_1 + l_2)) * (l_2 - (l_0 - l_1)) * (l_2 + (l_0 - l_1)) * (l_0 + (l_1 - l_2))
  let area := 1 / 2 * sqrt arg
  if area > areaTol then
    let l0 := 1 / 4 * (l2_1 + l2_2 - l2_0) / area
    let l1 := 1 / 4 * (l2_2 + l2_0 - l2_1) / area
    let l2 := 1 / 4 * (l2_0 + l2_1 - l2_2) / area
    let L := s.1
    let L := addAt L i1 i1 l0
    let L := addAt L i i l1
    let L := addAt L i1 i (-l2)
    let L := addAt L i i1 (-l2)
    let L := addAt L i i l2
    let L := addAt L i1 i1 l2
    let ln := s.2
    let ln := addAtVec ln i1.castSucc (-l0)
    let ln := addAtVec ln i.castSucc (-l1)
    let ln := addAtVec ln (Fin.last n) (l0 + l1)
    (L, ln)
  else s

/-- Source lines 416-419, the "sandwiching" loop shared by both local matrices:
`L(i, j) += w(i) * ln(j) + w(j) * ln(i) + w(i) * w(j) * ln(n)`. -/
def sandwich {n : Nat} (w : Fin n → K) (s : (Fin n → Fin n → K) × (Fin (n + 1) → K)) :
    Fin n → Fin n → K :=
  fun i j => s.1 i j +
    (w i * s.2 j.castSucc + w j * s.2 i.castSucc + w i * w j * s.2 (Fin.last n))

/-- Source lines 373-420.  `localStiffnessMatrix(poly, min, w, L)`: `L` and `ln` start at
zero, the kite loop runs over `i = 0 .. n-1`, then the sandwiching loop. -/
def localStiffnessMatrix (sqrt : K → K) {n : Nat} (poly : Fin n → Fin 3 → K)
    (min : Fin 3 → K) (w : Fin n → K) : Fin n → Fin n → K :=
  sandwich w ((List.finRange n).foldl (stiffnessKite sqrt poly min) (0, 0))

/-- Source lines 436-464: one pass of the kite loop of `localMassMatrix`. -/
def massKite (sqrt : K → K) {n : Nat} (poly : Fin n → Fin 3 → K) (min : Fin 3 → K)
    (s : (Fin n → Fin n → K) × (Fin (n + 1) → K)) (i : Fin n) :
    (Fin n → Fin n → K) × (Fin (n + 1) → K) :=
  let i1 := nextIdx i
  let l2_2 := squaredNorm (poly i - poly i1)
  let l2_0 := squaredNorm (poly i1 - min)
  let l2_1 := squaredNorm (poly i - min)
  let l_0 := sqrt l2_0
  let l_1 := sqrt l2_1
  let l_2 := sqrt l2_2
  let arg := (l_0 + (l_1 + l_2)) * (l_2 - (l_0 - l_1)) * (l_2 + (l_0 - l_1)) * (l_0 + (l_1 - l_2))
  let area := 1 / 4 * sqrt arg
  let l0 := 1 / 6 * area
  let l1 := 1 / 12 * area
  let M := s.1
  let M := addAt M i1 i1 (1 / 6 * area)
  let M := addAt M i i (1 / 6 * area)
  let M := addAt M i1 i (1 / 12 * area)
  let M := addAt M i i1 (1 / 12 * area)
  let ln := s.2
  let ln := addAtVec ln i1.castSucc l1
  let ln := addAtVec ln i.castSucc l1
  let ln := addAtVec ln (Fin.last n) l0
  (M, ln)

/-- Source lines 424-470.  `localMassMatrix(poly, min, w, M)`. -/
def localMassMatrix (sqrt : K → K) {n : Nat} (poly : Fin n → Fin 3 → K)
    (min : Fin 3 → K) (w : Fin n → K) : Fin n → Fin n → K :=
  sandwich w ((List.finRange n).foldl (massKite sqrt poly min) (0, 0))

/-- Source lines 387-401: the three coefficients `l[0], l[1], l[2]` that the kite of edge
`(i, i1)` adds in `localStiffnessMatrix`, zero when the kite is skipped. -/
def stiffnessCoef (sqrt : K → K) {n : Nat} (poly : Fin n → Fin 3 → K) (min : Fin 3 → K)
    (i : Fin n) : Fin 3 → K :=
  let i1 := nextIdx i
  let l2_2 := squaredNorm (poly i - poly i1)
  let l2_0 := squaredNorm (poly i1 - min)
  let l2_1 := squaredNorm (poly i - min)
  let l_0 := sqrt l2_0
  let l_1 := sqrt l2_1
  let l_2 := sqrt l2_2
  let arg := (l_0 + (l_1 + l_2)) * (l_2 - (l_0 - l_1)) * (l_2 + (l_0 - l_1)) * (l_0 + (l_1 - l_2))
  let area := 1 / 2 * sqrt arg
  if area > areaTol then
    ![1 / 4 * (l2_1 + l2_2 - l2_0) / area,
      1 / 4 * (l2_2 + l2_0 - l2_1) / area,
      1 / 4 * (l2_0 + l2_1 - l2_2) / area]
  else 0

/-- Source lines 439-449: the value `area` of the kite of edge `(i, i1)` in
`localMassMatrix`. -/
def massArea (sqrt : K → K) {n : Nat} (poly : Fin n → Fin 3 → K) (min : Fin 3 → K)
    (i : Fin n) : K :=
  let i1 := nextIdx i
  let l2_2 := squaredNorm (poly i - poly i1)
  let l2_0 := squaredNorm (poly i1 - min)
  let l2_1 := squaredNorm (poly i - min)
  let l_0 := sqrt l2_0
  let l_1 := sqrt l2_1
  let l_2 := sqrt l2_2
  let arg := (l_0 + (l_1 + l_2)) * (l_2 - (l_0 - l_1)) * (l_2 + (l_0 - l_1)) * (l_0 + (l_1 - l_2))
  1 / 4 * sqrt arg

/-- Bilinear form `u^T M v` of a dense square matrix. -/
def bilin {n : Nat} (M : Fin n → Fin n → K) (u v : Fin n → K) : K :=
  ∑ r, ∑ c, u r * M r c * v c

/-- Weighted combination `w . u` of the entries of a vector. -/
def wdot {n : Nat} (w u : Fin n → K) : K := ∑ i, w i * u i

/-- Bilinear form of the extended `(n+1) × (n+1)` system held in `(L, ln)`, evaluated on the
vectors `u`, `v` extended by the values `w . u`, `w . v` at the virtual point. -/
def extBilin {n : Nat} (w : Fin n → K) (s : (Fin n → Fin n → K) × (Fin (n + 1) → K))
    (u v : Fin n → K) : K :=
  bilin s.1 u v + wdot w u * (∑ c, s.2 c.castSucc * v c)
    + wdot w v * (∑ r, u r * s.2 r.castSucc) + wdot w u * wdot w v * s.2 (Fin.last n)

/-- The bilinear form of one cotangent kite: edge weights `l 0`, `l 1`, `l 2` on the edges
`(i1, p)`, `(i, p)` and `(i, i1)` of the triangle `(i, i1, p)`. -/
def cotForm (l : Fin 3 → K) (ui ui1 tu vi vi1 tv : K) : K :=
  l 0 * ((ui1 - tu) * (vi1 - tv)) + l 1 * ((ui - tu) * (vi - tv))
    + l 2 * ((ui - ui1) * (vi - vi1))

/-- The bilinear form of one mass kite of area `a`: `a / 6` on the diagonal and `a / 12` off
the diagonal of the triangle `(i, i1, p)`. -/
def massForm (a : K) (ui ui1 tu vi vi1 tv : K) : K :=
  a / 12 * (2 * (ui * vi) + 2 * (ui1 * vi1) + 2 * (tu * tv) + ui * vi1 + ui1 * vi
    + tu * vi + tu * vi1 + tv * ui + tv * ui1)

/-- The function `sqrt` is an exact square root on the non-negative scalars. -/
def IsSqrt (sqrt : K → K) : Prop :=
  ∀ x, 0 ≤ x → 0 ≤ sqrt x ∧ sqrt x * sqrt x = x

/-- The least-squares solver of the linear-algebra library, as used through
`M.completeOrthogonalDecomposition().solve(b_)`: for an `m × n` matrix and a right-hand side
of length `m` it returns a vector of length `n`. -/
abbrev Solver (K : Type) : Type :=
  (m n : Nat) → (Fin m → Fin n → K) → (Fin m → K) → (Fin n → K)

/-- Source lines 261-305: entry `J(i, k)` of `find_polygon_weights`.  The six accumulators
are summed over the boundary edges `j`, then combined with the coordinates of row `k`. -/
def polygonJ {n : Nat} (poly : Fin n → Fin 3 → K) (i k : Fin n) : K :=
  let pk := poly i
  let d : Fin n → Fin 3 → K := fun j => poly j - poly (nextIdx j)
  let Bik1 : Fin n → K := fun j => d j 1 * pk 2 - d j 2 * pk 1
  let Bik2 : Fin n → K := fun j => d j 2 * pk 0 - d j 0 * pk 2
  let Bik3 : Fin n → K := fun j => d j 0 * pk 1 - d j 1 * pk 0
  let Bk1_d1 := ∑ j, d j 1 * Bik1 j
  let Bk1_d2 := ∑ j, d j 2 * Bik1 j
  let Bk2_d0 := ∑ j, d j 0 * Bik2 j
  let Bk2_d2 := ∑ j, d j 2 * Bik2 j
  let Bk3_d0 := ∑ j, d j 0 * Bik3 j
  let Bk3_d1 := ∑ j, d j 1 * Bik3 j
  let xj := poly k
  1 / 2 * (xj 2 * Bk1_d1 - xj 1 * Bk1_d2 + xj 0 * Bk2_d2 -
           xj 2 * Bk2_d0 + xj 1 * Bk3_d0 - xj 0 * Bk3_d1)

/-- Source lines 261-306: entry `b(i)` of `find_polygon_weights`, half the accumulator
`CBk`. -/
def polygonB {n : Nat} (poly : Fin n → Fin 3 → K) (i : Fin n) : K :=
  let pk := poly i
  let d : Fin n → Fin 3 → K := fun j => poly j - poly (nextIdx j)
  let Bik1 : Fin n → K := fun j => d j 1 * pk 2 - d j 2 * pk 1
  let Bik2 : Fin n → K := fun j => d j 2 * pk 0 - d j 0 * pk 2
  let Bik3 : Fin n → K := fun j => d j 0 * pk 1 - d j 1 * pk 0
  let Ci1 : Fin n → K := fun j => d j 1 * poly j 2 - d j 2 * poly j 1
  let Ci2 : Fin n → K := fun j => d j 2 * poly j 0 - d j 0 * poly j 2
  let Ci3 : Fin n → K := fun j => d j 0 * poly j 1 - d j 1 * poly j 0
  let CBk := ∑ j, (Ci1 j * Bik1 j + Ci2 j * Bik2 j + Ci3 j * Bik3 j)
  1 / 2 * CBk

/-- Source lines 310-313: the augmented matrix `M`, `4 * J` on top of a row of ones. -/
def augmentedM {n : Nat} (poly : Fin n → Fin 3 → K) : Fin (n + 1) → Fin n → K :=
  Fin.snoc (fun i k => 4 * polygonJ poly i k) (fun _ => 1)

/-- Source lines 315-319: the augmented right-hand side `b_`, `4 * b` followed by `1`. -/
def augmentedB {n : Nat} (poly : Fin n → Fin 3 → K) : Fin (n + 1) → K :=
  Fin.snoc (fun i => 4 * polygonB poly i) 1

/-- Source lines 254-322.  `find_polygon_weights(poly, weights)`: the solve of the augmented
system; `topRows(val)` keeps all `val` entries of the solution. -/
def find_polygon_weights (solve : Solver K) {n : Nat} (poly : Fin n → Fin 3 → K) :
    Fin n → K :=
  solve (n + 1) n (augmentedM poly) (augmentedB poly)

end Dense

/-! ## Global assembly -/

section Assembly

variable {K : Type} [LinearOrderedField K]

/-- The matrix `poly` filled from the positions of the vertices of face `f`. -/
def facePoly (mesh : SurfaceMesh K) (f : List (Fin mesh.nv)) : Fin f.length → Fin 3 → K :=
  fun i h => mesh.position (f.get i) h

/-- The scatter loop of lines 353-362 and 504-513: for the `j`-th vertex `v` and the `k`-th
vertex `vv` of the face, the triplet `(vv.idx(), v.idx(), Si(k, j))`. -/
def scatterFace {nv : Nat} (f : List (Fin nv)) (Si : Fin f.length → Fin f.length → K) :
    List (Triplet K) :=
  (List.finRange f.length).flatMap (fun j =>
    (List.finRange f.length).map (fun k => ⟨(f.get k).val, (f.get j).val, Si k j⟩))

/-- Source lines 326-368.  `setup_stiffness_matrix(mesh, S)`. -/
def setup_stiffness_matrix (sqrt : K → K) (solve : Solver K) (mesh : SurfaceMesh K) :
    SparseMatrix K :=
  let nv := mesh.nv
  let trip : List (Triplet K) := mesh.faces.flatMap (fun f =>
    let poly := facePoly mesh f
    let w := find_polygon_weights solve poly
    let min := polyTransposeMul poly w
    let Si := localStiffnessMatrix sqrt poly min w
    scatterFace f Si)
  SparseMatrix.scale (-1) (SparseMatrix.resizeFromTriplets nv nv trip)

/-- Source lines 475-522.  `setup_mass_matrix(mesh, M, lumped)`. -/
def setup_mass_matrix (sqrt : K → K) (solve : Solver K) (mesh : SurfaceMesh K)
    (lumped : Bool) : SparseMatrix K :=
  let nv := mesh.nv
  let trip : List (Triplet K) := mesh.faces.flatMap (fun f =>
    let poly := facePoly mesh f
    let w := find_polygon_weights solve poly
    let min := polyTransposeMul poly w
    let Mi := localMassMatrix sqrt poly min w
    scatterFace f Mi)
  let M := SparseMatrix.resizeFromTriplets nv nv trip
  if lumped then lump_matrix M else M

/-- Source lines 220-247.  `setup_face_point_properties(mesh)`: stores for every face the
solved weights and the point `poly.transpose() * w`. -/
def setup_face_point_properties (solve : Solver K) (mesh : SurfaceMesh K) : SurfaceMesh K :=
  { mesh with
    f_point := mesh.faces.map (fun f =>
      let poly := facePoly mesh f
      let w := find_polygon_weights solve poly
      polyTransposeMul poly w)
    f_weights := mesh.faces.map (fun f =>
      let poly := facePoly mesh f
      let w := find_polygon_weights solve poly
      List.ofFn w) }

end Assembly

/-! ## Gradient and divergence -/

section Gradient

variable {K : Type} [LinearOrderedField K]

/-- `pmp::dot` of two points. -/
def dot (a b : Fin 3 → K) : K := a 0 * b 0 + a 1 * b 1 + a 2 * b 2

/-- `pmp::cross` of two points. -/
def cross (a b : Fin 3 → K) : Fin 3 → K :=
  ![a 1 * b 2 - a 2 * b 1, a 2 * b 0 - a 0 * b 2, a 0 * b 1 - a 1 * b 0]

/-- `pmp::norm`: the square root of the squared length. -/
def norm (sqrt : K → K) (v : Fin 3 → K) : K := sqrt (dot v v)

/-- `pmp::triangle_area(p0, p1, p2)`: half the length of the cross product of two edge
vectors. -/
def triangle_area (sqrt : K → K) (p0 p1 p2 : Fin 3 → K) : K :=
  1 / 2 * norm sqrt (cross (p1 - p0) (p2 - p0))

/-- The constant `eps = 1e-10` of line 17. -/
def eps : K := 1 / 10000000000

/-- Source lines 118-134.  `gradient_hat_function(i, j, k)`. -/
def gradient_hat_function (sqrt : K → K) (i j k : Fin 3 → K) : Fin 3 → K :=
  let area := triangle_area sqrt i j k
  let site := i - j
  let base := k - j
  let grad : Fin 3 → K :=
    site - fun c => (dot site base / norm sqrt base) * base c / norm sqrt base
  if area < eps then
    0
  else
    let grad : Fin 3 → K := fun c => norm sqrt base * grad c / norm sqrt grad
    fun c => grad c / (2 * area)

/-- Source vertex `from_vertex(h)` of the `i`-th halfedge `h` of `mesh.halfedges(f)`: the
`i`-th vertex of `mesh.vertices(f)` is the target of that halfedge, its source is the
cyclically preceding vertex. -/
def heFrom {nv : Nat} (f : List (Fin nv)) (i : Fin f.length) : Fin nv :=
  f.get ⟨(i.val + (f.length - 1)) % f.length, Nat.mod_lt _ i.pos⟩

/-- Target vertex `to_vertex(h)` of the `i`-th halfedge of `mesh.halfedges(f)`. -/
def heTo {nv : Nat} (f : List (Fin nv)) (i : Fin f.length) : Fin nv := f.get i

/-- Source lines 156-174: the triplets that the halfedge loop of `setup_Gradient_Matrix`
emits for one face `f` with index `fi`, `k` being the number of fan triangles emitted
before. -/
def faceGradientTriplets (sqrt : K → K) (mesh : SurfaceMesh K) (f : List (Fin mesh.nv))
    (fi k : Nat) : List (Triplet K) :=
  let p := mesh.area_points fi
  (List.finRange f.length).flatMap (fun i =>
    let v0 := heFrom f i
    let v1 := heTo f i
    let p0 := mesh.position v0
    let p1 := mesh.position v1
    let gradient_p := gradient_hat_function sqrt p p0 p1
    let gradient_p0 := gradient_hat_function sqrt p0 p1 p
    let gradient_p1 := gradient_hat_function sqrt p1 p p0
    (List.finRange 3).flatMap (fun j =>
      [⟨3 * (k + i.val) + j.val, mesh.nv + fi, gradient_p j⟩,
       ⟨3 * (k + i.val) + j.val, v0.val, gradient_p0 j⟩,
       ⟨3 * (k + i.val) + j.val, v1.val, gradient_p1 j⟩]))

/-- The face loop of lines 154-175 from the face with index `fi` on, `k` being the number of
fan triangles already emitted. -/
def gradientTriplets (sqrt : K → K) (mesh : SurfaceMesh K) :
    List (List (Fin mesh.nv)) → Nat → Nat → List (Triplet K)
  | [], _, _ => []
  | f :: rest, fi, k =>
    faceGradientTriplets sqrt mesh f fi k
      ++ gradientTriplets sqrt mesh rest (fi + 1) (k + f.length)

/-- Total number of fan triangles, the sum of the face valences. -/
def nr_triangles (mesh : SurfaceMesh K) : Nat := (mesh.faces.map List.length).sum

/-- Source lines 138-180.  `setup_Gradient_Matrix(mesh, G)`. -/
def setup_Gradient_Matrix (sqrt : K → K) (mesh : SurfaceMesh K) : SparseMatrix K :=
  let A := setup_prolongation_matrix mesh
  let nv := mesh.nv
  let nf := mesh.n_faces
  let triplets := gradientTriplets sqrt mesh mesh.faces 0 0
  let G := SparseMatrix.resizeFromTriplets (3 * nr_triangles mesh) (nv + nf) triplets
  SparseMatrix.mul G A

/-- Source lines 200-210: the triplets that the halfedge loop of
`setup_Gradient_Mass_Matrix` emits for one face `f` with index `fi`, `c` being the number of
rows emitted before. -/
def faceGradientMassTriplets (sqrt : K → K) (mesh : SurfaceMesh K) (f : List (Fin mesh.nv))
    (fi c : Nat) : List (Triplet K) :=
  (List.finRange f.length).flatMap (fun i =>
    let p0 := mesh.position (heFrom f i)
    let p1 := mesh.position (heTo f i)
    let area := triangle_area sqrt p0 p1 (mesh.area_points fi)
    (List.finRange 3).map (fun j =>
      let idx := c + 3 * i.val + j.val
      ⟨idx, idx, area⟩))

/-- The face loop of lines 198-212 from the face with index `fi` on, `c` being the number of
rows already emitted; the result is the triplet list and the final value of `c`. -/
def gradientMassTriplets (sqrt : K → K) (mesh : SurfaceMesh K) :
    List (List (Fin mesh.nv)) → Nat → Nat → List (Triplet K) × Nat
  | [], _, c => ([], c)
  | f :: rest, fi, c =>
    let valence := f.length
    let r := gradientMassTriplets sqrt mesh rest (fi + 1) (c + valence * 3)
    (faceGradientMassTriplets sqrt mesh f fi c ++ r.1, r.2)

/-- Source lines 192-216.  `setup_Gradient_Mass_Matrix(mesh, M)`. -/
def setup_Gradient_Mass_Matrix (sqrt : K → K) (mesh : SurfaceMesh K) : SparseMatrix K :=
  let r := gradientMassTriplets sqrt mesh mesh.faces 0 0
  SparseMatrix.resizeFromTriplets r.2 r.2 r.1

/-- Source lines 184-189.  `setup_Divergence_Matrix(mesh, Gt)`: `-G.transpose() * M`. -/
def setup_Divergence_Matrix (sqrt : K → K) (mesh : SurfaceMesh K) : SparseMatrix K :=
  let G := setup_Gradient_Matrix sqrt mesh
  let M := setup_Gradient_Mass_Matrix sqrt mesh
  SparseMatrix.mul (SparseMatrix.scale (-1) (SparseMatrix.transpose G)) M

/-- The gradient that the three hat-function rows of the `i`-th fan triangle of face `f`
(index `fi`) assign to a field `z` on the vertices and virtual points. -/
def fanGradient (sqrt : K → K) (mesh : SurfaceMesh K) (f : List (Fin mesh.nv)) (fi : Nat)
    (i : Fin f.length) (z : Nat → K) : Fin 3 → K :=
  let p := mesh.area_points fi
  let p0 := mesh.position (heFrom f i)
  let p1 := mesh.position (heTo f i)
  fun j => gradient_hat_function sqrt p p0 p1 j * z (mesh.nv + fi)
    + gradient_hat_function sqrt p0 p1 p j * z (heFrom f i).val
    + gradient_hat_function sqrt p1 p p0 j * z (heTo f i).val

/-- The area that `setup_Gradient_Mass_Matrix` stores for the `i`-th fan triangle of face
`f` (index `fi`). -/
def fanArea (sqrt : K → K) (mesh : SurfaceMesh K) (f : List (Fin mesh.nv)) (fi : Nat)
    (i : Fin f.length) : K :=
  triangle_area sqrt (mesh.position (heFrom f i)) (mesh.position (heTo f i))
    (mesh.area_points fi)

/-- Area-weighted product of the fan gradients of two fields over one face. -/
def faceEnergy (sqrt : K → K) (mesh : SurfaceMesh K) (f : List (Fin mesh.nv)) (fi : Nat)
    (z x : Nat → K) : K :=
  ∑ i, fanArea sqrt mesh f fi i
    * dot (fanGradient sqrt mesh f fi i z) (fanGradient sqrt mesh f fi i x)

/-- Sum of `faceEnergy` over a list of faces whose first face has index `fi`. -/
def energySum (sqrt : K → K) (mesh : SurfaceMesh K) (z x : Nat → K) :
    List (List (Fin mesh.nv)) → Nat → K
  | [], _ => 0
  | f :: rest, fi => faceEnergy sqrt mesh f fi z x + energySum sqrt mesh z x rest (fi + 1)

/-- The face properties of the mesh are the ones `setup_face_point_properties` stores: for
every face the solved weights and the point `poly.transpose() * w`. -/
def HasStoredFaceProperties (solve : Solver K) (m : SurfaceMesh K) : Prop :=
  m.f_point = m.faces.map (fun f =>
      polyTransposeMul (facePoly m f) (find_polygon_weights solve (facePoly m f))) ∧
    m.f_weights = m.faces.map (fun f =>
      List.ofFn (find_polygon_weights solve (facePoly m f)))

/-- The product of a triplet list with a vector, at row `r`. -/
def applyL (ts : List (Triplet K)) (u : Nat → K) (r : Nat) : K :=
  (ts.map (fun t => if t.row = r then t.value * u t.col else 0)).sum

end Gradient

/-! ## The least-squares solve -/

section LeastSquaresSpec

variable {K : Type} [LinearOrderedField K]

/-- Squared residual `|M w - b|^2` of a dense linear system. -/
def residualSq {m n : Nat} (M : Fin m → Fin n → K) (b : Fin m → K) (w : Fin n → K) : K :=
  ∑ r, (∑ c, M r c * w c - b r) ^ 2

/-- The vector `w` solves `M w = b` in the least-squares sense: no vector has a smaller
residual. -/
def IsLeastSquares {m n : Nat} (M : Fin m → Fin n → K) (b : Fin m → K) (w : Fin n → K) :
    Prop :=
  ∀ v : Fin n → K, residualSq M b w ≤ residualSq M b v

/-- The vector `w` is the minimum-norm least-squares solution of `M w = b`, the result of
`completeOrthogonalDecomposition().solve` in exact arithmetic. -/
def IsMinNormLeastSquares {m n : Nat} (M : Fin m → Fin n → K) (b : Fin m → K)
    (w : Fin n → K) : Prop :=
  IsLeastSquares M b w ∧ ∀ v : Fin n → K, IsLeastSquares M b v → ∑ c, w c ^ 2 ≤ ∑ c, v c ^ 2

/-- Squared length of the cross product of `a - q` and `b - q`: four times the squared area
of the triangle `(q, a, b)`. -/
def crossSq (q a b : Fin 3 → K) : K :=
  let c := cross (a - q) (b - q)
  dot c c

/-- Squared area of the triangle `(q, a, b)`. -/
def triangleAreaSq (q a b : Fin 3 → K) : K := 1 / 4 * crossSq q a b

/-- Sum over the boundary edges `j` of the squared area of the triangle
`(q, x_j, x_{j+1})`. -/
def fanAreaSq {n : Nat} (poly : Fin n → Fin 3 → K) (q : Fin 3 → K) : K :=
  ∑ j, triangleAreaSq q (poly j) (poly (nextIdx j))

/-- Edge vector `d = pi - pj` of the boundary edge starting at row `j` (line 279). -/
def edgeVec {n : Nat} (poly : Fin n → Fin 3 → K) (j : Fin n) : Fin 3 → K :=
  poly j - poly (nextIdx j)

/-- The form `sum_j (d_j × y) . (d_j × (x_j - q))`: minus half the derivative of
`sum_j |d_j × (x_j - q)|^2` at `q` in direction `y`. -/
def areaForm {n : Nat} (poly : Fin n → Fin 3 → K) (y q : Fin 3 → K) : K :=
  ∑ j, dot (cross (edgeVec poly j) y) (cross (edgeVec poly j) (poly j - q))

/-- The vector `sum_j (d_j × (x_j - q)) × d_j` representing `areaForm` in its first
argument. -/
def areaGrad {n : Nat} (poly : Fin n → Fin 3 → K) (q : Fin 3 → K) : Fin 3 → K :=
  fun c => ∑ j, cross (cross (edgeVec poly j) (poly j - q)) (edgeVec poly j) c

end LeastSquaresSpec

/-! ## Area computations -/

section Area

variable {K : Type} [LinearOrderedField K]

/-- `pmp::centroid(mesh, f)`: the positions of the vertices of the face are summed and the
sum is divided by their number. -/
def centroid (mesh : SurfaceMesh K) (f : List (Fin mesh.nv)) : Fin 3 → K :=
  fun h => (∑ i : Fin f.length, mesh.position (f.get i) h) / (f.length : K)

/-- Source lines 79-93.  `face_area(mesh, f)`: the areas of the triangles spanned by the
centroid `C` and the two end points `Q`, `R` of every halfedge of the face are summed. -/
def face_area (sqrt : K → K) (mesh : SurfaceMesh K) (f : List (Fin mesh.nv)) : K :=
  let C := centroid mesh f
  ∑ i : Fin f.length,
    triangle_area sqrt C (mesh.position (heFrom f i)) (mesh.position (heTo f i))

/-- Source lines 69-75.  `polygon_surface_area(mesh)`: the face areas are accumulated over
the faces, starting from zero. -/
def polygon_surface_area (sqrt : K → K) (mesh : SurfaceMesh K) : K :=
  mesh.faces.foldl (fun area f => area + face_area sqrt mesh f) 0

/-- Source lines 100-111: one pass of the face loop of `area_weighted_centroid`, acting on
the pair `(center, area)`. -/
def centroidStep (sqrt : K → K) (mesh : SurfaceMesh K) (s : (Fin 3 → K) × K)
    (f : List (Fin mesh.nv)) : (Fin 3 → K) × K :=
  let count := f.length
  let c : Fin 3 → K := fun h => (∑ i : Fin f.length, mesh.position (f.get i) h) / (count : K)
  let a := face_area sqrt mesh f
  (fun h => s.1 h + a * c h, s.2 + a)

/-- Source lines 97-114.  `area_weighted_centroid(mesh)`.  The final `center /= area` has no
value when the accumulated area is zero (the floating-point quotient is not a number); the
result is `none` then. -/
def area_weighted_centroid (sqrt : K → K) (mesh : SurfaceMesh K) : Option (Fin 3 → K) :=
  let s := mesh.faces.foldl (centroidStep sqrt mesh) (0, 0)
  if s.2 = 0 then none else some (fun h => s.1 h / s.2)

end Area

/-! ## Reference forms used to compare the code with its description -/

section Reference

variable {K : Type} [LinearOrderedField K]

/-- Heron's formula: the area of a triangle with edge lengths `a`, `b`, `c`. -/
def heronArea (sqrt : K → K) (a b c : K) : K :=
  1 / 4 * sqrt ((a + b + c) * (-a + b + c) * (a - b + c) * (a + b - c))

/-- Heron area of the kite spanned by the boundary edge `(i, i1)` and the point `min`, from
its three edge lengths. -/
def kiteHeronArea (sqrt : K → K) {n : Nat} (poly : Fin n → Fin 3 → K) (min : Fin 3 → K)
    (i : Fin n) : K :=
  heronArea sqrt (sqrt (squaredNorm (poly (nextIdx i) - min)))
    (sqrt (squaredNorm (poly i - min))) (sqrt (squaredNorm (poly i - poly (nextIdx i))))

/-- The kite loop of the mass matrix with a tolerance: the kite of edge `(i, i1)` is
accumulated only if its area exceeds `tol`, otherwise it is skipped. -/
def massKiteSkipping (tol : K) (sqrt : K → K) {n : Nat} (poly : Fin n → Fin 3 → K)
    (min : Fin 3 → K) (s : (Fin n → Fin n → K) × (Fin (n + 1) → K)) (i : Fin n) :
    (Fin n → Fin n → K) × (Fin (n + 1) → K) :=
  if massArea sqrt poly min i > tol then massKite sqrt poly min s i else s

/-- The local mass matrix that accumulates only the kites whose area exceeds `tol`. -/
def localMassMatrixSkipping (tol : K) (sqrt : K → K) {n : Nat} (poly : Fin n → Fin 3 → K)
    (min : Fin 3 → K) (w : Fin n → K) : Fin n → Fin n → K :=
  sandwich w ((List.finRange n).foldl (massKiteSkipping tol sqrt poly min) (0, 0))

/-- The squared-area functional `sum_j |(x_j - p) × (x_{j+1} - p)|^2` of a point `p`. -/
def sqAreaFunctional {n : Nat} (poly : Fin n → Fin 3 → K) (p : Fin 3 → K) : K :=
  ∑ j, crossSq p (poly j) (poly (nextIdx j))

end Reference

/-! ## Example inputs -/

section Examples

/-- A small square sparse matrix with a duplicate-free entry list. -/
def exampleMatrix : SparseMatrix ℚ := ⟨2, 2, [⟨0, 1, 3⟩, ⟨0, 0, 2⟩, ⟨1, 0, 5⟩]⟩

/-- The mesh made of the single triangle `(0,0,0), (1,0,0), (0,1,0)`, without stored face
properties. -/
def triangleMesh (K : Type) [LinearOrderedField K] : SurfaceMesh K :=
  { nv := 3
    position := ![![0, 0, 0], ![1, 0, 0], ![0, 1, 0]]
    faces := [[0, 1, 2]]
    f_point := []
    f_weights := [] }

/-- A solver stub returning the constant vector `1/3`, the exact solution for a triangle. -/
def thirdSolver (K : Type) [LinearOrderedField K] : Solver K := fun _ _ _ _ _ => 1 / 3

/-- The single-triangle mesh after `setup_face_point_properties` with the exact triangle
solve: the stored weights are `(1/3, 1/3, 1/3)` and the stored point is the centroid. -/
def storedTriangleMesh (K : Type) [LinearOrderedField K] : SurfaceMesh K :=
  setup_face_point_properties (thirdSolver K) (triangleMesh K)

/-- The mesh with `n` vertices at the given positions and the single face
`0, 1, .., n-1`, without stored face properties. -/
def singleFaceMesh {K : Type} (n : Nat) (pos : Fin n → Fin 3 → K) : SurfaceMesh K :=
  { nv := n
    position := pos
    faces := [List.finRange n]
    f_point := []
    f_weights := [] }

/-- The planar unit square `(0,0,0), (1,0,0), (1,1,0), (0,1,0)` as a polygon matrix. -/
def unitSquare (K : Type) [LinearOrderedField K] : Fin 4 → Fin 3 → K :=
  ![![0, 0, 0], ![1, 0, 0], ![1, 1, 0], ![0, 1, 0]]

/-- The centre `(1/2, 1/2, 0)` of the unit square. -/
def squareCentre (K : Type) [LinearOrderedField K] : Fin 3 → K := ![1 / 2, 1 / 2, 0]

/-- A solver stub returning the constant vector `1/4`, the exact solution for the unit
square. -/
def quarterSolver (K : Type) [LinearOrderedField K] : Solver K := fun _ _ _ _ _ => 1 / 4

/-- The mesh made of the single quad face `(0,0,0), (1,0,0), (1,1,0), (0,1,0)`, without
stored face properties. -/
def squareMesh (K : Type) [LinearOrderedField K] : SurfaceMesh K :=
  { nv := 4
    position := unitSquare K
    faces := [[0, 1, 2, 3]]
    f_point := []
    f_weights := [] }

/-- A small right triangle with edge lengths `3/10000`, `4/10000`, `5/10000`; its area is
`6e-8`, between half the tolerance `1e-7` and the tolerance. -/
def tinyTriangle (K : Type) [LinearOrderedField K] : Fin 3 → Fin 3 → K :=
  ![![0, 0, 0], ![3 / 10000, 0, 0], ![0, 4 / 10000, 0]]

/-- The mesh made of the single degenerate triangle `(0,0,0), (1,0,0), (2,0,0)`, whose
vertices lie on a line. -/
def collinearMesh (K : Type) [LinearOrderedField K] : SurfaceMesh K :=
  { nv := 3
    position := ![![0, 0, 0], ![1, 0, 0], ![2, 0, 0]]
    faces := [[0, 1, 2]]
    f_point := []
    f_weights := [] }

end Examples

/-! ## Sparse matrices: coefficients of assembled triplet lists -/

section SparseLemmas

variable {K : Type} [LinearOrderedField K]

theorem sum_map_flatMap {α β : Type} (l : List α) (g : α → List β) (h : β → K) :
    ((l.flatMap g).map h).sum = (l.map (fun a => ((g a).map h).sum)).sum := by
  induction l with
  | nil => simp
  | cons a l ih => simp [List.flatMap_cons, ih]

theorem sum_map_range (n : Nat) (f : Nat → K) :
    ((List.range n).map f).sum = ∑ i in range n, f i := by
  induction n with
  | zero => simp
  | succ n ih => simp [List.range_succ, Finset.sum_range_succ, ih]

theorem sum_map_finRange (n : Nat) (f : Fin n → K) :
    ((List.finRange n).map f).sum = ∑ i, f i := by
  rw [Fin.sum_univ_def]

theorem sum_map_zero {α : Type} (l : List α) (f : α → K) (h : ∀ a ∈ l, f a = 0) :
    (l.map f).sum = 0 := by
  induction l with
  | nil => simp
  | cons a l ih =>
    simp only [List.map_cons, List.sum_cons]
    rw [h a (List.mem_cons_self _ _), ih (fun b hb => h b (List.mem_cons_of_mem _ hb))]
    simp

/-- Summing the contributions of a triplet list over one row. -/
theorem sum_range_contrib (ts : List (Triplet K)) (C r : Nat)
    (hC : ∀ t ∈ ts, t.col < C) :
    ∑ c in range C, (ts.map (fun t => t.contrib r c)).sum
      = (ts.map (fun t => if t.row = r then t.value else 0)).sum := by
  induction ts with
  | nil => simp
  | cons t ts ih =>
    simp only [List.map_cons, List.sum_cons, Finset.sum_add_distrib]
    rw [ih (fun b hb => hC b (List.mem_cons_of_mem _ hb))]
    congr 1
    have ht := hC t (List.mem_cons_self _ _)
    by_cases hr : t.row = r
    · simp [Triplet.contrib, hr, ht]
    · simp [Triplet.contrib, hr]

theorem coeff_lump (D : SparseMatrix K) (i j : Nat) :
    (lump_matrix D).coeff i j
      = if i = j then (D.entries.map (fun t => if t.row = i then t.value else 0)).sum else 0 := by
  simp only [lump_matrix, SparseMatrix.setFromTriplets, SparseMatrix.coeff, List.map_map]
  by_cases hij : i = j
  · subst hij
    simp only [if_true]
    congr 1
    apply List.map_congr_left
    intro t _
    simp [Triplet.contrib]
  · simp only [hij, if_false]
    apply sum_map_zero
    intro t _
    simp only [Function.comp, Triplet.contrib]
    rw [if_neg]
    rintro ⟨h1, h2⟩
    exact hij (h1.symm.trans h2)

theorem rowSum_eq (D : SparseMatrix K) (hD : D.InRange) (r : Nat) :
    D.rowSum r = (D.entries.map (fun t => if t.row = r then t.value else 0)).sum := by
  unfold SparseMatrix.rowSum SparseMatrix.coeff
  exact sum_range_contrib _ _ _ (fun t ht => (hD t ht).2)

theorem mem_scatterFace {R : Type} {nv : Nat} (f : List (Fin nv))
    (Si : Fin f.length → Fin f.length → R) (t : Triplet R) (ht : t ∈ scatterFace f Si) : t.row < nv ∧ t.col < nv := by
  simp only [scatterFace, List.mem_flatMap, List.mem_map] at ht
  obtain ⟨j, _, k, _, rfl⟩ := ht
  exact ⟨(f.get k).isLt, (f.get j).isLt⟩

theorem mass_inRange (sqrt : K → K) (solve : Solver K) (mesh : SurfaceMesh K) :
    (setup_mass_matrix sqrt solve mesh false).InRange := by
  intro t ht
  have ht2 : t ∈ mesh.faces.flatMap (fun f => scatterFace f
      (localMassMatrix sqrt (facePoly mesh f)
        (polyTransposeMul (facePoly mesh f) (find_polygon_weights solve (facePoly mesh f)))
        (find_polygon_weights solve (facePoly mesh f)))) := ht
  rw [List.mem_flatMap] at ht2
  obtain ⟨f, _, hf⟩ := ht2
  exact mem_scatterFace _ _ t hf

theorem lump_inRange {R : Type} (D : SparseMatrix R) (hsq : D.rows = D.cols) (hD : D.InRange) :
    (lump_matrix D).InRange := by
  intro t ht
  simp only [lump_matrix, SparseMatrix.setFromTriplets, List.mem_map] at ht
  obtain ⟨s, hs, rfl⟩ := ht
  exact ⟨(hD s hs).1, hsq ▸ (hD s hs).1⟩

theorem prolongation_coeff (mesh : SurfaceMesh K) (r c : Nat) :
    (setup_prolongation_matrix mesh).coeff r c
      = (∑ v : Fin mesh.nv, if v.val = r ∧ v.val = c then (1 : K) else 0)
        + ∑ j in range mesh.n_faces, ∑ i : Fin (mesh.face j).length,
            if mesh.nv + j = r ∧ ((mesh.face j).get i).val = c
              then vecAt (mesh.area_weights j) i.val else 0 := by
  simp only [setup_prolongation_matrix, SparseMatrix.resizeFromTriplets, SparseMatrix.coeff,
    List.map_append, List.sum_append, List.map_map, sum_map_flatMap, Function.comp,
    sum_map_range, sum_map_finRange, Triplet.contrib]

theorem prolongation_top (mesh : SurfaceMesh K) (r c : Nat) (hr : r < mesh.nv) :
    (setup_prolongation_matrix mesh).coeff r c = if r = c then 1 else 0 := by
  rw [prolongation_coeff]
  have h2 : (∑ j in range mesh.n_faces, ∑ i : Fin (mesh.face j).length,
            if mesh.nv + j = r ∧ ((mesh.face j).get i).val = c
              then vecAt (mesh.area_weights j) i.val else 0) = 0 := by
    apply Finset.sum_eq_zero
    intro j _
    apply Finset.sum_eq_zero
    intro i _
    rw [if_neg]
    rintro ⟨h, _⟩
    omega
  rw [h2, add_zero]
  rw [Finset.sum_eq_single (⟨r, hr⟩ : Fin mesh.nv)]
  · by_cases hrc : r = c <;> simp [hrc]
  · intro v _ hv
    rw [if_neg]
    rintro ⟨h, _⟩
    exact hv (Fin.ext h)
  · intro h
    exact absurd (Finset.mem_univ _) h

theorem prolongation_bottom (mesh : SurfaceMesh K) (j c : Nat) (hj : j < mesh.n_faces) :
    (setup_prolongation_matrix mesh).coeff (mesh.nv + j) c
      = ∑ i : Fin (mesh.face j).length,
          if ((mesh.face j).get i).val = c then vecAt (mesh.area_weights j) i.val else 0 := by
  rw [prolongation_coeff]
  have h1 : (∑ v : Fin mesh.nv, if v.val = mesh.nv + j ∧ v.val = c then (1 : K) else 0) = 0 := by
    apply Finset.sum_eq_zero
    intro v _
    rw [if_neg]
    rintro ⟨h, _⟩
    have := v.isLt
    omega
  rw [h1, zero_add, Finset.sum_eq_single j]
  · simp
  · intro b _ hb
    apply Finset.sum_eq_zero
    intro i _
    rw [if_neg]
    rintro ⟨h, _⟩
    omega
  · intro h
    exact absurd (Finset.mem_range.mpr hj) h

theorem prolongation_rowSum (mesh : SurfaceMesh K) (j : Nat) (hj : j < mesh.n_faces) :
    (setup_prolongation_matrix mesh).rowSum (mesh.nv + j)
      = ∑ i : Fin (mesh.face j).length, vecAt (mesh.area_weights j) i.val := by
  have hc : (setup_prolongation_matrix mesh).cols = mesh.nv := rfl
  unfold SparseMatrix.rowSum
  rw [hc]
  simp only [prolongation_bottom mesh j _ hj]
  rw [Finset.sum_comm]
  apply Finset.sum_congr rfl
  intro i _
  rw [Finset.sum_ite_eq]
  simp

theorem sum_vecAt (w : List K) (n : Nat) (h : w.length = n) :
    ∑ i : Fin n, vecAt w i.val = w.sum := by
  subst h
  rw [← sum_map_finRange]
  conv_rhs => rw [← List.ofFn_get w]
  rw [List.ofFn_eq_map]
  congr 1
  apply List.map_congr_left
  intro i _
  simp [vecAt, List.getD_eq_getElem?_getD]

end SparseLemmas

/-! ## Local matrices as bilinear forms -/

section LocalLemmas

variable {K : Type} [LinearOrderedField K]

theorem bilin_addAt {n : Nat} (M : Fin n → Fin n → K) (a b : Fin n) (x : K)
    (u v : Fin n → K) : bilin (addAt M a b x) u v = bilin M u v + u a * x * v b := by
  unfold bilin addAt
  have h : ∀ r c, u r * (if r = a ∧ c = b then M r c + x else M r c) * v c
      = u r * M r c * v c + (if r = a then (if c = b then u r * x * v c else 0) else 0) := by
    intro r c
    by_cases hr : r = a <;> by_cases hc : c = b <;> simp [hr, hc]
    ring
  simp only [h, Finset.sum_add_distrib]
  congr 1
  rw [Finset.sum_eq_single a]
  · simp
  · intro r _ hr
    simp [hr]
  · intro h
    exact absurd (Finset.mem_univ _) h

theorem sum_addAtVec_left {n m : Nat} (ln : Fin m → K) (a : Fin n) (e : Fin n → Fin m)
    (he : Function.Injective e) (x : K) (v : Fin n → K) :
    ∑ c, addAtVec ln (e a) x (e c) * v c = ∑ c, ln (e c) * v c + x * v a := by
  unfold addAtVec
  have h : ∀ c, (if e c = e a then ln (e c) + x else ln (e c)) * v c
      = ln (e c) * v c + (if c = a then x * v c else 0) := by
    intro c
    by_cases hc : c = a
    · simp [hc]; ring
    · have : e c ≠ e a := fun h => hc (he h)
      simp [hc, this]
  simp only [h, Finset.sum_add_distrib]
  simp

theorem sum_addAtVec_other {n m : Nat} (ln : Fin m → K) (a : Fin m) (e : Fin n → Fin m)
    (he : ∀ c, e c ≠ a) (x : K) (v : Fin n → K) :
    ∑ c, addAtVec ln a x (e c) * v c = ∑ c, ln (e c) * v c := by
  unfold addAtVec
  apply Finset.sum_congr rfl
  intro c _
  simp [he c]

theorem extBilin_addAt {n : Nat} (w : Fin n → K) (L : Fin n → Fin n → K)
    (ln : Fin (n + 1) → K) (a b : Fin n) (x : K) (u v : Fin n → K) :
    extBilin w (addAt L a b x, ln) u v = extBilin w (L, ln) u v + u a * x * v b := by
  simp only [extBilin, bilin_addAt]
  ring

theorem extBilin_addAtVec_castSucc {n : Nat} (w : Fin n → K) (L : Fin n → Fin n → K)
    (ln : Fin (n + 1) → K) (a : Fin n) (x : K) (u v : Fin n → K) :
    extBilin w (L, addAtVec ln a.castSucc x) u v
      = extBilin w (L, ln) u v + x * (wdot w u * v a + wdot w v * u a) := by
  have h1 := sum_addAtVec_left ln a Fin.castSucc (Fin.castSucc_injective n) x v
  have h2 := sum_addAtVec_left ln a Fin.castSucc (Fin.castSucc_injective n) x u
  have h3 : addAtVec ln a.castSucc x (Fin.last n) = ln (Fin.last n) := by
    simp [addAtVec, (Fin.castSucc_lt_last a).ne']
  simp only [extBilin, h1, h3]
  have h2' : ∑ r, u r * addAtVec ln a.castSucc x r.castSucc
      = ∑ r, u r * ln r.castSucc + x * u a := by
    have e1 : ∑ r, u r * addAtVec ln a.castSucc x r.castSucc
        = ∑ c, addAtVec ln a.castSucc x c.castSucc * u c :=
      Finset.sum_congr rfl (fun r _ => mul_comm _ _)
    have e2 : ∑ r, u r * ln r.castSucc = ∑ c, ln c.castSucc * u c :=
      Finset.sum_congr rfl (fun r _ => mul_comm _ _)
    rw [e1, e2, h2]
  rw [h2']
  ring

theorem extBilin_addAtVec_last {n : Nat} (w : Fin n → K) (L : Fin n → Fin n → K)
    (ln : Fin (n + 1) → K) (x : K) (u v : Fin n → K) :
    extBilin w (L, addAtVec ln (Fin.last n) x) u v
      = extBilin w (L, ln) u v + x * (wdot w u * wdot w v) := by
  have h1 := sum_addAtVec_other ln (Fin.last n) Fin.castSucc
    (fun c => (Fin.castSucc_lt_last c).ne) x v
  have h2 : ∑ r, u r * addAtVec ln (Fin.last n) x r.castSucc = ∑ r, u r * ln r.castSucc := by
    apply Finset.sum_congr rfl
    intro r _
    simp [addAtVec, (Fin.castSucc_lt_last r).ne]
  have h3 : addAtVec ln (Fin.last n) x (Fin.last n) = ln (Fin.last n) + x := by
    simp [addAtVec]
  simp only [extBilin, h1, h2, h3]
  ring


theorem extBilin_stiffnessKite (sqrt : K → K) {n : Nat} (poly : Fin n → Fin 3 → K)
    (min : Fin 3 → K) (w : Fin n → K) (s : (Fin n → Fin n → K) × (Fin (n + 1) → K))
    (i : Fin n) (u v : Fin n → K) :
    extBilin w (stiffnessKite sqrt poly min s i) u v
      = extBilin w s u v + cotForm (stiffnessCoef sqrt poly min i) (u i) (u (nextIdx i))
          (wdot w u) (v i) (v (nextIdx i)) (wdot w v) := by
  unfold stiffnessKite stiffnessCoef
  dsimp only
  split_ifs with h
  · simp only [extBilin_addAt, extBilin_addAtVec_castSucc, extBilin_addAtVec_last, cotForm,
      Matrix.cons_val_zero, Matrix.cons_val_one, Matrix.head_cons, Matrix.cons_val_two,
      Matrix.tail_cons]
    ring
  · simp [cotForm]

theorem extBilin_massKite (sqrt : K → K) {n : Nat} (poly : Fin n → Fin 3 → K)
    (min : Fin 3 → K) (w : Fin n → K) (s : (Fin n → Fin n → K) × (Fin (n + 1) → K))
    (i : Fin n) (u v : Fin n → K) :
    extBilin w (massKite sqrt poly min s i) u v
      = extBilin w s u v + massForm (massArea sqrt poly min i) (u i) (u (nextIdx i))
          (wdot w u) (v i) (v (nextIdx i)) (wdot w v) := by
  unfold massKite massArea
  dsimp only
  simp only [extBilin_addAt, extBilin_addAtVec_castSucc, extBilin_addAtVec_last, massForm]
  ring

theorem extBilin_foldl {n : Nat} (w : Fin n → K)
    (step : (Fin n → Fin n → K) × (Fin (n + 1) → K) → Fin n →
      (Fin n → Fin n → K) × (Fin (n + 1) → K))
    (form : Fin n → K) (u v : Fin n → K)
    (hstep : ∀ s i, extBilin w (step s i) u v = extBilin w s u v + form i)
    (l : List (Fin n)) (s : (Fin n → Fin n → K) × (Fin (n + 1) → K)) :
    extBilin w (l.foldl step s) u v = extBilin w s u v + (l.map form).sum := by
  induction l generalizing s with
  | nil => simp
  | cons a l ih =>
    simp only [List.foldl_cons, List.map_cons, List.sum_cons]
    rw [ih, hstep]
    ring

theorem extBilin_zero {n : Nat} (w u v : Fin n → K) :
    extBilin w ((0 : Fin n → Fin n → K), (0 : Fin (n + 1) → K)) u v = 0 := by
  simp [extBilin, bilin]

theorem bilin_sandwich {n : Nat} (w : Fin n → K)
    (s : (Fin n → Fin n → K) × (Fin (n + 1) → K)) (u v : Fin n → K) :
    bilin (sandwich w s) u v = extBilin w s u v := by
  unfold extBilin bilin sandwich wdot
  have e1 : (∑ i, w i * u i) * (∑ c, s.2 c.castSucc * v c)
      = ∑ r, ∑ c, (w r * u r) * (s.2 c.castSucc * v c) := Finset.sum_mul_sum _ _ _ _
  have e2 : (∑ i, w i * v i) * (∑ r, u r * s.2 r.castSucc)
      = ∑ r, ∑ c, (u r * s.2 r.castSucc) * (w c * v c) := by
    rw [mul_comm]
    exact Finset.sum_mul_sum _ _ _ _
  have e3 : (∑ i, w i * u i) * (∑ i, w i * v i) * s.2 (Fin.last n)
      = ∑ r, ∑ c, (w r * u r) * (w c * v c) * s.2 (Fin.last n) := by
    rw [Finset.sum_mul_sum, Finset.sum_mul]
    apply Finset.sum_congr rfl
    intro r _
    rw [Finset.sum_mul]
  rw [e1, e2, e3]
  simp only [← Finset.sum_add_distrib]
  apply Finset.sum_congr rfl
  intro r _
  apply Finset.sum_congr rfl
  intro c _
  ring

theorem bilin_localStiffnessMatrix (sqrt : K → K) {n : Nat} (poly : Fin n → Fin 3 → K)
    (min : Fin 3 → K) (w u v : Fin n → K) :
    bilin (localStiffnessMatrix sqrt poly min w) u v
      = ∑ i, cotForm (stiffnessCoef sqrt poly min i) (u i) (u (nextIdx i)) (wdot w u)
          (v i) (v (nextIdx i)) (wdot w v) := by
  unfold localStiffnessMatrix
  rw [bilin_sandwich, extBilin_foldl w _ _ u v
    (fun s i => extBilin_stiffnessKite sqrt poly min w s i u v), extBilin_zero, zero_add,
    sum_map_finRange]

theorem bilin_localMassMatrix (sqrt : K → K) {n : Nat} (poly : Fin n → Fin 3 → K)
    (min : Fin 3 → K) (w u v : Fin n → K) :
    bilin (localMassMatrix sqrt poly min w) u v
      = ∑ i, massForm (massArea sqrt poly min i) (u i) (u (nextIdx i)) (wdot w u)
          (v i) (v (nextIdx i)) (wdot w v) := by
  unfold localMassMatrix
  rw [bilin_sandwich, extBilin_foldl w _ _ u v
    (fun s i => extBilin_massKite sqrt poly min w s i u v), extBilin_zero, zero_add,
    sum_map_finRange]

theorem bilin_single {n : Nat} (M : Fin n → Fin n → K) (a b : Fin n) :
    bilin M (Pi.single a 1) (Pi.single b 1) = M a b := by
  unfold bilin
  rw [Finset.sum_eq_single a, Finset.sum_eq_single b]
  · simp
  · intro c _ hc
    simp [Pi.single_apply, hc]
  · intro h
    exact absurd (Finset.mem_univ _) h
  · intro r _ hr
    simp [Pi.single_apply, hr]
  · intro h
    exact absurd (Finset.mem_univ _) h

theorem cotForm_symm (l : Fin 3 → K) (a b c d e f : K) :
    cotForm l a b c d e f = cotForm l d e f a b c := by
  unfold cotForm
  ring

theorem massForm_symm (x : K) (a b c d e f : K) :
    massForm x a b c d e f = massForm x d e f a b c := by
  unfold massForm
  ring

theorem localStiffnessMatrix_symm (sqrt : K → K) {n : Nat} (poly : Fin n → Fin 3 → K)
    (min : Fin 3 → K) (w : Fin n → K) (a b : Fin n) :
    localStiffnessMatrix sqrt poly min w a b = localStiffnessMatrix sqrt poly min w b a := by
  rw [← bilin_single (localStiffnessMatrix sqrt poly min w) a b,
    ← bilin_single (localStiffnessMatrix sqrt poly min w) b a,
    bilin_localStiffnessMatrix, bilin_localStiffnessMatrix]
  exact Finset.sum_congr rfl (fun i _ => cotForm_symm _ _ _ _ _ _ _)

theorem localMassMatrix_symm (sqrt : K → K) {n : Nat} (poly : Fin n → Fin 3 → K)
    (min : Fin 3 → K) (w : Fin n → K) (a b : Fin n) :
    localMassMatrix sqrt poly min w a b = localMassMatrix sqrt poly min w b a := by
  rw [← bilin_single (localMassMatrix sqrt poly min w) a b,
    ← bilin_single (localMassMatrix sqrt poly min w) b a,
    bilin_localMassMatrix, bilin_localMassMatrix]
  exact Finset.sum_congr rfl (fun i _ => massForm_symm _ _ _ _ _ _ _)

end LocalLemmas

/-! ## Global assembly: coefficients, products and quadratic forms -/

section AssemblyLemmas

variable {K : Type} [LinearOrderedField K]

/-- `A * u` of a triplet list, one row. -/
theorem sum_range_contrib_mul (ts : List (Triplet K)) (C r : Nat) (u : Nat → K)
    (hC : ∀ t ∈ ts, t.col < C) :
    ∑ c in range C, (ts.map (fun t => t.contrib r c)).sum * u c
      = (ts.map (fun t => if t.row = r then t.value * u t.col else 0)).sum := by
  induction ts with
  | nil => simp
  | cons t ts ih =>
    simp only [List.map_cons, List.sum_cons, add_mul, Finset.sum_add_distrib]
    rw [ih (fun b hb => hC b (List.mem_cons_of_mem _ hb))]
    congr 1
    have ht := hC t (List.mem_cons_self _ _)
    by_cases hr : t.row = r
    · simp only [Triplet.contrib, hr, true_and, if_true, ite_mul, zero_mul]
      rw [Finset.sum_ite_eq]
      simp [ht]
    · simp [Triplet.contrib, hr]

theorem sum_range_rows (ts : List (Triplet K)) (R : Nat) (x : Nat → K) (g : Triplet K → K)
    (hR : ∀ t ∈ ts, t.row < R) :
    ∑ r in range R, x r * (ts.map (fun t => if t.row = r then g t else 0)).sum
      = (ts.map (fun t => x t.row * g t)).sum := by
  induction ts with
  | nil => simp
  | cons t ts ih =>
    simp only [List.map_cons, List.sum_cons, mul_add, Finset.sum_add_distrib]
    rw [ih (fun b hb => hR b (List.mem_cons_of_mem _ hb))]
    congr 1
    have ht := hR t (List.mem_cons_self _ _)
    simp only [mul_ite, mul_zero]
    rw [Finset.sum_ite_eq]
    simp [ht]

theorem sum_contrib_scatterFace {nv : Nat} (f : List (Fin nv))
    (Si : Fin f.length → Fin f.length → K) (h : Triplet K → K) :
    ((scatterFace f Si).map h).sum
      = ∑ j, ∑ k, h ⟨(f.get k).val, (f.get j).val, Si k j⟩ := by
  unfold scatterFace
  rw [sum_map_flatMap, sum_map_finRange]
  apply Finset.sum_congr rfl
  intro j _
  rw [List.map_map, sum_map_finRange]
  rfl


theorem quadForm_triplets (R C : Nat) (ts : List (Triplet K)) (x : Nat → K)
    (h : ∀ t ∈ ts, t.row < R ∧ t.col < C) :
    (SparseMatrix.mk R C ts).quadForm x = (ts.map (fun t => x t.row * t.value * x t.col)).sum := by
  unfold SparseMatrix.quadForm SparseMatrix.coeff
  simp only [mul_assoc, ← Finset.mul_sum]
  simp only [sum_range_contrib_mul ts C _ x (fun t ht => (h t ht).2)]
  rw [sum_range_rows ts R x (fun t => t.value * x t.col) (fun t ht => (h t ht).1)]

theorem coeff_scale (s : K) (A : SparseMatrix K) (r c : Nat) :
    (SparseMatrix.scale s A).coeff r c = s * A.coeff r c := by
  unfold SparseMatrix.scale SparseMatrix.coeff
  simp only [List.map_map]
  rw [← List.sum_map_mul_left]
  congr 1
  apply List.map_congr_left
  intro t _
  simp only [Function.comp, Triplet.contrib]
  split_ifs <;> simp

theorem quadForm_scale (s : K) (A : SparseMatrix K) (x : Nat → K) :
    (SparseMatrix.scale s A).quadForm x = s * A.quadForm x := by
  unfold SparseMatrix.quadForm
  simp only [coeff_scale, Finset.mul_sum]
  apply Finset.sum_congr rfl
  intro r _
  apply Finset.sum_congr rfl
  intro c _
  have : (SparseMatrix.scale s A).cols = A.cols := rfl
  ring

/-- Coefficient of a matrix assembled from per-face local matrices. -/
theorem coeff_assembled {nv : Nat} (faces : List (List (Fin nv)))
    (loc : (f : List (Fin nv)) → Fin f.length → Fin f.length → K) (a b : Nat) :
    (SparseMatrix.resizeFromTriplets nv nv
        (faces.flatMap (fun f => scatterFace f (loc f)))).coeff a b
      = (faces.map (fun f => ∑ j, ∑ k,
          if (f.get k).val = a ∧ (f.get j).val = b then loc f k j else 0)).sum := by
  unfold SparseMatrix.coeff SparseMatrix.resizeFromTriplets
  simp only [sum_map_flatMap, sum_contrib_scatterFace, Triplet.contrib]

theorem coeff_assembled_symm {nv : Nat} (faces : List (List (Fin nv)))
    (loc : (f : List (Fin nv)) → Fin f.length → Fin f.length → K)
    (hloc : ∀ f j k, loc f j k = loc f k j) (a b : Nat) :
    (SparseMatrix.resizeFromTriplets nv nv
        (faces.flatMap (fun f => scatterFace f (loc f)))).coeff a b
      = (SparseMatrix.resizeFromTriplets nv nv
        (faces.flatMap (fun f => scatterFace f (loc f)))).coeff b a := by
  rw [coeff_assembled, coeff_assembled]
  congr 1
  apply List.map_congr_left
  intro f _
  rw [Finset.sum_comm]
  apply Finset.sum_congr rfl
  intro k _
  apply Finset.sum_congr rfl
  intro j _
  rw [hloc f k j]
  simp only [and_comm]

theorem quadForm_assembled {nv : Nat} (faces : List (List (Fin nv)))
    (loc : (f : List (Fin nv)) → Fin f.length → Fin f.length → K) (x : Nat → K) :
    (SparseMatrix.resizeFromTriplets nv nv
        (faces.flatMap (fun f => scatterFace f (loc f)))).quadForm x
      = (faces.map (fun f => bilin (loc f) (fun i => x (f.get i).val)
          (fun i => x (f.get i).val))).sum := by
  unfold SparseMatrix.resizeFromTriplets
  rw [quadForm_triplets]
  · simp only [sum_map_flatMap, sum_contrib_scatterFace]
    congr 1
    apply List.map_congr_left
    intro f _
    unfold bilin
    rw [Finset.sum_comm]
  · intro t ht
    rw [List.mem_flatMap] at ht
    obtain ⟨f, _, hf⟩ := ht
    exact mem_scatterFace _ _ t hf

theorem cotForm_stiffnessCoef_nonneg (sqrt : K → K) {n : Nat} (poly : Fin n → Fin 3 → K)
    (min : Fin 3 → K) (i : Fin n) (a b t : K) :
    0 ≤ cotForm (stiffnessCoef sqrt poly min i) a b t a b t := by
  unfold stiffnessCoef cotForm
  dsimp only
  split_ifs with h
  · have hpos : (0 : K) < areaTol := by unfold areaTol; norm_num
    have harea := lt_trans hpos h
    simp only [Matrix.cons_val_zero, Matrix.cons_val_one, Matrix.head_cons, Matrix.cons_val_two,
      Matrix.tail_cons]
    set area := 1 / 2 * sqrt _ with harea_def
    have key : ∀ (N0 N1 N2 : K), 0 ≤ N0 * ((b - t) * (b - t)) + N1 * ((a - t) * (a - t))
        + N2 * ((a - b) * (a - b)) →
        0 ≤ 1 / 4 * N0 / area * ((b - t) * (b - t)) + 1 / 4 * N1 / area * ((a - t) * (a - t))
          + 1 / 4 * N2 / area * ((a - b) * (a - b)) := by
      intro N0 N1 N2 hN
      have : 1 / 4 * N0 / area * ((b - t) * (b - t)) + 1 / 4 * N1 / area * ((a - t) * (a - t))
          + 1 / 4 * N2 / area * ((a - b) * (a - b))
          = (N0 * ((b - t) * (b - t)) + N1 * ((a - t) * (a - t))
            + N2 * ((a - b) * (a - b))) / (4 * area) := by
        field_simp
      rw [this]
      exact div_nonneg hN (by positivity)
    apply key
    have e : (squaredNorm (poly i - min) + squaredNorm (poly i - poly (nextIdx i))
          - squaredNorm (poly (nextIdx i) - min)) * ((b - t) * (b - t))
        + (squaredNorm (poly i - poly (nextIdx i)) + squaredNorm (poly (nextIdx i) - min)
          - squaredNorm (poly i - min)) * ((a - t) * (a - t))
        + (squaredNorm (poly (nextIdx i) - min) + squaredNorm (poly i - min)
          - squaredNorm (poly i - poly (nextIdx i))) * ((a - b) * (a - b))
        = 2 * (((b - t) * (poly i 0 - min 0) - (a - t) * (poly (nextIdx i) 0 - min 0)) ^ 2
          + ((b - t) * (poly i 1 - min 1) - (a - t) * (poly (nextIdx i) 1 - min 1)) ^ 2
          + ((b - t) * (poly i 2 - min 2) - (a - t) * (poly (nextIdx i) 2 - min 2)) ^ 2) := by
      simp only [squaredNorm, Pi.sub_apply]
      ring
    rw [e]
    positivity
  · simp


theorem dot_self_nonneg (v : Fin 3 → K) : 0 ≤ dot v v := by
  unfold dot
  exact add_nonneg (add_nonneg (mul_self_nonneg _) (mul_self_nonneg _)) (mul_self_nonneg _)

theorem crossSq_nonneg (q a b : Fin 3 → K) : 0 ≤ crossSq q a b := by
  unfold crossSq
  exact dot_self_nonneg _

theorem squaredNorm_nonneg (v : Fin 3 → K) : 0 ≤ squaredNorm v := by
  unfold squaredNorm
  exact add_nonneg (add_nonneg (mul_self_nonneg _) (mul_self_nonneg _)) (mul_self_nonneg _)

/-- Heron's product of the three edge lengths of the kite `(x, y, p)` is four times the
squared length of the cross product of its two spokes. -/
theorem heron_arg (sqrt : K → K) (hs : IsSqrt sqrt) (x y p : Fin 3 → K) :
    (sqrt (squaredNorm (y - p)) + (sqrt (squaredNorm (x - p)) + sqrt (squaredNorm (x - y))))
      * (sqrt (squaredNorm (x - y)) - (sqrt (squaredNorm (y - p)) - sqrt (squaredNorm (x - p))))
      * (sqrt (squaredNorm (x - y)) + (sqrt (squaredNorm (y - p)) - sqrt (squaredNorm (x - p))))
      * (sqrt (squaredNorm (y - p)) + (sqrt (squaredNorm (x - p)) - sqrt (squaredNorm (x - y))))
      = 4 * crossSq p x y := by
  have h0 := (hs _ (squaredNorm_nonneg (y - p))).2
  have h1 := (hs _ (squaredNorm_nonneg (x - p))).2
  have h2 := (hs _ (squaredNorm_nonneg (x - y))).2
  set l0 := sqrt (squaredNorm (y - p))
  set l1 := sqrt (squaredNorm (x - p))
  set l2 := sqrt (squaredNorm (x - y))
  have e : (l0 + (l1 + l2)) * (l2 - (l0 - l1)) * (l2 + (l0 - l1)) * (l0 + (l1 - l2))
      = 2 * ((l0 * l0) * (l1 * l1) + (l1 * l1) * (l2 * l2) + (l2 * l2) * (l0 * l0))
        - (l0 * l0) * (l0 * l0) - (l1 * l1) * (l1 * l1) - (l2 * l2) * (l2 * l2) := by
    ring
  rw [e, h0, h1, h2]
  simp only [squaredNorm, crossSq, dot, cross, Pi.sub_apply, Matrix.cons_val_zero,
    Matrix.cons_val_one, Matrix.head_cons, Matrix.cons_val_two, Matrix.tail_cons]
  ring

theorem massArea_nonneg (sqrt : K → K) (hs : IsSqrt sqrt) {n : Nat} (poly : Fin n → Fin 3 → K)
    (min : Fin 3 → K) (i : Fin n) : 0 ≤ massArea sqrt poly min i := by
  unfold massArea
  dsimp only
  rw [heron_arg sqrt hs]
  have := (hs (4 * crossSq min (poly i) (poly (nextIdx i)))
    (mul_nonneg (by norm_num) (crossSq_nonneg _ _ _))).1
  positivity

theorem massForm_nonneg (x : K) (hx : 0 ≤ x) (a b t : K) : 0 ≤ massForm x a b t a b t := by
  unfold massForm
  have e : x / 12 * (2 * (a * a) + 2 * (b * b) + 2 * (t * t) + a * b + b * a + t * a + t * b
      + t * a + t * b) = x / 12 * (a ^ 2 + b ^ 2 + t ^ 2 + (a + b + t) ^ 2) := by ring
  rw [e]
  positivity

theorem setup_stiffness_matrix_eq (sqrt : K → K) (solve : Solver K) (mesh : SurfaceMesh K) :
    setup_stiffness_matrix sqrt solve mesh
      = SparseMatrix.scale (-1) (SparseMatrix.resizeFromTriplets mesh.nv mesh.nv
          (mesh.faces.flatMap (fun f => scatterFace f
            (localStiffnessMatrix sqrt (facePoly mesh f)
              (polyTransposeMul (facePoly mesh f) (find_polygon_weights solve (facePoly mesh f)))
              (find_polygon_weights solve (facePoly mesh f)))))) := by
  unfold setup_stiffness_matrix
  rfl

theorem setup_mass_matrix_eq (sqrt : K → K) (solve : Solver K) (mesh : SurfaceMesh K) :
    setup_mass_matrix sqrt solve mesh false
      = SparseMatrix.resizeFromTriplets mesh.nv mesh.nv
          (mesh.faces.flatMap (fun f => scatterFace f
            (localMassMatrix sqrt (facePoly mesh f)
              (polyTransposeMul (facePoly mesh f) (find_polygon_weights solve (facePoly mesh f)))
              (find_polygon_weights solve (facePoly mesh f))))) := by
  unfold setup_mass_matrix
  rfl

/-- C2.  The global stiffness matrix produced by `setup_stiffness_matrix` is symmetric,
`S(a, b) = S(b, a)` for all indices, for every mesh, every square-root function and whatever
weights the per-face solve returns. -/
theorem setup_stiffness_matrix_symmetric (sqrt : K → K) (solve : Solver K)
    (mesh : SurfaceMesh K) (a b : Nat) :
    (setup_stiffness_matrix sqrt solve mesh).coeff a b
      = (setup_stiffness_matrix sqrt solve mesh).coeff b a := by
  rw [setup_stiffness_matrix_eq, coeff_scale, coeff_scale]
  congr 1
  exact coeff_assembled_symm mesh.faces
    (fun f => localStiffnessMatrix sqrt (facePoly mesh f)
      (polyTransposeMul (facePoly mesh f) (find_polygon_weights solve (facePoly mesh f)))
      (find_polygon_weights solve (facePoly mesh f)))
    (fun f j k => localStiffnessMatrix_symm sqrt _ _ _ j k) a b

/-- C6.  With an exact square root, the unlumped global mass matrix produced by
`setup_mass_matrix(lumped = false)` is symmetric and positive semi-definite, `x^T M x >= 0`
for every vertex vector `x`, whatever weights (negative ones included) the per-face solve
returns. -/
theorem setup_mass_matrix_symmetric_psd (sqrt : K → K) (hs : IsSqrt sqrt) (solve : Solver K)
    (mesh : SurfaceMesh K) :
    (∀ a b : Nat, (setup_mass_matrix sqrt solve mesh false).coeff a b
      = (setup_mass_matrix sqrt solve mesh false).coeff b a) ∧
    ∀ x : Nat → K, 0 ≤ (setup_mass_matrix sqrt solve mesh false).quadForm x := by
  constructor
  · intro a b
    rw [setup_mass_matrix_eq]
    exact coeff_assembled_symm mesh.faces
      (fun f => localMassMatrix sqrt (facePoly mesh f)
      (polyTransposeMul (facePoly mesh f) (find_polygon_weights solve (facePoly mesh f)))
      (find_polygon_weights solve (facePoly mesh f)))
      (fun f j k => localMassMatrix_symm sqrt _ _ _ j k) a b
  · intro x
    rw [setup_mass_matrix_eq, quadForm_assembled mesh.faces
      (fun f => localMassMatrix sqrt (facePoly mesh f)
      (polyTransposeMul (facePoly mesh f) (find_polygon_weights solve (facePoly mesh f)))
      (find_polygon_weights solve (facePoly mesh f)))]
    apply List.sum_nonneg
    intro v hv
    rw [List.mem_map] at hv
    obtain ⟨f, _, rfl⟩ := hv
    rw [bilin_localMassMatrix]
    exact Finset.sum_nonneg (fun i _ => massForm_nonneg _ (massArea_nonneg sqrt hs _ _ i) _ _ _)

/-- C8.  The stiffness matrix produced by `setup_stiffness_matrix` (the assembled sum of the
local stiffness matrices, negated once) is negative semi-definite, `x^T S x <= 0` for every
vertex vector `x`, for every mesh and whatever weights the per-face solve returns. -/
theorem setup_stiffness_matrix_nsd (sqrt : K → K) (solve : Solver K)
    (mesh : SurfaceMesh K) (x : Nat → K) :
    (setup_stiffness_matrix sqrt solve mesh).quadForm x ≤ 0 := by
  rw [setup_stiffness_matrix_eq, quadForm_scale, quadForm_assembled mesh.faces
    (fun f => localStiffnessMatrix sqrt (facePoly mesh f)
      (polyTransposeMul (facePoly mesh f) (find_polygon_weights solve (facePoly mesh f)))
      (find_polygon_weights solve (facePoly mesh f)))]
  have : 0 ≤ (mesh.faces.map (fun f => bilin
      (localStiffnessMatrix sqrt (facePoly mesh f)
        (polyTransposeMul (facePoly mesh f) (find_polygon_weights solve (facePoly mesh f)))
        (find_polygon_weights solve (facePoly mesh f)))
      (fun i => x (f.get i).val) (fun i => x (f.get i).val))).sum := by
    apply List.sum_nonneg
    intro v hv
    rw [List.mem_map] at hv
    obtain ⟨f, _, rfl⟩ := hv
    rw [bilin_localStiffnessMatrix]
    exact Finset.sum_nonneg (fun i _ => cotForm_stiffnessCoef_nonneg sqrt _ _ i _ _ _)
  linarith

/-- C7.  For a square sparse matrix `D` with all stored entries in range, `lump_matrix`
returns a matrix of the same size, with entry `(i, i)` the sum of row `i` of `D` and every
off-diagonal entry zero; hence `setup_mass_matrix(lumped = true)` is the diagonal matrix of the
row sums of `setup_mass_matrix(lumped = false)`. -/
theorem lump_matrix_diagonal_of_row_sums (D : SparseMatrix K) (hsq : D.rows = D.cols)
    (hD : D.InRange) (sqrt : K → K) (solve : Solver K) (mesh : SurfaceMesh K) :
    ((lump_matrix D).rows = D.rows ∧ (lump_matrix D).cols = D.cols ∧
      (lump_matrix D).InRange ∧
      ∀ i j, (lump_matrix D).coeff i j = if i = j then D.rowSum i else 0) ∧
    ((setup_mass_matrix sqrt solve mesh true).rows
        = (setup_mass_matrix sqrt solve mesh false).rows ∧
      (setup_mass_matrix sqrt solve mesh true).cols
        = (setup_mass_matrix sqrt solve mesh false).cols ∧
      ∀ i j, (setup_mass_matrix sqrt solve mesh true).coeff i j
        = if i = j then (setup_mass_matrix sqrt solve mesh false).rowSum i else 0) := by
  refine ⟨⟨rfl, rfl, lump_inRange D hsq hD, ?_⟩, rfl, rfl, ?_⟩
  · intro i j
    rw [coeff_lump, rowSum_eq D hD]
  · intro i j
    have h : setup_mass_matrix sqrt solve mesh true
        = lump_matrix (setup_mass_matrix sqrt solve mesh false) := rfl
    rw [h, coeff_lump, rowSum_eq _ (mass_inRange sqrt solve mesh)]

/-- C10.  `setup_prolongation_matrix` returns an `(nV + nF) x nV` matrix whose top `nV` rows
are the identity and whose row `nV + j` has at column `c` the sum of the weights of face `j`
at the positions where vertex `c` occurs in the face; each bottom row sums to the sum of the
face's weights, which is `1` when the stored weight vector has one entry per face vertex and
sums to `1`. -/
theorem setup_prolongation_matrix_rows (mesh : SurfaceMesh K) :
    (setup_prolongation_matrix mesh).rows = mesh.nv + mesh.n_faces ∧
    (setup_prolongation_matrix mesh).cols = mesh.nv ∧
    (∀ r c : Nat, r < mesh.nv →
      (setup_prolongation_matrix mesh).coeff r c = if r = c then 1 else 0) ∧
    (∀ j c : Nat, j < mesh.n_faces →
      (setup_prolongation_matrix mesh).coeff (mesh.nv + j) c
        = ∑ i : Fin (mesh.face j).length,
            if ((mesh.face j).get i).val = c then vecAt (mesh.area_weights j) i.val else 0) ∧
    (∀ j : Nat, j < mesh.n_faces →
      (setup_prolongation_matrix mesh).rowSum (mesh.nv + j)
        = ∑ i : Fin (mesh.face j).length, vecAt (mesh.area_weights j) i.val) ∧
    (∀ j : Nat, j < mesh.n_faces → (mesh.area_weights j).length = (mesh.face j).length →
      (setup_prolongation_matrix mesh).rowSum (mesh.nv + j) = (mesh.area_weights j).sum) ∧
    (∀ j : Nat, j < mesh.n_faces → (mesh.area_weights j).length = (mesh.face j).length →
      (mesh.area_weights j).sum = 1 →
      (setup_prolongation_matrix mesh).rowSum (mesh.nv + j) = 1) := by
  refine ⟨rfl, rfl, fun r c hr => prolongation_top mesh r c hr,
    fun j c hj => prolongation_bottom mesh j c hj,
    fun j hj => prolongation_rowSum mesh j hj, fun j hj hl => ?_, fun j hj hl h1 => ?_⟩
  · rw [prolongation_rowSum mesh j hj, sum_vecAt _ _ hl]
  · rw [prolongation_rowSum mesh j hj, sum_vecAt _ _ hl, h1]

theorem lump_matrix_diagonal_of_row_sums_witness :
    exampleMatrix.rows = exampleMatrix.cols ∧ exampleMatrix.InRange ∧
    (((lump_matrix exampleMatrix).rows = exampleMatrix.rows ∧
      (lump_matrix exampleMatrix).cols = exampleMatrix.cols ∧
      (lump_matrix exampleMatrix).InRange ∧
      ∀ i j, (lump_matrix exampleMatrix).coeff i j
        = if i = j then exampleMatrix.rowSum i else 0) ∧
    ((setup_mass_matrix id (thirdSolver ℚ) (triangleMesh ℚ) true).rows
        = (setup_mass_matrix id (thirdSolver ℚ) (triangleMesh ℚ) false).rows ∧
      (setup_mass_matrix id (thirdSolver ℚ) (triangleMesh ℚ) true).cols
        = (setup_mass_matrix id (thirdSolver ℚ) (triangleMesh ℚ) false).cols ∧
      ∀ i j, (setup_mass_matrix id (thirdSolver ℚ) (triangleMesh ℚ) true).coeff i j
        = if i = j then (setup_mass_matrix id (thirdSolver ℚ) (triangleMesh ℚ) false).rowSum i
          else 0)) :=
  ⟨rfl, by unfold SparseMatrix.InRange exampleMatrix; decide,
    lump_matrix_diagonal_of_row_sums exampleMatrix rfl
      (by unfold SparseMatrix.InRange exampleMatrix; decide) id (thirdSolver ℚ) (triangleMesh ℚ)⟩

theorem isSqrt_real : IsSqrt Real.sqrt :=
  fun x hx => ⟨Real.sqrt_nonneg x, Real.mul_self_sqrt hx⟩

theorem setup_mass_matrix_symmetric_psd_witness :
    IsSqrt Real.sqrt ∧
    ((∀ a b : Nat, (setup_mass_matrix Real.sqrt (thirdSolver ℝ) (triangleMesh ℝ) false).coeff a b
      = (setup_mass_matrix Real.sqrt (thirdSolver ℝ) (triangleMesh ℝ) false).coeff b a) ∧
    ∀ x : Nat → ℝ,
      0 ≤ (setup_mass_matrix Real.sqrt (thirdSolver ℝ) (triangleMesh ℝ) false).quadForm x) :=
  ⟨isSqrt_real, setup_mass_matrix_symmetric_psd Real.sqrt isSqrt_real (thirdSolver ℝ)
    (triangleMesh ℝ)⟩

end AssemblyLemmas

/-! ## The weight solve: the augmented system is consistent -/

section WeightLemmas

variable {K : Type} [LinearOrderedField K]

theorem dot_eq (a b : Fin 3 → K) : dot a b = a 0 * b 0 + a 1 * b 1 + a 2 * b 2 := rfl
theorem cross_zero_eq (a b : Fin 3 → K) : cross a b 0 = a 1 * b 2 - a 2 * b 1 := rfl
theorem cross_one_eq (a b : Fin 3 → K) : cross a b 1 = a 2 * b 0 - a 0 * b 2 := rfl
theorem cross_two_eq (a b : Fin 3 → K) : cross a b 2 = a 0 * b 1 - a 1 * b 0 := rfl

theorem areaForm_eq_dot {n : Nat} (poly : Fin n → Fin 3 → K) (y q : Fin 3 → K) :
    areaForm poly y q = dot y (areaGrad poly q) := by
  unfold areaForm areaGrad
  simp only [dot_eq, cross_zero_eq, cross_one_eq, cross_two_eq, Finset.mul_sum,
    ← Finset.sum_add_distrib]
  apply Finset.sum_congr rfl
  intro j _
  ring

theorem polygonJ_eq {n : Nat} (poly : Fin n → Fin 3 → K) (i k : Fin n) :
    polygonJ poly i k
      = 1 / 2 * ∑ j, dot (cross (edgeVec poly j) (poly i)) (cross (edgeVec poly j) (poly k)) := by
  unfold polygonJ edgeVec
  simp only [dot_eq, cross_zero_eq, cross_one_eq, cross_two_eq, Finset.mul_sum,
    ← Finset.sum_add_distrib, ← Finset.sum_sub_distrib]
  apply Finset.sum_congr rfl
  intro j _
  ring

theorem polygonB_eq {n : Nat} (poly : Fin n → Fin 3 → K) (i : Fin n) :
    polygonB poly i
      = 1 / 2 * ∑ j, dot (cross (edgeVec poly j) (poly j)) (cross (edgeVec poly j) (poly i)) := by
  unfold polygonB edgeVec
  simp only [dot_eq, cross_zero_eq, cross_one_eq, cross_two_eq, Finset.mul_sum,
    ← Finset.sum_add_distrib, ← Finset.sum_sub_distrib]

theorem dot_cross_linear {ι : Type} (a d : Fin 3 → K) (s : Finset ι) (v : ι → Fin 3 → K)
    (w : ι → K) :
    dot a (cross d (fun h => ∑ k in s, v k h * w k)) = ∑ k in s, dot a (cross d (v k)) * w k := by
  simp only [dot_eq, cross_zero_eq, cross_one_eq, cross_two_eq, Finset.mul_sum,
    ← Finset.sum_add_distrib, ← Finset.sum_sub_distrib]
  apply Finset.sum_congr rfl
  intro k _
  ring

theorem polygon_residual {n : Nat} (poly : Fin n → Fin 3 → K) (w : Fin n → K) (i : Fin n) :
    ∑ k, polygonJ poly i k * w k - polygonB poly i
      = -(1 / 2) * areaForm poly (poly i) (polyTransposeMul poly w) := by
  simp only [polygonJ_eq, polygonB_eq]
  unfold areaForm polyTransposeMul
  have h1 : ∑ k, (1 / 2 * ∑ j, dot (cross (edgeVec poly j) (poly i))
        (cross (edgeVec poly j) (poly k))) * w k
      = 1 / 2 * ∑ j, ∑ k, dot (cross (edgeVec poly j) (poly i))
        (cross (edgeVec poly j) (poly k)) * w k := by
    rw [Finset.sum_comm, Finset.mul_sum]
    apply Finset.sum_congr rfl
    intro k _
    rw [Finset.mul_sum, Finset.sum_mul, Finset.mul_sum]
    apply Finset.sum_congr rfl
    intro j _
    ring
  rw [h1, ← mul_sub, ← Finset.sum_sub_distrib, neg_mul, ← mul_neg, ← Finset.sum_neg_distrib]
  congr 1
  apply Finset.sum_congr rfl
  intro j _
  rw [← dot_cross_linear]
  set p : Fin 3 → K := fun h => ∑ k, poly k h * w k
  simp only [dot_eq, cross_zero_eq, cross_one_eq, cross_two_eq, Pi.sub_apply]
  ring

theorem dot_sum_left {ι : Type} (s : Finset ι) (v : ι → Fin 3 → K) (w : ι → K)
    (g : Fin 3 → K) :
    dot (fun c => ∑ k in s, v k c * w k) g = ∑ k in s, dot (v k) g * w k := by
  simp only [dot_eq, Finset.sum_mul, ← Finset.sum_add_distrib]
  apply Finset.sum_congr rfl
  intro k _
  ring

theorem dot_self_eq_zero (g : Fin 3 → K) (h : dot g g = 0) : g = 0 := by
  rw [dot_eq] at h
  have h0 := mul_self_nonneg (g 0)
  have h1 := mul_self_nonneg (g 1)
  have h2 := mul_self_nonneg (g 2)
  have e0 : g 0 * g 0 = 0 := by linarith
  have e1 : g 1 * g 1 = 0 := by linarith
  have e2 : g 2 * g 2 = 0 := by linarith
  funext c
  fin_cases c
  · exact mul_self_eq_zero.mp e0
  · exact mul_self_eq_zero.mp e1
  · exact mul_self_eq_zero.mp e2

theorem dot_sub_left (a b g : Fin 3 → K) : dot (a - b) g = dot a g - dot b g := by
  simp only [dot_eq, Pi.sub_apply]
  ring

/-- A point `p` that is an affine combination of the rows and whose area gradient is
orthogonal to every difference of two rows has zero area gradient. -/
theorem areaGrad_eq_zero {n : Nat} (poly : Fin n → Fin 3 → K) (w : Fin n → K)
    (hw : ∑ i, w i = 1)
    (hF : ∀ i k, dot (poly i - poly k) (areaGrad poly (polyTransposeMul poly w)) = 0) :
    areaGrad poly (polyTransposeMul poly w) = 0 := by
  apply dot_self_eq_zero
  set p := polyTransposeMul poly w with hp
  set g := areaGrad poly p with hg
  have hd : ∀ j, dot (edgeVec poly j) g = 0 := fun j => hF j (nextIdx j)
  have hx : ∀ j, dot (poly j - p) g = 0 := by
    intro j
    have e : poly j - p = fun c => ∑ m, (poly j - poly m) c * w m := by
      funext c
      simp only [Pi.sub_apply, hp, polyTransposeMul, sub_mul, Finset.sum_sub_distrib,
        ← Finset.mul_sum, hw, mul_one]
    rw [e, dot_sum_left]
    exact Finset.sum_eq_zero (fun m _ => by rw [hF j m, zero_mul])
  have e : g = fun c => ∑ j, ((fun c => (poly j - p) c * dot (edgeVec poly j) (edgeVec poly j)
      - edgeVec poly j c * dot (edgeVec poly j) (poly j - p)) c * (1 : K)) := by
    funext c
    rw [hg]
    unfold areaGrad
    apply Finset.sum_congr rfl
    intro j _
    fin_cases c <;>
    simp only [dot_eq, cross_zero_eq, cross_one_eq, cross_two_eq, Fin.zero_eta, Fin.mk_one,
      Fin.reduceFinMk] <;> ring
  have e2 : dot g g = ∑ j, dot (fun c => (poly j - p) c * dot (edgeVec poly j) (edgeVec poly j)
      - edgeVec poly j c * dot (edgeVec poly j) (poly j - p)) g * 1 := by
    conv_lhs => rw [e]
    rw [dot_sum_left]
    rw [← e]
  rw [e2]
  apply Finset.sum_eq_zero
  intro j _
  have e3 : dot (fun c => (poly j - p) c * dot (edgeVec poly j) (edgeVec poly j)
      - edgeVec poly j c * dot (edgeVec poly j) (poly j - p)) g
      = dot (poly j - p) g * dot (edgeVec poly j) (edgeVec poly j)
        - dot (edgeVec poly j) g * dot (edgeVec poly j) (poly j - p) := by
    simp only [dot_eq]
    ring
  rw [e3, hd, hx]
  ring


theorem crossSq_edge {n : Nat} (poly : Fin n → Fin 3 → K) (q : Fin 3 → K) (j : Fin n) :
    crossSq q (poly j) (poly (nextIdx j))
      = dot (cross (edgeVec poly j) (poly j - q)) (cross (edgeVec poly j) (poly j - q)) := by
  unfold crossSq edgeVec
  simp only [dot_eq, cross_zero_eq, cross_one_eq, cross_two_eq, Pi.sub_apply]
  ring

theorem fanAreaSq_eq {n : Nat} (poly : Fin n → Fin 3 → K) (p q : Fin 3 → K) :
    fanAreaSq poly q = fanAreaSq poly p + 1 / 2 * areaForm poly (p - q) p
      + 1 / 4 * ∑ j, dot (cross (edgeVec poly j) (p - q)) (cross (edgeVec poly j) (p - q)) := by
  unfold fanAreaSq triangleAreaSq areaForm
  simp only [crossSq_edge, Finset.mul_sum, ← Finset.sum_add_distrib]
  apply Finset.sum_congr rfl
  intro j _
  simp only [dot_eq, cross_zero_eq, cross_one_eq, cross_two_eq, Pi.sub_apply]
  ring

/-- A point with zero area gradient minimizes the sum of squared fan-triangle areas over all
points of space. -/
theorem fanAreaSq_min {n : Nat} (poly : Fin n → Fin 3 → K) (p : Fin 3 → K)
    (hg : areaGrad poly p = 0) (q : Fin 3 → K) : fanAreaSq poly p ≤ fanAreaSq poly q := by
  rw [fanAreaSq_eq poly p q, areaForm_eq_dot, hg]
  have h0 : dot (p - q) (0 : Fin 3 → K) = 0 := by simp [dot_eq]
  rw [h0]
  have : 0 ≤ ∑ j, dot (cross (edgeVec poly j) (p - q)) (cross (edgeVec poly j) (p - q)) :=
    Finset.sum_nonneg (fun j _ => dot_self_nonneg _)
  linarith

theorem residualSq_augmented {n : Nat} (poly : Fin n → Fin 3 → K) (w : Fin n → K) :
    residualSq (augmentedM poly) (augmentedB poly) w
      = ∑ i, (4 * (∑ k, polygonJ poly i k * w k - polygonB poly i)) ^ 2
        + (∑ k, w k - 1) ^ 2 := by
  unfold residualSq augmentedM augmentedB
  rw [Fin.sum_univ_castSucc]
  simp only [Fin.snoc_castSucc, Fin.snoc_last, one_mul]
  congr 1
  apply Finset.sum_congr rfl
  intro i _
  congr 1
  rw [mul_sub, Finset.mul_sum]
  congr 1
  apply Finset.sum_congr rfl
  intro k _
  ring

/-- When the augmented system has an exact solution, every least-squares solution solves it
exactly. -/
theorem leastSquares_exact {n : Nat} (poly : Fin n → Fin 3 → K) (w : Fin n → K)
    (hex : ∃ w0 : Fin n → K, (∀ i, ∑ k, polygonJ poly i k * w0 k = polygonB poly i)
      ∧ ∑ k, w0 k = 1)
    (hls : IsLeastSquares (augmentedM poly) (augmentedB poly) w) :
    (∀ i, ∑ k, polygonJ poly i k * w k = polygonB poly i) ∧ ∑ k, w k = 1 := by
  obtain ⟨w0, h1, h2⟩ := hex
  have h0 : residualSq (augmentedM poly) (augmentedB poly) w0 = 0 := by
    rw [residualSq_augmented]
    simp [h1, h2]
  have hle := hls w0
  rw [h0, residualSq_augmented] at hle
  have hs : 0 ≤ ∑ i, (4 * (∑ k, polygonJ poly i k * w k - polygonB poly i)) ^ 2 :=
    Finset.sum_nonneg (fun i _ => sq_nonneg _)
  have hl : 0 ≤ (∑ k, w k - 1) ^ 2 := sq_nonneg _
  have e1 : ∑ i, (4 * (∑ k, polygonJ poly i k * w k - polygonB poly i)) ^ 2 = 0 := by linarith
  have e2 : (∑ k, w k - 1) ^ 2 = 0 := by linarith
  constructor
  · intro i
    have := (Finset.sum_eq_zero_iff_of_nonneg (fun i _ => sq_nonneg _)).mp e1 i (Finset.mem_univ i)
    have h4 : 4 * (∑ k, polygonJ poly i k * w k - polygonB poly i) = 0 := pow_eq_zero_iff (two_ne_zero) |>.mp this
    linarith
  · have := pow_eq_zero_iff (two_ne_zero) |>.mp e2
    linarith


/-- The normal equations of a finite linear least-squares problem always have a solution. -/
theorem exists_normal_solution {m n : Type} [Fintype m] [Fintype n]
    (A : Matrix m n K) (c : m → K) :
    ∃ z : n → K, ∀ k, ∑ r, A r k * (∑ l, A r l * z l - c r) = 0 := by
  classical
  have hrange : LinearMap.range (Matrix.mulVecLin (A.transpose * A))
      = LinearMap.range (Matrix.mulVecLin A.transpose) := by
    apply Submodule.eq_of_le_of_finrank_eq
    · rintro _ ⟨z, rfl⟩
      exact ⟨A.mulVec z, by simp [Matrix.mulVecLin_apply, Matrix.mulVec_mulVec]⟩
    · have h1 : (A.transpose * A).rank = A.rank := Matrix.rank_transpose_mul_self A
      have h2 : A.transpose.rank = A.rank := Matrix.rank_transpose A
      unfold Matrix.rank at h1 h2
      rw [h1, h2]
  have hmem : A.transpose.mulVec c ∈ LinearMap.range (Matrix.mulVecLin (A.transpose * A)) := by
    rw [hrange]
    exact ⟨c, rfl⟩
  obtain ⟨z, hz⟩ := hmem
  refine ⟨z, fun k => ?_⟩
  have hk := congrFun hz k
  rw [Matrix.mulVecLin_apply, ← Matrix.mulVec_mulVec] at hk
  simp only [Matrix.mulVec, Matrix.dotProduct, Matrix.transpose_apply] at hk
  simp only [mul_sub, Finset.sum_sub_distrib]
  rw [sub_eq_zero]
  exact hk


theorem cross_sum_right {ι : Type} (d : Fin 3 → K) (s : Finset ι) (v : ι → Fin 3 → K)
    (z : ι → K) (c : Fin 3) :
    cross d (fun h => ∑ l in s, v l h * z l) c = ∑ l in s, cross d (v l) c * z l := by
  fin_cases c <;>
  simp only [cross_zero_eq, cross_one_eq, cross_two_eq, Fin.zero_eta, Fin.mk_one,
    Fin.reduceFinMk, Finset.mul_sum, ← Finset.sum_sub_distrib] <;>
  apply Finset.sum_congr rfl <;> intro l _ <;> ring

/-- For a polygon with at least one vertex the system `J w = b`, `sum w = 1` has an exact
solution. -/
theorem exists_exact_weights {n : Nat} (poly : Fin n → Fin 3 → K) (hn : 0 < n) :
    ∃ w0 : Fin n → K, (∀ i, ∑ k, polygonJ poly i k * w0 k = polygonB poly i)
      ∧ ∑ k, w0 k = 1 := by
  classical
  let i0 : Fin n := ⟨0, hn⟩
  obtain ⟨z, hz⟩ := exists_normal_solution
    (fun (jc : Fin n × Fin 3) (k : Fin n) => cross (edgeVec poly jc.1) (poly k - poly i0) jc.2)
    (fun (jc : Fin n × Fin 3) => cross (edgeVec poly jc.1) (poly jc.1 - poly i0) jc.2)
  let w0 : Fin n → K := fun k => z k + (if k = i0 then 1 - ∑ l, z l else 0)
  have hw0 : ∑ k, w0 k = 1 := by
    simp only [w0, Finset.sum_add_distrib, Finset.sum_ite_eq', Finset.mem_univ, if_true]
    ring
  have hp : ∀ h, polyTransposeMul poly w0 h - poly i0 h = ∑ l, (poly l - poly i0) h * z l := by
    intro h
    simp only [polyTransposeMul, w0, mul_add, Finset.sum_add_distrib, mul_ite, mul_zero,
      Finset.sum_ite_eq', Finset.mem_univ, if_true, Pi.sub_apply, sub_mul,
      Finset.sum_sub_distrib, ← Finset.mul_sum]
    ring
  have hres : ∀ (j : Fin n) (c : Fin 3),
      ∑ l, cross (edgeVec poly j) (poly l - poly i0) c * z l
        - cross (edgeVec poly j) (poly j - poly i0) c
      = -cross (edgeVec poly j) (poly j - polyTransposeMul poly w0) c := by
    intro j c
    rw [← cross_sum_right]
    have e : (fun h => ∑ l, (poly l - poly i0) h * z l)
        = polyTransposeMul poly w0 - poly i0 := by
      funext h
      rw [Pi.sub_apply, hp h]
    rw [e]
    fin_cases c <;>
    simp only [cross_zero_eq, cross_one_eq, cross_two_eq, Fin.zero_eta, Fin.mk_one,
      Fin.reduceFinMk, Pi.sub_apply] <;> ring
  have hk : ∀ k, dot (poly k - poly i0) (areaGrad poly (polyTransposeMul poly w0)) = 0 := by
    intro k
    rw [← areaForm_eq_dot]
    have h := hz k
    simp only [hres] at h
    rw [Fintype.sum_prod_type] at h
    unfold areaForm
    have e : ∀ j, dot (cross (edgeVec poly j) (poly k - poly i0))
        (cross (edgeVec poly j) (poly j - polyTransposeMul poly w0))
        = -∑ c : Fin 3, cross (edgeVec poly j) (poly k - poly i0) c
            * -cross (edgeVec poly j) (poly j - polyTransposeMul poly w0) c := by
      intro j
      rw [Fin.sum_univ_three, dot_eq]
      ring
    simp only [e, Finset.sum_neg_distrib]
    rw [h, neg_zero]
  have hF : ∀ i k, dot (poly i - poly k) (areaGrad poly (polyTransposeMul poly w0)) = 0 := by
    intro i k
    have e : poly i - poly k = (poly i - poly i0) - (poly k - poly i0) := by
      funext c
      simp only [Pi.sub_apply]
      ring
    rw [e, dot_sub_left, hk, hk, sub_zero]
  have hg := areaGrad_eq_zero poly w0 hw0 hF
  refine ⟨w0, fun i => ?_, hw0⟩
  have hr := polygon_residual poly w0 i
  rw [areaForm_eq_dot, hg] at hr
  have h0 : dot (poly i) (0 : Fin 3 → K) = 0 := by simp [dot_eq]
  rw [h0, mul_zero] at hr
  exact sub_eq_zero.mp hr


/-- Every least-squares solution of the augmented system of a polygon with at least one
vertex solves `J w = b` exactly, sums to one, and has zero area gradient at its point. -/
theorem leastSquares_weights {n : Nat} (poly : Fin n → Fin 3 → K) (hn : 0 < n)
    (w : Fin n → K) (hls : IsLeastSquares (augmentedM poly) (augmentedB poly) w) :
    (∀ i, ∑ k, polygonJ poly i k * w k = polygonB poly i) ∧ ∑ k, w k = 1
      ∧ areaGrad poly (polyTransposeMul poly w) = 0 := by
  obtain ⟨h1, h2⟩ := leastSquares_exact poly w (exists_exact_weights poly hn) hls
  refine ⟨h1, h2, areaGrad_eq_zero poly w h2 (fun i k => ?_)⟩
  have hi : ∀ i, dot (poly i) (areaGrad poly (polyTransposeMul poly w)) = 0 := by
    intro i
    have hr := polygon_residual poly w i
    rw [h1 i, sub_self] at hr
    rw [← areaForm_eq_dot]
    have : (1 / 2 : K) ≠ 0 := by norm_num
    have h0 : -(1 / 2 : K) ≠ 0 := neg_ne_zero.mpr this
    exact (mul_eq_zero.mp hr.symm).resolve_left h0
  rw [dot_sub_left, hi, hi, sub_zero]

theorem isLeastSquares_of_exact {n : Nat} (poly : Fin n → Fin 3 → K) (w : Fin n → K)
    (h1 : ∀ i, ∑ k, polygonJ poly i k * w k = polygonB poly i) (h2 : ∑ k, w k = 1) :
    IsLeastSquares (augmentedM poly) (augmentedB poly) w := by
  intro v
  have h0 : residualSq (augmentedM poly) (augmentedB poly) w = 0 := by
    rw [residualSq_augmented]
    simp [h1, h2]
  rw [h0]
  unfold residualSq
  exact Finset.sum_nonneg (fun i _ => sq_nonneg _)

theorem nextIdx_three_zero : nextIdx (0 : Fin 3) = 1 := rfl
theorem nextIdx_three_one : nextIdx (1 : Fin 3) = 2 := rfl
theorem nextIdx_three_two : nextIdx (2 : Fin 3) = 0 := rfl

/-- Area gradient of a triangle at an affine combination of its vertices. -/
theorem areaGrad_triangle (poly : Fin 3 → Fin 3 → K) (w : Fin 3 → K) (hw : ∑ k, w k = 1)
    (c : Fin 3) :
    areaGrad poly (polyTransposeMul poly w) c
      = cross (cross (poly 1 - poly 0) (poly 2 - poly 0))
          (fun h => (w 0 - w 2) * (poly 1 - poly 0) h + (w 1 - w 0) * (poly 2 - poly 0) h) c := by
  have hw0 : w 0 = 1 - w 1 - w 2 := by
    rw [Fin.sum_univ_three] at hw
    linarith
  unfold areaGrad polyTransposeMul edgeVec
  simp only [Fin.sum_univ_three, nextIdx_three_zero, nextIdx_three_one, nextIdx_three_two]
  rw [hw0]
  fin_cases c <;>
  simp only [cross_zero_eq, cross_one_eq, cross_two_eq, Fin.zero_eta, Fin.mk_one,
    Fin.reduceFinMk, Pi.sub_apply] <;> ring


theorem exists_ne_zero_of_ne_zero (v : Fin 3 → K) (h : v ≠ 0) : ∃ c, v c ≠ 0 := by
  by_contra hc
  push_neg at hc
  exact h (funext hc)

theorem cross_eq_zero_of_left (v a : Fin 3 → K) (h : ∀ c, v c = 0) (c : Fin 3) :
    cross v a c = 0 := by
  fin_cases c <;>
  simp only [cross_zero_eq, cross_one_eq, cross_two_eq, Fin.zero_eta, Fin.mk_one,
    Fin.reduceFinMk, h] <;> ring

theorem cross_eq_zero_of_right (a v : Fin 3 → K) (h : ∀ c, v c = 0) (c : Fin 3) :
    cross a v c = 0 := by
  fin_cases c <;>
  simp only [cross_zero_eq, cross_one_eq, cross_two_eq, Fin.zero_eta, Fin.mk_one,
    Fin.reduceFinMk, h] <;> ring

/-- A combination of two independent vectors whose cross product with their normal vanishes
has both coefficients zero. -/
theorem plane_coeffs (e1 e2 : Fin 3 → K) (α β : K) (hN : cross e1 e2 ≠ 0)
    (h : ∀ c, cross (cross e1 e2) (fun h => α * e1 h + β * e2 h) c = 0) : α = 0 ∧ β = 0 := by
  have hNN : dot (cross e1 e2) (cross e1 e2) ≠ 0 := fun h0 => hN (dot_self_eq_zero _ h0)
  have hu : ∀ c, α * e1 c + β * e2 c = 0 := by
    intro c
    have e : dot (cross e1 e2) (cross e1 e2) * (α * e1 c + β * e2 c)
        = cross (cross (cross e1 e2) (fun h => α * e1 h + β * e2 h)) (cross e1 e2) c := by
      fin_cases c <;>
      simp only [dot_eq, cross_zero_eq, cross_one_eq, cross_two_eq, Fin.zero_eta, Fin.mk_one,
        Fin.reduceFinMk] <;> ring
    have z : cross (cross (cross e1 e2) (fun h => α * e1 h + β * e2 h)) (cross e1 e2) c = 0 :=
      cross_eq_zero_of_left _ _ h c
    rw [z] at e
    exact (mul_eq_zero.mp e).resolve_left hNN
  obtain ⟨c, hc⟩ := exists_ne_zero_of_ne_zero _ hN
  have ha : α * cross e1 e2 c = 0 := by
    have e : α * cross e1 e2 c
        = cross (fun h => α * e1 h + β * e2 h) e2 c := by
      fin_cases c <;>
      simp only [cross_zero_eq, cross_one_eq, cross_two_eq, Fin.zero_eta, Fin.mk_one,
        Fin.reduceFinMk] <;> ring
    rw [e]
    exact cross_eq_zero_of_left _ _ hu c
  have hb : β * cross e1 e2 c = 0 := by
    have e : β * cross e1 e2 c
        = cross e1 (fun h => α * e1 h + β * e2 h) c := by
      fin_cases c <;>
      simp only [cross_zero_eq, cross_one_eq, cross_two_eq, Fin.zero_eta, Fin.mk_one,
        Fin.reduceFinMk] <;> ring
    rw [e]
    exact cross_eq_zero_of_right _ _ hu c
  exact ⟨(mul_eq_zero.mp ha).resolve_right hc, (mul_eq_zero.mp hb).resolve_right hc⟩

/-- The only affine weights of a non-degenerate triangle with zero area gradient are
`(1/3, 1/3, 1/3)`. -/
theorem triangle_weights (poly : Fin 3 → Fin 3 → K) (w : Fin 3 → K) (hw : ∑ k, w k = 1)
    (hN : cross (poly 1 - poly 0) (poly 2 - poly 0) ≠ 0)
    (hg : areaGrad poly (polyTransposeMul poly w) = 0) : w = fun _ => 1 / 3 := by
  have h := plane_coeffs (poly 1 - poly 0) (poly 2 - poly 0) (w 0 - w 2) (w 1 - w 0) hN
    (fun c => by rw [← areaGrad_triangle poly w hw c, hg]; rfl)
  rw [Fin.sum_univ_three] at hw
  funext c
  fin_cases c
  · show w 0 = 1 / 3
    linarith [h.1, h.2]
  · show w 1 = 1 / 3
    linarith [h.1, h.2]
  · show w 2 = 1 / 3
    linarith [h.1, h.2]

theorem triangle_third_exact (poly : Fin 3 → Fin 3 → K) :
    (∀ i, ∑ k, polygonJ poly i k * (1 / 3 : K) = polygonB poly i)
      ∧ ∑ _k : Fin 3, (1 / 3 : K) = 1 := by
  have hw : ∑ k : Fin 3, (fun _ => (1 / 3 : K)) k = 1 := by
    norm_num [Fin.sum_univ_three]
  refine ⟨fun i => ?_, hw⟩
  have hg : areaGrad poly (polyTransposeMul poly (fun _ => (1 / 3 : K))) = 0 := by
    funext c
    rw [areaGrad_triangle poly _ hw c]
    fin_cases c <;>
    simp only [cross_zero_eq, cross_one_eq, cross_two_eq, Fin.zero_eta, Fin.mk_one,
      Fin.reduceFinMk, Pi.zero_apply] <;> ring
  have hr := polygon_residual poly (fun _ => (1 / 3 : K)) i
  rw [areaForm_eq_dot, hg] at hr
  have h0 : dot (poly i) (0 : Fin 3 → K) = 0 := by simp [dot_eq]
  rw [h0, mul_zero] at hr
  exact sub_eq_zero.mp hr

end WeightLemmas

/-! ## Consequences for the assembled matrices and the stored face properties -/

section WeightTheorems

variable {K : Type} [LinearOrderedField K]

theorem cotForm_const (l : Fin 3 → K) (a b c : K) : cotForm l a b c 1 1 1 = 0 := by
  unfold cotForm
  ring

theorem bilin_single_left {n : Nat} (M : Fin n → Fin n → K) (k : Fin n) (v : Fin n → K) :
    bilin M (Pi.single k 1) v = ∑ c, M k c * v c := by
  unfold bilin
  rw [Finset.sum_eq_single k]
  · simp
  · intro r _ hr
    simp [Pi.single_apply, hr]
  · intro h
    exact absurd (Finset.mem_univ _) h

/-- With weights summing to one every row of the local stiffness matrix sums to zero. -/
theorem localStiffnessMatrix_rowSum (sqrt : K → K) {n : Nat} (poly : Fin n → Fin 3 → K)
    (min : Fin 3 → K) (w : Fin n → K) (hw : ∑ i, w i = 1) (k : Fin n) :
    ∑ j, localStiffnessMatrix sqrt poly min w k j = 0 := by
  have h := bilin_single_left (localStiffnessMatrix sqrt poly min w) k (fun _ => 1)
  simp only [mul_one] at h
  rw [← h, bilin_localStiffnessMatrix]
  have hw1 : wdot w (fun _ => (1 : K)) = 1 := by
    unfold wdot
    simp only [mul_one]
    exact hw
  rw [hw1]
  exact Finset.sum_eq_zero (fun i _ => cotForm_const _ _ _ _)

theorem mulVec_scale (s : K) (A : SparseMatrix K) (u : Nat → K) (r : Nat) :
    (SparseMatrix.scale s A).mulVec u r = s * A.mulVec u r := by
  unfold SparseMatrix.mulVec
  simp only [coeff_scale, Finset.mul_sum]
  apply Finset.sum_congr rfl
  intro c _
  ring

theorem mulVec_triplets (R C : Nat) (ts : List (Triplet K)) (u : Nat → K) (r : Nat)
    (h : ∀ t ∈ ts, t.col < C) :
    (SparseMatrix.mk R C ts).mulVec u r
      = (ts.map (fun t => if t.row = r then t.value * u t.col else 0)).sum := by
  unfold SparseMatrix.mulVec SparseMatrix.coeff
  exact sum_range_contrib_mul ts C r u h

/-- `A * u` for a matrix assembled from per-face local matrices. -/
theorem mulVec_assembled {nv : Nat} (faces : List (List (Fin nv)))
    (loc : (f : List (Fin nv)) → Fin f.length → Fin f.length → K) (u : Nat → K) (a : Nat) :
    (SparseMatrix.resizeFromTriplets nv nv
        (faces.flatMap (fun f => scatterFace f (loc f)))).mulVec u a
      = (faces.map (fun f => ∑ k, if (f.get k).val = a
          then ∑ j, loc f k j * u (f.get j).val else 0)).sum := by
  unfold SparseMatrix.resizeFromTriplets
  rw [mulVec_triplets]
  · simp only [sum_map_flatMap, sum_contrib_scatterFace]
    congr 1
    apply List.map_congr_left
    intro f _
    rw [Finset.sum_comm]
    apply Finset.sum_congr rfl
    intro k _
    by_cases hk : (f.get k).val = a
    · simp [hk]
    · simp [hk]
  · intro t ht
    rw [List.mem_flatMap] at ht
    obtain ⟨f, _, hf⟩ := ht
    exact (mem_scatterFace _ _ t hf).2

theorem rowSum_eq_mulVec (A : SparseMatrix K) (r : Nat) :
    A.rowSum r = A.mulVec (fun _ => 1) r := by
  unfold SparseMatrix.rowSum SparseMatrix.mulVec
  simp

/-- C1.  For every mesh whose faces all have valence at least 3, when the external solve
returns a least-squares solution of the augmented system that `find_polygon_weights` builds
for each face, every row of the global stiffness matrix produced by `setup_stiffness_matrix`
sums to zero, and the matrix maps every constant vertex field to zero. -/
theorem setup_stiffness_matrix_row_sums_zero (sqrt : K → K) (solve : Solver K)
    (mesh : SurfaceMesh K) (hval : ∀ f ∈ mesh.faces, 3 ≤ f.length)
    (hls : ∀ f ∈ mesh.faces, IsLeastSquares (augmentedM (facePoly mesh f))
      (augmentedB (facePoly mesh f))
      (solve (f.length + 1) f.length (augmentedM (facePoly mesh f))
        (augmentedB (facePoly mesh f)))) :
    (∀ a : Nat, (setup_stiffness_matrix sqrt solve mesh).rowSum a = 0) ∧
    (∀ (c : K) (a : Nat), (setup_stiffness_matrix sqrt solve mesh).mulVec (fun _ => c) a = 0) := by
  have key : ∀ (c : K) (a : Nat),
      (setup_stiffness_matrix sqrt solve mesh).mulVec (fun _ => c) a = 0 := by
    intro c a
    rw [setup_stiffness_matrix_eq, mulVec_scale, mulVec_assembled mesh.faces
      (fun f => localStiffnessMatrix sqrt (facePoly mesh f)
        (polyTransposeMul (facePoly mesh f) (find_polygon_weights solve (facePoly mesh f)))
        (find_polygon_weights solve (facePoly mesh f)))]
    rw [sum_map_zero, mul_zero]
    intro f hf
    have hn : 0 < f.length := lt_of_lt_of_le (by norm_num) (hval f hf)
    have hw : ∑ k, find_polygon_weights solve (facePoly mesh f) k = 1 :=
      (leastSquares_weights (facePoly mesh f) hn
        (solve (f.length + 1) f.length (augmentedM (facePoly mesh f))
          (augmentedB (facePoly mesh f))) (hls f hf)).2.1
    apply Finset.sum_eq_zero
    intro k _
    rw [← Finset.sum_mul, localStiffnessMatrix_rowSum sqrt _ _ _ hw k]
    simp
  refine ⟨fun a => ?_, key⟩
  rw [rowSum_eq_mulVec]
  exact key 1 a


theorem isLeastSquares_of_minNorm {m n : Nat} (M : Fin m → Fin n → K) (b : Fin m → K)
    (w : Fin n → K) (h : IsMinNormLeastSquares M b w) : IsLeastSquares M b w := h.1

theorem unitSquare_quarter_exact :
    (∀ i, ∑ k, polygonJ (unitSquare K) i k * (1 / 4 : K) = polygonB (unitSquare K) i)
      ∧ ∑ _k : Fin 4, (1 / 4 : K) = 1 := by
  have n0 : nextIdx (0 : Fin 4) = 1 := rfl
  have n1 : nextIdx (1 : Fin 4) = 2 := rfl
  have n2 : nextIdx (2 : Fin 4) = 3 := rfl
  have n3 : nextIdx (3 : Fin 4) = 0 := rfl
  refine ⟨fun i => ?_, by norm_num [Fin.sum_univ_four]⟩
  rw [← Finset.sum_mul]
  unfold polygonJ polygonB
  simp only [Fin.sum_univ_four, n0, n1, n2, n3, Pi.sub_apply]
  fin_cases i <;> simp [unitSquare, Matrix.vecHead, Matrix.vecTail] <;> norm_num

/-- The constant weights `1/4` solve the augmented system of the unit square exactly. -/
theorem unitSquare_leastSquares :
    IsLeastSquares (augmentedM (unitSquare K)) (augmentedB (unitSquare K))
      (quarterSolver K 5 4 (augmentedM (unitSquare K)) (augmentedB (unitSquare K))) :=
  isLeastSquares_of_exact (unitSquare K) _ unitSquare_quarter_exact.1
    unitSquare_quarter_exact.2

/-- C4.  For every polygon with `n >= 3` vertices, when the external solve returns a
least-squares solution of `[4J; 1^T] w = [4b; 1]` (in particular the minimum-norm one), the
virtual point `p = sum_i w_i x_i` built from the weights `w` of `find_polygon_weights`
minimizes the sum over the boundary edges of the squared areas of the triangles
`(q, x_j, x_{j+1})`: over every point `q`, hence over every affine combination of the
vertices. -/
theorem virtual_point_minimizes_fan_area (solve : Solver K) {n : Nat}
    (poly : Fin n → Fin 3 → K) (hn : 3 ≤ n)
    (hls : IsLeastSquares (augmentedM poly) (augmentedB poly)
      (solve (n + 1) n (augmentedM poly) (augmentedB poly))) :
    (∀ q : Fin 3 → K,
      fanAreaSq poly (polyTransposeMul poly (find_polygon_weights solve poly))
        ≤ fanAreaSq poly q) ∧
    (∀ v : Fin n → K, ∑ i, v i = 1 →
      fanAreaSq poly (polyTransposeMul poly (find_polygon_weights solve poly))
        ≤ fanAreaSq poly (polyTransposeMul poly v)) := by
  have hg : areaGrad poly (polyTransposeMul poly (find_polygon_weights solve poly)) = 0 :=
    (leastSquares_weights poly (lt_of_lt_of_le (by norm_num) hn)
      (solve (n + 1) n (augmentedM poly) (augmentedB poly)) hls).2.2
  exact ⟨fun q => fanAreaSq_min poly _ hg q, fun v _ => fanAreaSq_min poly _ hg _⟩

theorem virtual_point_minimizes_fan_area_witness :
    (3 ≤ 4) ∧
    IsLeastSquares (augmentedM (unitSquare ℚ)) (augmentedB (unitSquare ℚ))
      (quarterSolver ℚ 5 4 (augmentedM (unitSquare ℚ)) (augmentedB (unitSquare ℚ))) ∧
    ((∀ q : Fin 3 → ℚ,
      fanAreaSq (unitSquare ℚ)
          (polyTransposeMul (unitSquare ℚ) (find_polygon_weights (quarterSolver ℚ) (unitSquare ℚ)))
        ≤ fanAreaSq (unitSquare ℚ) q) ∧
    (∀ v : Fin 4 → ℚ, ∑ i, v i = 1 →
      fanAreaSq (unitSquare ℚ)
          (polyTransposeMul (unitSquare ℚ) (find_polygon_weights (quarterSolver ℚ) (unitSquare ℚ)))
        ≤ fanAreaSq (unitSquare ℚ) (polyTransposeMul (unitSquare ℚ) v))) :=
  ⟨by decide, unitSquare_leastSquares,
    virtual_point_minimizes_fan_area (quarterSolver ℚ) (unitSquare ℚ) (by decide)
      unitSquare_leastSquares⟩

theorem getD_map_of_eq {α β : Type} (l : List α) (g : α → β) (j : Nat) (d0 : α) (d : β)
    (x : α) (hx : l.getD j d0 = x) (hne : x ≠ d0) : (l.map g).getD j d = g x := by
  by_cases hj : j < l.length
  · rw [List.getD_eq_getElem _ _ (by simpa using hj), List.getElem_map]
    rw [List.getD_eq_getElem _ _ hj] at hx
    rw [hx]
  · rw [List.getD_eq_default _ _ (not_lt.mp hj)] at hx
    exact absurd hx.symm hne

/-- C5.  For a triangle face with three non-collinear vertices whose solve returns a
least-squares solution, `find_polygon_weights` returns `(1/3, 1/3, 1/3)`, and
`setup_face_point_properties` stores these weights and the centroid `(x_0 + x_1 + x_2) / 3`
as the virtual point of the face. -/
theorem triangle_face_weights_centroid (solve : Solver K) (mesh : SurfaceMesh K) (j : Nat)
    (a b c : Fin mesh.nv) (hf : mesh.face j = [a, b, c])
    (hnc : cross (mesh.position b - mesh.position a) (mesh.position c - mesh.position a) ≠ 0)
    (hls : IsLeastSquares (augmentedM (facePoly mesh [a, b, c]))
      (augmentedB (facePoly mesh [a, b, c]))
      (find_polygon_weights solve (facePoly mesh [a, b, c]))) :
    find_polygon_weights solve (facePoly mesh [a, b, c]) = (fun _ => 1 / 3) ∧
    (setup_face_point_properties solve mesh).area_weights j = [1 / 3, 1 / 3, 1 / 3] ∧
    (setup_face_point_properties solve mesh).area_points j
      = fun h => (mesh.position a h + mesh.position b h + mesh.position c h) / 3 := by
  have hw := leastSquares_weights (facePoly mesh [a, b, c]) (by simp) _ hls
  have h3 : find_polygon_weights solve (facePoly mesh [a, b, c]) = (fun _ => 1 / 3) :=
    triangle_weights (facePoly mesh [a, b, c]) _ hw.2.1 hnc hw.2.2
  refine ⟨h3, ?_, ?_⟩
  · unfold setup_face_point_properties SurfaceMesh.area_weights
    simp only
    rw [getD_map_of_eq mesh.faces _ j [] [] [a, b, c] hf (by simp)]
    simp only [h3]
    rfl
  · unfold setup_face_point_properties SurfaceMesh.area_points
    simp only
    rw [getD_map_of_eq mesh.faces _ j [] 0 [a, b, c] hf (by simp)]
    simp only [h3]
    funext h
    unfold polyTransposeMul facePoly
    change ∑ i : Fin 3, mesh.position ([a, b, c].get i) h * (1 / 3) = _
    rw [Fin.sum_univ_three]
    simp only [List.get_eq_getElem, Fin.val_zero, Fin.val_one, Fin.val_two,
      List.getElem_cons_zero, List.getElem_cons_succ]
    ring


theorem triangleMesh_leastSquares :
    IsLeastSquares (augmentedM (facePoly (triangleMesh ℚ) ([0, 1, 2] : List (Fin 3))))
      (augmentedB (facePoly (triangleMesh ℚ) ([0, 1, 2] : List (Fin 3))))
      (find_polygon_weights (thirdSolver ℚ) (facePoly (triangleMesh ℚ) ([0, 1, 2] : List (Fin 3)))) :=
  isLeastSquares_of_exact (facePoly (triangleMesh ℚ) ([0, 1, 2] : List (Fin 3))) _
    (triangle_third_exact (facePoly (triangleMesh ℚ) ([0, 1, 2] : List (Fin 3)))).1
    (triangle_third_exact (facePoly (triangleMesh ℚ) ([0, 1, 2] : List (Fin 3)))).2

theorem triangleMesh_not_collinear :
    cross ((triangleMesh ℚ).position (1 : Fin 3) - (triangleMesh ℚ).position (0 : Fin 3))
      ((triangleMesh ℚ).position (2 : Fin 3) - (triangleMesh ℚ).position (0 : Fin 3)) ≠ 0 := by
  intro h
  have h2 := congrFun h 2
  simp [cross_two_eq, triangleMesh] at h2

theorem triangle_face_weights_centroid_witness :
    (triangleMesh ℚ).face 0 = ([0, 1, 2] : List (Fin 3)) ∧
    cross ((triangleMesh ℚ).position (1 : Fin 3) - (triangleMesh ℚ).position (0 : Fin 3))
      ((triangleMesh ℚ).position (2 : Fin 3) - (triangleMesh ℚ).position (0 : Fin 3)) ≠ 0 ∧
    IsLeastSquares (augmentedM (facePoly (triangleMesh ℚ) ([0, 1, 2] : List (Fin 3))))
      (augmentedB (facePoly (triangleMesh ℚ) ([0, 1, 2] : List (Fin 3))))
      (find_polygon_weights (thirdSolver ℚ) (facePoly (triangleMesh ℚ) ([0, 1, 2] : List (Fin 3)))) ∧
    (find_polygon_weights (thirdSolver ℚ) (facePoly (triangleMesh ℚ) ([0, 1, 2] : List (Fin 3)))
        = (fun _ => 1 / 3) ∧
      (setup_face_point_properties (thirdSolver ℚ) (triangleMesh ℚ)).area_weights 0
        = [1 / 3, 1 / 3, 1 / 3] ∧
      (setup_face_point_properties (thirdSolver ℚ) (triangleMesh ℚ)).area_points 0
        = fun h => ((triangleMesh ℚ).position (0 : Fin 3) h + (triangleMesh ℚ).position (1 : Fin 3) h
            + (triangleMesh ℚ).position (2 : Fin 3) h) / 3) :=
  ⟨rfl, triangleMesh_not_collinear, triangleMesh_leastSquares,
    triangle_face_weights_centroid (thirdSolver ℚ) (triangleMesh ℚ) 0 (0 : Fin 3) (1 : Fin 3) (2 : Fin 3) rfl
      triangleMesh_not_collinear triangleMesh_leastSquares⟩

theorem squareMesh_facePoly :
    facePoly (squareMesh K) ([0, 1, 2, 3] : List (Fin 4)) = unitSquare K := by
  funext i h
  fin_cases i <;> rfl

theorem squareMesh_faces_leastSquares :
    ∀ f ∈ (squareMesh K).faces, IsLeastSquares (augmentedM (facePoly (squareMesh K) f))
      (augmentedB (facePoly (squareMesh K) f))
      (quarterSolver K (f.length + 1) f.length (augmentedM (facePoly (squareMesh K) f))
        (augmentedB (facePoly (squareMesh K) f))) := by
  intro f hf
  have hf2 : f = ([0, 1, 2, 3] : List (Fin 4)) := List.mem_singleton.mp hf
  subst hf2
  apply isLeastSquares_of_exact
  · intro i
    rw [squareMesh_facePoly]
    exact unitSquare_quarter_exact.1 i
  · exact unitSquare_quarter_exact.2

theorem squareMesh_valence : ∀ f ∈ (squareMesh K).faces, 3 ≤ f.length := by
  intro f hf
  have hf2 : f = ([0, 1, 2, 3] : List (Fin 4)) := List.mem_singleton.mp hf
  subst hf2
  exact Nat.le_succ 3

theorem setup_stiffness_matrix_row_sums_zero_witness :
    (∀ f ∈ (squareMesh ℝ).faces, 3 ≤ f.length) ∧
    (∀ f ∈ (squareMesh ℝ).faces, IsLeastSquares (augmentedM (facePoly (squareMesh ℝ) f))
      (augmentedB (facePoly (squareMesh ℝ) f))
      (quarterSolver ℝ (f.length + 1) f.length (augmentedM (facePoly (squareMesh ℝ) f))
        (augmentedB (facePoly (squareMesh ℝ) f)))) ∧
    ((∀ a : Nat,
      (setup_stiffness_matrix Real.sqrt (quarterSolver ℝ) (squareMesh ℝ)).rowSum a = 0) ∧
    (∀ (c : ℝ) (a : Nat),
      (setup_stiffness_matrix Real.sqrt (quarterSolver ℝ) (squareMesh ℝ)).mulVec
        (fun _ => c) a = 0)) :=
  ⟨squareMesh_valence, squareMesh_faces_leastSquares,
    setup_stiffness_matrix_row_sums_zero Real.sqrt (quarterSolver ℝ) (squareMesh ℝ)
      squareMesh_valence squareMesh_faces_leastSquares⟩

end WeightTheorems

/-! ## Gradient, divergence and the stiffness matrix -/

section GradientLemmas

variable {K : Type} [LinearOrderedField K]

theorem applyL_append (l1 l2 : List (Triplet K)) (u : Nat → K) (r : Nat) :
    applyL (l1 ++ l2) u r = applyL l1 u r + applyL l2 u r := by
  simp [applyL]

theorem applyL_eq_zero (ts : List (Triplet K)) (u : Nat → K) (r : Nat)
    (h : ∀ t ∈ ts, t.row ≠ r) : applyL ts u r = 0 := by
  unfold applyL
  apply sum_map_zero
  intro t ht
  rw [if_neg (h t ht)]

theorem mulVec_eq_applyL (A : SparseMatrix K) (u : Nat → K) (r : Nat)
    (h : ∀ t ∈ A.entries, t.col < A.cols) : A.mulVec u r = applyL A.entries u r := by
  unfold SparseMatrix.mulVec SparseMatrix.coeff applyL
  exact sum_range_contrib_mul A.entries A.cols r u h

theorem sum_map_filter {α : Type} (l : List α) (p : α → Prop) [DecidablePred p] (g : α → K) :
    ((l.filter (fun b => decide (p b))).map g).sum
      = (l.map (fun b => if p b then g b else 0)).sum := by
  induction l with
  | nil => simp
  | cons b l ih =>
    by_cases hb : p b
    · simp [List.filter_cons, hb, ih]
    · simp [List.filter_cons, hb, ih]

/-- `(A * B) u = A (B u)` on triplet lists. -/
theorem applyL_mul (A B : SparseMatrix K) (u : Nat → K) (r : Nat) :
    applyL (SparseMatrix.mul A B).entries u r = applyL A.entries (applyL B.entries u) r := by
  unfold SparseMatrix.mul applyL
  dsimp only
  rw [sum_map_flatMap]
  congr 1
  apply List.map_congr_left
  intro a _
  rw [List.map_map]
  by_cases ha : a.row = r
  · simp only [ha, if_true]
    rw [sum_map_filter, ← List.sum_map_mul_left]
    congr 1
    apply List.map_congr_left
    intro b _
    by_cases hb : b.row = a.col
    · simp [hb, mul_assoc]
    · simp [hb]
  · simp only [ha, if_false]
    apply sum_map_zero
    intro b _
    simp [ha]

/-- `(s * G^T) z` on triplet lists. -/
theorem applyL_scale_transpose (s : K) (G : SparseMatrix K) (z : Nat → K) (a : Nat) :
    applyL (SparseMatrix.scale s (SparseMatrix.transpose G)).entries z a
      = s * (G.entries.map (fun g => if g.col = a then g.value * z g.row else 0)).sum := by
  unfold SparseMatrix.scale SparseMatrix.transpose applyL
  dsimp only
  simp only [List.map_map]
  rw [← List.sum_map_mul_left]
  congr 1
  apply List.map_congr_left
  intro g _
  simp only [Function.comp]
  by_cases hg : g.col = a
  · simp [hg, mul_assoc]
  · simp [hg]

/-- Column sums of a product `G0 * A` against a row vector `z`. -/
theorem sum_col_mul (G0 A : SparseMatrix K) (z : Nat → K) (a : Nat) :
    ((SparseMatrix.mul G0 A).entries.map
        (fun g => if g.col = a then g.value * z g.row else 0)).sum
      = (G0.entries.map (fun g => g.value * A.coeff g.col a * z g.row)).sum := by
  unfold SparseMatrix.mul SparseMatrix.coeff
  dsimp only
  rw [sum_map_flatMap]
  congr 1
  apply List.map_congr_left
  intro g _
  rw [List.map_map]
  rw [sum_map_filter, mul_assoc, mul_comm _ (z g.row), ← mul_assoc, ← List.sum_map_mul_left]
  congr 1
  apply List.map_congr_left
  intro b _
  unfold Triplet.contrib
  by_cases hb : b.row = g.col <;> by_cases hc : b.col = a
  · simp [hb, hc]; ring
  · simp [hb, hc]
  · simp [hb, hc]
  · simp [hb, hc]

theorem mem_faceGradientTriplets (sqrt : K → K) (mesh : SurfaceMesh K)
    (f : List (Fin mesh.nv)) (fi k : Nat) (g : Triplet K)
    (hg : g ∈ faceGradientTriplets sqrt mesh f fi k) :
    3 * k ≤ g.row ∧ g.row < 3 * (k + f.length) := by
  unfold faceGradientTriplets at hg
  simp only [List.mem_flatMap, List.mem_cons, List.mem_singleton, List.not_mem_nil,
    or_false] at hg
  obtain ⟨i, _, j, _, h⟩ := hg
  have hi := i.isLt
  have hj := j.isLt
  rcases h with rfl | rfl | rfl <;> constructor <;> dsimp only <;> omega

theorem mem_gradientTriplets (sqrt : K → K) (mesh : SurfaceMesh K)
    (fs : List (List (Fin mesh.nv))) (fi k : Nat) (g : Triplet K)
    (hg : g ∈ gradientTriplets sqrt mesh fs fi k) : 3 * k ≤ g.row := by
  induction fs generalizing fi k with
  | nil => simp [gradientTriplets] at hg
  | cons f rest ih =>
    rw [gradientTriplets, List.mem_append] at hg
    rcases hg with h | h
    · exact (mem_faceGradientTriplets sqrt mesh f fi k g h).1
    · have := ih _ _ h
      omega

theorem mem_faceGradientMassTriplets (sqrt : K → K) (mesh : SurfaceMesh K)
    (f : List (Fin mesh.nv)) (fi c : Nat) (b : Triplet K)
    (hb : b ∈ faceGradientMassTriplets sqrt mesh f fi c) :
    c ≤ b.row ∧ b.row < c + f.length * 3 ∧ b.col = b.row := by
  unfold faceGradientMassTriplets at hb
  simp only [List.mem_flatMap, List.mem_map] at hb
  obtain ⟨i, _, j, _, rfl⟩ := hb
  have hi := i.isLt
  have hj := j.isLt
  refine ⟨?_, ?_, rfl⟩ <;> dsimp only <;> omega

theorem gradientMassTriplets_snd (sqrt : K → K) (mesh : SurfaceMesh K)
    (fs : List (List (Fin mesh.nv))) (fi c : Nat) :
    (gradientMassTriplets sqrt mesh fs fi c).2 = c + 3 * (fs.map List.length).sum := by
  induction fs generalizing fi c with
  | nil => simp [gradientMassTriplets]
  | cons f rest ih =>
    rw [gradientMassTriplets]
    dsimp only
    rw [ih, List.map_cons, List.sum_cons]
    ring

theorem mem_gradientMassTriplets (sqrt : K → K) (mesh : SurfaceMesh K)
    (fs : List (List (Fin mesh.nv))) (fi c : Nat) (b : Triplet K)
    (hb : b ∈ (gradientMassTriplets sqrt mesh fs fi c).1) :
    c ≤ b.row ∧ b.row < c + 3 * (fs.map List.length).sum ∧ b.col = b.row := by
  induction fs generalizing fi c with
  | nil => simp [gradientMassTriplets] at hb
  | cons f rest ih =>
    rw [gradientMassTriplets] at hb
    dsimp only at hb
    rw [List.mem_append] at hb
    rw [List.map_cons, List.sum_cons]
    rcases hb with h | h
    · have h1 := mem_faceGradientMassTriplets sqrt mesh f fi c b h
      exact ⟨h1.1, by omega, h1.2.2⟩
    · have := ih _ _ h
      exact ⟨by omega, by omega, this.2.2⟩

theorem applyL_flatMap {α : Type} (l : List α) (g : α → List (Triplet K)) (u : Nat → K)
    (r : Nat) : applyL (l.flatMap g) u r = (l.map (fun a => applyL (g a) u r)).sum := by
  unfold applyL
  rw [sum_map_flatMap]

/-- Row `3 (k + i) + j` of the triplets of one face: the `j`-th component of the fan
gradient of the `i`-th fan triangle. -/
theorem applyL_faceGradientTriplets (sqrt : K → K) (mesh : SurfaceMesh K)
    (f : List (Fin mesh.nv)) (fi k : Nat) (x : Nat → K) (i : Fin f.length) (j : Fin 3) :
    applyL (faceGradientTriplets sqrt mesh f fi k) x (3 * (k + i.val) + j.val)
      = fanGradient sqrt mesh f fi i x j := by
  unfold faceGradientTriplets
  dsimp only
  rw [applyL_flatMap, sum_map_finRange, Finset.sum_eq_single i]
  · rw [applyL_flatMap, sum_map_finRange, Finset.sum_eq_single j]
    · simp [applyL, fanGradient, add_assoc]
    · intro j2 _ hj2
      have : ¬ (3 * (k + i.val) + j2.val = 3 * (k + i.val) + j.val) := by
        intro h
        exact hj2 (Fin.ext (by omega))
      simp [applyL, this]
    · intro h
      exact absurd (Finset.mem_univ _) h
  · intro i2 _ hi2
    rw [applyL_flatMap]
    apply sum_map_zero
    intro j2 _
    have hj := j.isLt
    have hj2 := j2.isLt
    have : ¬ (3 * (k + i2.val) + j2.val = 3 * (k + i.val) + j.val) := by
      intro h
      exact hi2 (Fin.ext (by omega))
    simp [applyL, this]
  · intro h
    exact absurd (Finset.mem_univ _) h

theorem applyL_faceGradientMassTriplets (sqrt : K → K) (mesh : SurfaceMesh K)
    (f : List (Fin mesh.nv)) (fi k : Nat) (y : Nat → K) (i : Fin f.length) (j : Fin 3) :
    applyL (faceGradientMassTriplets sqrt mesh f fi (3 * k)) y (3 * (k + i.val) + j.val)
      = fanArea sqrt mesh f fi i * y (3 * (k + i.val) + j.val) := by
  unfold faceGradientMassTriplets
  dsimp only
  rw [applyL_flatMap, sum_map_finRange, Finset.sum_eq_single i]
  · unfold applyL
    rw [List.map_map, sum_map_finRange, Finset.sum_eq_single j]
    · have e : 3 * k + 3 * i.val + j.val = 3 * (k + i.val) + j.val := by ring
      simp [e, fanArea]
    · intro j2 _ hj2
      have : ¬ (3 * k + 3 * i.val + j2.val = 3 * (k + i.val) + j.val) := by
        intro h
        exact hj2 (Fin.ext (by omega))
      simp [this]
    · intro h
      exact absurd (Finset.mem_univ _) h
  · intro i2 _ hi2
    unfold applyL
    rw [List.map_map]
    apply sum_map_zero
    intro j2 _
    have hj := j.isLt
    have hj2 := j2.isLt
    have : ¬ (3 * k + 3 * i2.val + j2.val = 3 * (k + i.val) + j.val) := by
      intro h
      exact hi2 (Fin.ext (by omega))
    simp [this]
  · intro h
    exact absurd (Finset.mem_univ _) h

/-- Sum over the triplets of one face of `value * z(col) * Z(row)`. -/
theorem sum_faceGradientTriplets (sqrt : K → K) (mesh : SurfaceMesh K)
    (f : List (Fin mesh.nv)) (fi k : Nat) (z Z : Nat → K) :
    ((faceGradientTriplets sqrt mesh f fi k).map (fun g => g.value * z g.col * Z g.row)).sum
      = ∑ i : Fin f.length, ∑ j : Fin 3,
          fanGradient sqrt mesh f fi i z j * Z (3 * (k + i.val) + j.val) := by
  unfold faceGradientTriplets
  dsimp only
  rw [sum_map_flatMap, sum_map_finRange]
  apply Finset.sum_congr rfl
  intro i _
  rw [sum_map_flatMap, sum_map_finRange]
  apply Finset.sum_congr rfl
  intro j _
  simp only [List.map_cons, List.map_nil, List.sum_cons, List.sum_nil, fanGradient]
  ring


/-- The rows of one face, seen from the full triplet lists: the mass entry times the fan
gradient. -/
theorem applyL_face_row (sqrt : K → K) (mesh : SurfaceMesh K) (f : List (Fin mesh.nv))
    (fi k : Nat) (x : Nat → K) (Gpre Gr Mpre Mr : List (Triplet K))
    (hG : ∀ g ∈ Gpre, g.row < 3 * k) (hM : ∀ b ∈ Mpre, b.row < 3 * k)
    (hGr : ∀ g ∈ Gr, 3 * (k + f.length) ≤ g.row) (hMr : ∀ b ∈ Mr, 3 * (k + f.length) ≤ b.row)
    (i : Fin f.length) (j : Fin 3) :
    applyL (Mpre ++ (faceGradientMassTriplets sqrt mesh f fi (3 * k) ++ Mr))
        (applyL (Gpre ++ (faceGradientTriplets sqrt mesh f fi k ++ Gr)) x)
        (3 * (k + i.val) + j.val)
      = fanArea sqrt mesh f fi i * fanGradient sqrt mesh f fi i x j := by
  have hi := i.isLt
  have hj := j.isLt
  rw [applyL_append, applyL_append, applyL_eq_zero Mpre _ _ (fun b hb => by
      have := hM b hb
      omega),
    applyL_eq_zero Mr _ _ (fun b hb => by
      have := hMr b hb
      omega),
    applyL_faceGradientMassTriplets, zero_add, add_zero,
    applyL_append, applyL_append, applyL_eq_zero Gpre _ _ (fun g hg => by
      have := hG g hg
      omega),
    applyL_eq_zero Gr _ _ (fun g hg => by
      have := hGr g hg
      omega),
    applyL_faceGradientTriplets, zero_add, add_zero]

theorem sum_gradientTriplets_energy (sqrt : K → K) (mesh : SurfaceMesh K) (z x : Nat → K)
    (fs : List (List (Fin mesh.nv))) (fi k : Nat) (Gpre Mpre : List (Triplet K))
    (hG : ∀ g ∈ Gpre, g.row < 3 * k) (hM : ∀ b ∈ Mpre, b.row < 3 * k) :
    ((gradientTriplets sqrt mesh fs fi k).map (fun g => g.value * z g.col
        * applyL (Mpre ++ (gradientMassTriplets sqrt mesh fs fi (3 * k)).1)
            (applyL (Gpre ++ gradientTriplets sqrt mesh fs fi k) x) g.row)).sum
      = energySum sqrt mesh z x fs fi := by
  induction fs generalizing fi k Gpre Mpre with
  | nil => simp [gradientTriplets, energySum]
  | cons f rest ih =>
    have e3 : 3 * k + f.length * 3 = 3 * (k + f.length) := by ring
    rw [gradientTriplets, gradientMassTriplets, energySum]
    dsimp only
    rw [e3, List.map_append, List.sum_append]
    congr 1
    · rw [sum_faceGradientTriplets]
      unfold faceEnergy
      apply Finset.sum_congr rfl
      intro i _
      have hrow : ∀ j : Fin 3,
          applyL (Mpre ++ (faceGradientMassTriplets sqrt mesh f fi (3 * k)
              ++ (gradientMassTriplets sqrt mesh rest (fi + 1) (3 * (k + f.length))).1))
            (applyL (Gpre ++ (faceGradientTriplets sqrt mesh f fi k
              ++ gradientTriplets sqrt mesh rest (fi + 1) (k + f.length))) x)
            (3 * (k + i.val) + j.val)
          = fanArea sqrt mesh f fi i * fanGradient sqrt mesh f fi i x j := fun j =>
        applyL_face_row sqrt mesh f fi k x Gpre _ Mpre _ hG hM
          (fun g hg => mem_gradientTriplets sqrt mesh rest _ _ g hg)
          (fun b hb => (mem_gradientMassTriplets sqrt mesh rest _ _ b hb).1) i j
      simp only [hrow]
      rw [Fin.sum_univ_three, dot_eq]
      ring
    · have h := ih (fi + 1) (k + f.length) (Gpre ++ faceGradientTriplets sqrt mesh f fi k)
        (Mpre ++ faceGradientMassTriplets sqrt mesh f fi (3 * k))
        (fun g hg => by
          rcases List.mem_append.mp hg with h1 | h1
          · have := hG g h1
            omega
          · exact (mem_faceGradientTriplets sqrt mesh f fi k g h1).2)
        (fun b hb => by
          rcases List.mem_append.mp hb with h1 | h1
          · have := hM b h1
            omega
          · have := (mem_faceGradientMassTriplets sqrt mesh f fi (3 * k) b h1).2.1
            omega)
      simp only [List.append_assoc] at h
      exact h


theorem prolongation_col_lt (mesh : SurfaceMesh K) (t : Triplet K)
    (ht : t ∈ (setup_prolongation_matrix mesh).entries) : t.col < mesh.nv := by
  unfold setup_prolongation_matrix SparseMatrix.resizeFromTriplets at ht
  dsimp only at ht
  rw [List.mem_append] at ht
  rcases ht with h | h
  · rw [List.mem_map] at h
    obtain ⟨v, _, rfl⟩ := h
    exact v.isLt
  · rw [List.mem_flatMap] at h
    obtain ⟨j, _, h2⟩ := h
    rw [List.mem_map] at h2
    obtain ⟨i, _, rfl⟩ := h2
    exact ((mesh.face j).get i).isLt

theorem gradient_matrix_eq (sqrt : K → K) (mesh : SurfaceMesh K) :
    setup_Gradient_Matrix sqrt mesh
      = SparseMatrix.mul
          (SparseMatrix.resizeFromTriplets (3 * nr_triangles mesh) (mesh.nv + mesh.n_faces)
            (gradientTriplets sqrt mesh mesh.faces 0 0))
          (setup_prolongation_matrix mesh) := by
  unfold setup_Gradient_Matrix
  rfl

theorem mulVec_gradient (sqrt : K → K) (mesh : SurfaceMesh K) (u : Nat → K) (r : Nat) :
    (setup_Gradient_Matrix sqrt mesh).mulVec u r
      = applyL (gradientTriplets sqrt mesh mesh.faces 0 0)
          ((setup_prolongation_matrix mesh).mulVec u) r := by
  rw [mulVec_eq_applyL, gradient_matrix_eq, applyL_mul]
  · have e : applyL (setup_prolongation_matrix mesh).entries u
        = (setup_prolongation_matrix mesh).mulVec u := by
      funext c
      rw [mulVec_eq_applyL _ _ _ (fun t ht => prolongation_col_lt mesh t ht)]
    rw [e]
    rfl
  · intro t ht
    rw [gradient_matrix_eq] at ht ⊢
    unfold SparseMatrix.mul at ht ⊢
    dsimp only at ht ⊢
    rw [List.mem_flatMap] at ht
    obtain ⟨g, _, h2⟩ := ht
    rw [List.mem_map] at h2
    obtain ⟨b, hb, rfl⟩ := h2
    exact prolongation_col_lt mesh b (List.mem_of_mem_filter hb)

theorem divergence_gradient_apply (sqrt : K → K) (mesh : SurfaceMesh K) (u : Nat → K)
    (a : Nat) :
    (setup_Divergence_Matrix sqrt mesh).mulVec ((setup_Gradient_Matrix sqrt mesh).mulVec u) a
      = -energySum sqrt mesh (fun c => (setup_prolongation_matrix mesh).coeff c a)
          ((setup_prolongation_matrix mesh).mulVec u) mesh.faces 0 := by
  have hM : (setup_Gradient_Mass_Matrix sqrt mesh).entries
      = (gradientMassTriplets sqrt mesh mesh.faces 0 0).1 := rfl
  have hMc : (setup_Gradient_Mass_Matrix sqrt mesh).cols
      = (gradientMassTriplets sqrt mesh mesh.faces 0 0).2 := rfl
  have hD : setup_Divergence_Matrix sqrt mesh
      = SparseMatrix.mul (SparseMatrix.scale (-1)
          (SparseMatrix.transpose (setup_Gradient_Matrix sqrt mesh)))
          (setup_Gradient_Mass_Matrix sqrt mesh) := rfl
  rw [mulVec_eq_applyL, hD, applyL_mul, applyL_scale_transpose]
  · have e : (setup_Gradient_Matrix sqrt mesh).mulVec u
        = applyL ([] ++ gradientTriplets sqrt mesh mesh.faces 0 0)
          ((setup_prolongation_matrix mesh).mulVec u) := by
      funext r
      rw [mulVec_gradient, List.nil_append]
    rw [e, gradient_matrix_eq, sum_col_mul, hM]
    have h := sum_gradientTriplets_energy sqrt mesh
      (fun c => (setup_prolongation_matrix mesh).coeff c a)
      ((setup_prolongation_matrix mesh).mulVec u) mesh.faces 0 0 [] []
      (fun g hg => absurd hg (List.not_mem_nil g)) (fun g hg => absurd hg (List.not_mem_nil g))
    simp only [List.nil_append, Nat.mul_zero] at h
    simp only [List.nil_append]
    have h2 : (SparseMatrix.resizeFromTriplets (3 * nr_triangles mesh) (mesh.nv + mesh.n_faces)
        (gradientTriplets sqrt mesh mesh.faces 0 0)).entries
        = gradientTriplets sqrt mesh mesh.faces 0 0 := rfl
    rw [h2, h]
    ring
  · intro t ht
    rw [hD] at ht ⊢
    unfold SparseMatrix.mul at ht ⊢
    dsimp only at ht ⊢
    rw [List.mem_flatMap] at ht
    obtain ⟨g, _, h2⟩ := ht
    rw [List.mem_map] at h2
    obtain ⟨b, hb, rfl⟩ := h2
    have hb2 := List.mem_of_mem_filter hb
    rw [hM] at hb2
    have := mem_gradientMassTriplets sqrt mesh mesh.faces 0 0 b hb2
    rw [hMc, gradientMassTriplets_snd]
    dsimp only
    omega


theorem sqrt_unique (sqrt : K → K) (hs : IsSqrt sqrt) (x y : K) (hy : 0 ≤ y)
    (hxy : y * y = x) : sqrt x = y := by
  have hx : 0 ≤ x := by rw [← hxy]; exact mul_self_nonneg y
  obtain ⟨h0, h2⟩ := hs x hx
  have h : sqrt x * sqrt x = y * y := by rw [h2, hxy]
  rcases mul_self_eq_mul_self_iff.mp h with h1 | h1
  · exact h1
  · have : sqrt x = 0 := by linarith
    have : y = 0 := by linarith
    linarith

theorem triangle_area_eq (sqrt : K → K) (i j k : Fin 3 → K) :
    triangle_area sqrt i j k = 1 / 2 * sqrt (crossSq i j k) := rfl

theorem crossSq_rot (p a b : Fin 3 → K) : crossSq a b p = crossSq p a b := by
  simp only [crossSq, dot_eq, cross_zero_eq, cross_one_eq, cross_two_eq, Pi.sub_apply]
  ring

theorem crossSq_rot2 (p a b : Fin 3 → K) : crossSq b p a = crossSq p a b := by
  simp only [crossSq, dot_eq, cross_zero_eq, cross_one_eq, cross_two_eq, Pi.sub_apply]
  ring

theorem crossSq_eq_gram (i j k : Fin 3 → K) :
    crossSq i j k = dot (i - j) (i - j) * dot (k - j) (k - j) - dot (i - j) (k - j) ^ 2 := by
  simp only [crossSq, dot_eq, cross_zero_eq, cross_one_eq, cross_two_eq, Pi.sub_apply]
  ring

theorem gram_aux (s0 s1 s2 b0 b1 b2 : K) (hbb : b0 * b0 + b1 * b1 + b2 * b2 ≠ 0) :
    (s0 - (s0 * b0 + s1 * b1 + s2 * b2) * b0 / (b0 * b0 + b1 * b1 + b2 * b2))
        * (s0 - (s0 * b0 + s1 * b1 + s2 * b2) * b0 / (b0 * b0 + b1 * b1 + b2 * b2))
      + (s1 - (s0 * b0 + s1 * b1 + s2 * b2) * b1 / (b0 * b0 + b1 * b1 + b2 * b2))
        * (s1 - (s0 * b0 + s1 * b1 + s2 * b2) * b1 / (b0 * b0 + b1 * b1 + b2 * b2))
      + (s2 - (s0 * b0 + s1 * b1 + s2 * b2) * b2 / (b0 * b0 + b1 * b1 + b2 * b2))
        * (s2 - (s0 * b0 + s1 * b1 + s2 * b2) * b2 / (b0 * b0 + b1 * b1 + b2 * b2))
      = ((s0 * s0 + s1 * s1 + s2 * s2) * (b0 * b0 + b1 * b1 + b2 * b2)
          - (s0 * b0 + s1 * b1 + s2 * b2) ^ 2) / (b0 * b0 + b1 * b1 + b2 * b2) := by
  field_simp
  ring

/-- Closed form of `gradient_hat_function` on a non-degenerate triangle. -/
theorem gradient_hat_function_eq (sqrt : K → K) (hs : IsSqrt sqrt) (i j k : Fin 3 → K)
    (hD : 0 < crossSq i j k) (ha : ¬ triangle_area sqrt i j k < eps) (c : Fin 3) :
    gradient_hat_function sqrt i j k c
      = (dot (k - j) (k - j) * (i - j) c - dot (i - j) (k - j) * (k - j) c)
          / crossSq i j k := by
  have hDeq := crossSq_eq_gram i j k
  have hbb_pos : 0 < dot (k - j) (k - j) := by
    by_contra h
    have h0 : dot (k - j) (k - j) = 0 := le_antisymm (not_lt.mp h) (dot_self_nonneg _)
    rw [hDeq, h0] at hD
    nlinarith [sq_nonneg (dot (i - j) (k - j))]
  obtain ⟨hβ0, hβ2⟩ := hs _ (le_of_lt hbb_pos)
  have hβne : sqrt (dot (k - j) (k - j)) ≠ 0 := by
    intro h
    rw [h, mul_zero] at hβ2
    linarith
  have hgrad : ∀ c : Fin 3,
      ((i - j) - fun c => dot (i - j) (k - j) / sqrt (dot (k - j) (k - j)) * (k - j) c
          / sqrt (dot (k - j) (k - j))) c
        = (i - j) c - dot (i - j) (k - j) * (k - j) c / dot (k - j) (k - j) := by
    intro c
    rw [Pi.sub_apply]
    congr 1
    rw [div_mul_eq_mul_div, div_div, hβ2]
  have hgg : dot ((i - j) - fun c => dot (i - j) (k - j) / sqrt (dot (k - j) (k - j))
        * (k - j) c / sqrt (dot (k - j) (k - j)))
      ((i - j) - fun c => dot (i - j) (k - j) / sqrt (dot (k - j) (k - j))
        * (k - j) c / sqrt (dot (k - j) (k - j)))
      = crossSq i j k / dot (k - j) (k - j) := by
    rw [dot_eq, hgrad 0, hgrad 1, hgrad 2, hDeq]
    exact gram_aux _ _ _ _ _ _ (ne_of_gt hbb_pos)
  have hgg_pos : 0 < crossSq i j k / dot (k - j) (k - j) := div_pos hD hbb_pos
  obtain ⟨hη0, hη2⟩ := hs _ (le_of_lt (hgg ▸ hgg_pos))
  obtain ⟨hσ0, hσ2⟩ := hs _ (le_of_lt hD)
  have hσ : sqrt (crossSq i j k) = sqrt (dot (k - j) (k - j))
      * sqrt (dot ((i - j) - fun c => dot (i - j) (k - j) / sqrt (dot (k - j) (k - j))
          * (k - j) c / sqrt (dot (k - j) (k - j)))
        ((i - j) - fun c => dot (i - j) (k - j) / sqrt (dot (k - j) (k - j))
          * (k - j) c / sqrt (dot (k - j) (k - j)))) := by
    apply sqrt_unique sqrt hs _ _ (mul_nonneg hβ0 hη0)
    rw [mul_mul_mul_comm, hβ2, hη2, hgg, mul_div_cancel₀ _ (ne_of_gt hbb_pos)]
  have hηne : sqrt (dot ((i - j) - fun c => dot (i - j) (k - j) / sqrt (dot (k - j) (k - j))
          * (k - j) c / sqrt (dot (k - j) (k - j)))
        ((i - j) - fun c => dot (i - j) (k - j) / sqrt (dot (k - j) (k - j))
          * (k - j) c / sqrt (dot (k - j) (k - j)))) ≠ 0 := by
    intro h
    rw [h, mul_zero, hgg] at hη2
    linarith
  unfold gradient_hat_function
  dsimp only
  rw [if_neg ha]
  unfold norm
  rw [triangle_area_eq, hσ]
  set β := sqrt (dot (k - j) (k - j))
  set grad : Fin 3 → K := (i - j) - fun c => dot (i - j) (k - j) / β * (k - j) c / β
  set η := sqrt (dot grad grad)
  have h1 : β * grad c / η / (2 * (1 / 2 * (β * η))) = grad c / (η * η) := by
    field_simp
    ring
  rw [h1, hη2, hgg, hgrad c]
  have hne := ne_of_gt hbb_pos
  have hDne := ne_of_gt hD
  field_simp
  ring


theorem cross_gram (e1 e2 : Fin 3 → K) :
    dot (cross e1 e2) (cross e1 e2) = dot e1 e1 * dot e2 e2 - dot e1 e2 ^ 2 := by
  simp only [dot_eq, cross_zero_eq, cross_one_eq, cross_two_eq]
  ring

/-- The cotangent identity for two spokes `e1`, `e2` of a kite, in terms of their Gram
matrix. -/
theorem kite_energy (e1 e2 : Fin 3 → K) (a1 a2 b1 b2 : K) :
    2 * dot
        (fun c => (dot e2 e2 * e1 c - dot e1 e2 * e2 c) * a1
          + (dot e1 e1 * e2 c - dot e1 e2 * e1 c) * a2)
        (fun c => (dot e2 e2 * e1 c - dot e1 e2 * e2 c) * b1
          + (dot e1 e1 * e2 c - dot e1 e2 * e1 c) * b2)
      = (2 * (dot e1 e1 - dot e1 e2) * (a2 * b2) + 2 * (dot e2 e2 - dot e1 e2) * (a1 * b1)
          + 2 * dot e1 e2 * ((a1 - a2) * (b1 - b2)))
        * (dot e1 e1 * dot e2 e2 - dot e1 e2 ^ 2) := by
  have hss : e1 0 * e1 0 + e1 1 * e1 1 + e1 2 * e1 2 = dot e1 e1 := rfl
  have hm : e1 0 * e2 0 + e1 1 * e2 1 + e1 2 * e2 2 = dot e1 e2 := rfl
  have hbb : e2 0 * e2 0 + e2 1 * e2 1 + e2 2 * e2 2 = dot e2 e2 := rfl
  generalize dot e1 e1 = ss at *
  generalize dot e1 e2 = m at *
  generalize dot e2 e2 = bb at *
  simp only [dot_eq]
  linear_combination
    2 * (a1 * b1 * bb ^ 2 - (a1 * b2 + a2 * b1) * bb * m + a2 * b2 * m ^ 2) * hss
    + 2 * (-2 * a1 * b1 * bb * m + (a1 * b2 + a2 * b1) * (bb * ss + m ^ 2)
        - 2 * a2 * b2 * ss * m) * hm
    + 2 * (a1 * b1 * m ^ 2 - (a1 * b2 + a2 * b1) * m * ss + a2 * b2 * ss ^ 2) * hbb

theorem fan_numerators (P A B : Fin 3 → K) (tu uA uB : K) :
    (fun c => (dot (B - A) (B - A) * (P - A) c - dot (P - A) (B - A) * (B - A) c) * tu
        + (dot (P - B) (P - B) * (A - B) c - dot (A - B) (P - B) * (P - B) c) * uA
        + (dot (A - P) (A - P) * (B - P) c - dot (B - P) (A - P) * (A - P) c) * uB)
      = fun c => (dot (B - P) (B - P) * (A - P) c - dot (A - P) (B - P) * (B - P) c) * (uA - tu)
        + (dot (A - P) (A - P) * (B - P) c - dot (A - P) (B - P) * (A - P) c) * (uB - tu) := by
  funext c
  simp only [dot_eq, Pi.sub_apply]
  ring

theorem squaredNorm_eq_dot (v : Fin 3 → K) : squaredNorm v = dot v v := rfl

theorem dot_edge (P A B : Fin 3 → K) :
    dot (A - B) (A - B) = dot (A - P) (A - P) - 2 * dot (A - P) (B - P) + dot (B - P) (B - P) := by
  simp only [dot_eq, Pi.sub_apply]
  ring

/-- The polynomial identity behind the cotangent formula: twice the product of the
(unnormalised) fan gradients of two fields equals the cotangent form times the squared cross
product. -/
theorem fan_key (P A B : Fin 3 → K) (tu uA uB tv vA vB : K) :
    2 * dot
        (fun c => (dot (B - A) (B - A) * (P - A) c - dot (P - A) (B - A) * (B - A) c) * tu
          + (dot (P - B) (P - B) * (A - B) c - dot (A - B) (P - B) * (P - B) c) * uA
          + (dot (A - P) (A - P) * (B - P) c - dot (B - P) (A - P) * (A - P) c) * uB)
        (fun c => (dot (B - A) (B - A) * (P - A) c - dot (P - A) (B - A) * (B - A) c) * tv
          + (dot (P - B) (P - B) * (A - B) c - dot (A - B) (P - B) * (P - B) c) * vA
          + (dot (A - P) (A - P) * (B - P) c - dot (B - P) (A - P) * (A - P) c) * vB)
      = ((squaredNorm (A - P) + squaredNorm (A - B) - squaredNorm (B - P))
            * ((uB - tu) * (vB - tv))
          + (squaredNorm (A - B) + squaredNorm (B - P) - squaredNorm (A - P))
            * ((uA - tu) * (vA - tv))
          + (squaredNorm (B - P) + squaredNorm (A - P) - squaredNorm (A - B))
            * ((uA - uB) * (vA - vB))) * crossSq P A B := by
  rw [fan_numerators P A B tu uA uB, fan_numerators P A B tv vA vB, kite_energy]
  have hc : crossSq P A B = dot (A - P) (A - P) * dot (B - P) (B - P)
      - dot (A - P) (B - P) ^ 2 := cross_gram (A - P) (B - P)
  rw [hc, squaredNorm_eq_dot, squaredNorm_eq_dot, squaredNorm_eq_dot, dot_edge P A B]
  ring

theorem areaTol_pos : (0 : K) < areaTol := by
  unfold areaTol
  norm_num

theorem eps_lt_areaTol : (eps : K) < areaTol := by
  unfold eps areaTol
  have h1 : (1 : K) / 10000000000 = 1 / 10000000 * (1 / 1000) := by norm_num
  rw [h1]
  have h2 : (0 : K) < 1 / 10000000 := by norm_num
  have h3 : (1 : K) / 1000 < 1 := by norm_num
  nlinarith

theorem crossSq_pos_of_sqrt_pos (sqrt : K → K) (hs : IsSqrt sqrt) (p a b : Fin 3 → K)
    (h : 0 < sqrt (crossSq p a b)) : 0 < crossSq p a b := by
  rcases (crossSq_nonneg p a b).lt_or_eq with h1 | h1
  · exact h1
  · exfalso
    have h2 := (hs _ (crossSq_nonneg p a b)).2
    rw [← h1] at h2 h
    have := mul_pos h h
    linarith

/-- Closed form of the kite coefficients of `localStiffnessMatrix` on a kite whose area is
above the tolerance. -/
theorem stiffnessCoef_eq (sqrt : K → K) (hs : IsSqrt sqrt) {n : Nat}
    (poly : Fin n → Fin 3 → K) (min : Fin 3 → K) (i : Fin n)
    (h : areaTol < sqrt (crossSq min (poly i) (poly (nextIdx i)))) :
    stiffnessCoef sqrt poly min i
      = ![1 / 4 * (squaredNorm (poly i - min) + squaredNorm (poly i - poly (nextIdx i))
              - squaredNorm (poly (nextIdx i) - min))
            / sqrt (crossSq min (poly i) (poly (nextIdx i))),
          1 / 4 * (squaredNorm (poly i - poly (nextIdx i)) + squaredNorm (poly (nextIdx i) - min)
              - squaredNorm (poly i - min))
            / sqrt (crossSq min (poly i) (poly (nextIdx i))),
          1 / 4 * (squaredNorm (poly (nextIdx i) - min) + squaredNorm (poly i - min)
              - squaredNorm (poly i - poly (nextIdx i)))
            / sqrt (crossSq min (poly i) (poly (nextIdx i)))] := by
  have hD := crossSq_nonneg min (poly i) (poly (nextIdx i))
  obtain ⟨hσ0, hσ2⟩ := hs _ hD
  have h4 : sqrt (4 * crossSq min (poly i) (poly (nextIdx i)))
      = 2 * sqrt (crossSq min (poly i) (poly (nextIdx i))) := by
    apply sqrt_unique sqrt hs _ _ (mul_nonneg (by norm_num) hσ0)
    rw [mul_mul_mul_comm, hσ2]
    norm_num
  unfold stiffnessCoef
  dsimp only
  rw [heron_arg sqrt hs, h4]
  have e : 1 / 2 * (2 * sqrt (crossSq min (poly i) (poly (nextIdx i))))
      = sqrt (crossSq min (poly i) (poly (nextIdx i))) := by ring
  rw [e, if_pos h]

/-- The area-weighted product of the fan gradients on one fan triangle `(P, A, B)` equals the
cotangent form of the kite. -/
theorem fan_triangle_energy (sqrt : K → K) (hs : IsSqrt sqrt) (P A B : Fin 3 → K)
    (hA : areaTol < triangle_area sqrt P A B) (tu uA uB tv vA vB : K) :
    triangle_area sqrt A B P
      * dot (fun c => gradient_hat_function sqrt P A B c * tu
              + gradient_hat_function sqrt A B P c * uA
              + gradient_hat_function sqrt B P A c * uB)
            (fun c => gradient_hat_function sqrt P A B c * tv
              + gradient_hat_function sqrt A B P c * vA
              + gradient_hat_function sqrt B P A c * vB)
      = cotForm ![1 / 4 * (squaredNorm (A - P) + squaredNorm (A - B) - squaredNorm (B - P))
                    / sqrt (crossSq P A B),
                  1 / 4 * (squaredNorm (A - B) + squaredNorm (B - P) - squaredNorm (A - P))
                    / sqrt (crossSq P A B),
                  1 / 4 * (squaredNorm (B - P) + squaredNorm (A - P) - squaredNorm (A - B))
                    / sqrt (crossSq P A B)]
          uA uB tu vA vB tv := by
  rw [triangle_area_eq] at hA
  have hσpos : 0 < sqrt (crossSq P A B) := by
    have := @areaTol_pos K _
    linarith
  have hD := crossSq_pos_of_sqrt_pos sqrt hs P A B hσpos
  have hσ2 := (hs _ (le_of_lt hD)).2
  have hna : ¬ (1 / 2 * sqrt (crossSq P A B) < eps) := by
    have := @eps_lt_areaTol K _
    intro h
    linarith
  have g1 : ∀ c, gradient_hat_function sqrt P A B c
      = (dot (B - A) (B - A) * (P - A) c - dot (P - A) (B - A) * (B - A) c)
          / crossSq P A B :=
    fun c => gradient_hat_function_eq sqrt hs P A B hD (by rw [triangle_area_eq]; exact hna) c
  have g2 : ∀ c, gradient_hat_function sqrt A B P c
      = (dot (P - B) (P - B) * (A - B) c - dot (A - B) (P - B) * (P - B) c)
          / crossSq P A B := by
    intro c
    rw [← crossSq_rot P A B]
    exact gradient_hat_function_eq sqrt hs A B P (by rw [crossSq_rot]; exact hD)
      (by rw [triangle_area_eq, crossSq_rot]; exact hna) c
  have g3 : ∀ c, gradient_hat_function sqrt B P A c
      = (dot (A - P) (A - P) * (B - P) c - dot (B - P) (A - P) * (A - P) c)
          / crossSq P A B := by
    intro c
    rw [← crossSq_rot2 P A B]
    exact gradient_hat_function_eq sqrt hs B P A (by rw [crossSq_rot2]; exact hD)
      (by rw [triangle_area_eq, crossSq_rot2]; exact hna) c
  have key := fan_key P A B tu uA uB tv vA vB
  rw [triangle_area_eq, crossSq_rot]
  simp only [g1, g2, g3]
  set nP : Fin 3 → K :=
    fun c => dot (B - A) (B - A) * (P - A) c - dot (P - A) (B - A) * (B - A) c
  set nA : Fin 3 → K :=
    fun c => dot (P - B) (P - B) * (A - B) c - dot (A - B) (P - B) * (P - B) c
  set nB : Fin 3 → K :=
    fun c => dot (A - P) (A - P) * (B - P) c - dot (B - P) (A - P) * (A - P) c
  set D := crossSq P A B
  set σ := sqrt D
  have hDne := ne_of_gt hD
  have hσne := ne_of_gt hσpos
  have e : dot (fun c => nP c / D * tu + nA c / D * uA + nB c / D * uB)
      (fun c => nP c / D * tv + nA c / D * vA + nB c / D * vB)
      = dot (fun c => nP c * tu + nA c * uA + nB c * uB)
          (fun c => nP c * tv + nA c * vA + nB c * vB) / (D * D) := by
    simp only [dot_eq]
    field_simp
  rw [e]
  unfold cotForm
  simp only [Matrix.cons_val_zero, Matrix.cons_val_one, Matrix.head_cons, Matrix.cons_val_two,
    Matrix.tail_cons]
  have key2 : dot (fun c => nP c * tu + nA c * uA + nB c * uB)
      (fun c => nP c * tv + nA c * vA + nB c * vB)
      = ((squaredNorm (A - P) + squaredNorm (A - B) - squaredNorm (B - P))
            * ((uB - tu) * (vB - tv))
          + (squaredNorm (A - B) + squaredNorm (B - P) - squaredNorm (A - P))
            * ((uA - tu) * (vA - tv))
          + (squaredNorm (B - P) + squaredNorm (A - P) - squaredNorm (A - B))
            * ((uA - uB) * (vA - vB))) * D / 2 := by
    rw [← key]
    ring
  rw [key2]
  generalize squaredNorm (A - P) + squaredNorm (A - B) - squaredNorm (B - P) = N0
  generalize squaredNorm (A - B) + squaredNorm (B - P) - squaredNorm (A - P) = N1
  generalize squaredNorm (B - P) + squaredNorm (A - P) - squaredNorm (A - B) = N2
  rw [← hσ2]
  field_simp
  ring


theorem nextIdx_prev {n : Nat} (i : Fin n) :
    nextIdx (⟨(i.val + (n - 1)) % n, Nat.mod_lt _ i.pos⟩ : Fin n) = i := by
  apply Fin.ext
  show ((i.val + (n - 1)) % n + 1) % n = i.val
  have hn := i.pos
  rw [Nat.mod_add_mod]
  have e : i.val + (n - 1) + 1 = i.val + n := by omega
  rw [e, Nat.add_mod_right, Nat.mod_eq_of_lt i.isLt]

theorem prev_bijective {n : Nat} :
    Function.Bijective (fun i : Fin n => (⟨(i.val + (n - 1)) % n, Nat.mod_lt _ i.pos⟩ : Fin n)) := by
  apply Finite.injective_iff_bijective.mp
  intro a b hab
  have h := congrArg nextIdx hab
  simp only [nextIdx_prev] at h
  exact h

theorem half_area_lt (sqrt : K → K) (p a b : Fin 3 → K)
    (h : areaTol < triangle_area sqrt p a b) (h0 : 0 ≤ sqrt (crossSq p a b)) :
    areaTol < sqrt (crossSq p a b) := by
  rw [triangle_area_eq] at h
  linarith

/-- On a face whose virtual point and virtual value are the weighted combinations and whose
fan triangles are above the tolerance, the gradient energy is the bilinear form of the local
stiffness matrix. -/
theorem faceEnergy_eq_bilin (sqrt : K → K) (hs : IsSqrt sqrt) (m : SurfaceMesh K)
    (f : List (Fin m.nv)) (fi : Nat) (w : Fin f.length → K) (z x : Nat → K)
    (hz : z (m.nv + fi) = wdot w (fun i => z (f.get i).val))
    (hx : x (m.nv + fi) = wdot w (fun i => x (f.get i).val))
    (harea : ∀ i : Fin f.length, areaTol < triangle_area sqrt (m.area_points fi)
      (m.position (heFrom f i)) (m.position (heTo f i))) :
    faceEnergy sqrt m f fi z x
      = bilin (localStiffnessMatrix sqrt (facePoly m f) (m.area_points fi) w)
          (fun i => z (f.get i).val) (fun i => x (f.get i).val) := by
  rw [bilin_localStiffnessMatrix]
  unfold faceEnergy
  apply Fintype.sum_bijective _ prev_bijective
  intro i
  dsimp only
  rw [nextIdx_prev]
  have hσ0 := (hs _ (crossSq_nonneg (m.area_points fi) (m.position (heFrom f i))
    (m.position (heTo f i)))).1
  have hc := stiffnessCoef_eq sqrt hs (facePoly m f) (m.area_points fi)
    (⟨(i.val + (f.length - 1)) % f.length, Nat.mod_lt _ i.pos⟩ : Fin f.length)
    (by
      rw [nextIdx_prev]
      exact half_area_lt sqrt _ _ _ (harea i) hσ0)
  rw [nextIdx_prev] at hc
  rw [hc, ← hz, ← hx]
  exact fan_triangle_energy sqrt hs (m.area_points fi) (m.position (heFrom f i))
    (m.position (heTo f i)) (harea i) _ _ _ _ _ _


theorem getD_map_getD {α β : Type} (l : List α) (g : α → β) (j : Nat) (d0 : α) (d : β)
    (hj : j < l.length) : (l.map g).getD j d = g (l.getD j d0) := by
  rw [List.getD_eq_getElem _ _ (by simpa using hj), List.getElem_map,
    List.getD_eq_getElem _ _ hj]

theorem stored_area_points (solve : Solver K) (m : SurfaceMesh K)
    (hst : HasStoredFaceProperties solve m) (fi : Nat) (hfi : fi < m.n_faces) :
    m.area_points fi = polyTransposeMul (facePoly m (m.face fi))
      (find_polygon_weights solve (facePoly m (m.face fi))) := by
  unfold SurfaceMesh.area_points
  rw [hst.1]
  exact getD_map_getD m.faces _ fi [] 0 hfi

theorem stored_area_weights (solve : Solver K) (m : SurfaceMesh K)
    (hst : HasStoredFaceProperties solve m) (fi : Nat) (hfi : fi < m.n_faces) :
    m.area_weights fi = List.ofFn (find_polygon_weights solve (facePoly m (m.face fi))) := by
  unfold SurfaceMesh.area_weights
  rw [hst.2]
  exact getD_map_getD m.faces _ fi [] [] hfi

theorem vecAt_ofFn {n : Nat} (w : Fin n → K) (i : Fin n) : vecAt (List.ofFn w) i.val = w i := by
  unfold vecAt
  rw [List.getD_eq_getElem _ _ (by simp)]
  simp

theorem mulVec_prolongation_top (m : SurfaceMesh K) (u : Nat → K) (r : Nat) (hr : r < m.nv) :
    (setup_prolongation_matrix m).mulVec u r = u r := by
  unfold SparseMatrix.mulVec
  have hc : (setup_prolongation_matrix m).cols = m.nv := rfl
  rw [hc]
  simp only [prolongation_top m r _ hr, ite_mul, one_mul, zero_mul]
  rw [Finset.sum_ite_eq]
  simp [hr]

theorem mulVec_prolongation_bottom (m : SurfaceMesh K) (u : Nat → K) (fi : Nat)
    (hfi : fi < m.n_faces) :
    (setup_prolongation_matrix m).mulVec u (m.nv + fi)
      = ∑ i : Fin (m.face fi).length,
          vecAt (m.area_weights fi) i.val * u ((m.face fi).get i).val := by
  unfold SparseMatrix.mulVec
  have hc : (setup_prolongation_matrix m).cols = m.nv := rfl
  rw [hc]
  simp only [prolongation_bottom m fi _ hfi, Finset.sum_mul]
  rw [Finset.sum_comm]
  apply Finset.sum_congr rfl
  intro i _
  simp only [ite_mul, zero_mul]
  rw [Finset.sum_ite_eq]
  simp

/-- The virtual-point entries of a column of the prolongation and of a prolonged field are
the weighted combinations of the vertex entries. -/
theorem prolongation_virtual (solve : Solver K) (m : SurfaceMesh K)
    (hst : HasStoredFaceProperties solve m) (fi : Nat) (hfi : fi < m.n_faces) (u : Nat → K)
    (a : Nat) :
    (setup_prolongation_matrix m).coeff (m.nv + fi) a
        = wdot (find_polygon_weights solve (facePoly m (m.face fi)))
            (fun i => (setup_prolongation_matrix m).coeff ((m.face fi).get i).val a) ∧
    (setup_prolongation_matrix m).mulVec u (m.nv + fi)
        = wdot (find_polygon_weights solve (facePoly m (m.face fi)))
            (fun i => (setup_prolongation_matrix m).mulVec u ((m.face fi).get i).val) := by
  constructor
  · rw [prolongation_bottom m fi a hfi, stored_area_weights solve m hst fi hfi]
    unfold wdot
    apply Finset.sum_congr rfl
    intro i _
    beta_reduce
    rw [vecAt_ofFn, prolongation_top m _ _ ((m.face fi).get i).isLt]
    by_cases h : ((m.face fi).get i).val = a
    · simp [h]
    · simp [h]
  · rw [mulVec_prolongation_bottom m u fi hfi, stored_area_weights solve m hst fi hfi]
    unfold wdot
    apply Finset.sum_congr rfl
    intro i _
    beta_reduce
    rw [vecAt_ofFn, mulVec_prolongation_top m u _ ((m.face fi).get i).isLt]

theorem face_of_drop {R : Type} (m : SurfaceMesh R) (fi : Nat) (f : List (Fin m.nv))
    (rest : List (List (Fin m.nv))) (h : m.faces.drop fi = f :: rest) :
    fi < m.n_faces ∧ m.face fi = f ∧ m.faces.drop (fi + 1) = rest := by
  have hlt : fi < m.faces.length := by
    by_contra hn
    rw [List.drop_eq_nil_of_le (not_lt.mp hn)] at h
    exact absurd h (List.cons_ne_nil _ _).symm
  rw [List.drop_eq_getElem_cons hlt] at h
  injection h with h1 h2
  refine ⟨hlt, ?_, h2⟩
  unfold SurfaceMesh.face
  rw [List.getD_eq_getElem _ _ hlt]
  exact h1

/-- The gradient energy of a mesh with stored face properties, face by face, is the bilinear
form of the local stiffness matrices. -/
theorem energySum_eq_bilin (sqrt : K → K) (hs : IsSqrt sqrt) (solve : Solver K)
    (m : SurfaceMesh K) (hst : HasStoredFaceProperties solve m)
    (harea : ∀ fi, fi < m.n_faces → ∀ i : Fin (m.face fi).length,
      areaTol < triangle_area sqrt (m.area_points fi)
        (m.position (heFrom (m.face fi) i)) (m.position (heTo (m.face fi) i)))
    (u : Nat → K) (a : Nat) (fs : List (List (Fin m.nv))) (fi : Nat)
    (hdrop : m.faces.drop fi = fs) :
    energySum sqrt m (fun c => (setup_prolongation_matrix m).coeff c a)
        ((setup_prolongation_matrix m).mulVec u) fs fi
      = (fs.map (fun f => bilin
          (localStiffnessMatrix sqrt (facePoly m f)
            (polyTransposeMul (facePoly m f) (find_polygon_weights solve (facePoly m f)))
            (find_polygon_weights solve (facePoly m f)))
          (fun i => (setup_prolongation_matrix m).coeff (f.get i).val a)
          (fun i => (setup_prolongation_matrix m).mulVec u (f.get i).val))).sum := by
  induction fs generalizing fi with
  | nil => simp [energySum]
  | cons f rest ih =>
    obtain ⟨hfi, hf, hrest⟩ := face_of_drop m fi f rest hdrop
    subst hf
    rw [energySum, List.map_cons, List.sum_cons, ih (fi + 1) hrest]
    congr 1
    have hv := prolongation_virtual solve m hst fi hfi u a
    rw [faceEnergy_eq_bilin sqrt hs m (m.face fi) fi
      (find_polygon_weights solve (facePoly m (m.face fi))) _ _ hv.1 hv.2 (harea fi hfi),
      stored_area_points solve m hst fi hfi]


theorem bilin_prolonged (m : SurfaceMesh K) (f : List (Fin m.nv))
    (L : Fin f.length → Fin f.length → K) (u : Nat → K) (a : Nat) :
    bilin L (fun i => (setup_prolongation_matrix m).coeff (f.get i).val a)
        (fun i => (setup_prolongation_matrix m).mulVec u (f.get i).val)
      = ∑ k, if (f.get k).val = a then ∑ j, L k j * u (f.get j).val else 0 := by
  unfold bilin
  apply Finset.sum_congr rfl
  intro k _
  simp only [prolongation_top m _ _ (f.get k).isLt]
  by_cases h : (f.get k).val = a
  · simp only [h, if_true, one_mul]
    apply Finset.sum_congr rfl
    intro j _
    rw [mulVec_prolongation_top m u _ (f.get j).isLt]
  · simp only [h, if_false, zero_mul]
    exact Finset.sum_const_zero

/-- C9.  For every mesh whose face properties are those stored by
`setup_face_point_properties` and whose fan triangles (virtual point, edge start, edge end)
all have area greater than `1e-7`, with an exact square root, the gradient/divergence
composition agrees with the stiffness matrix: `Div * (G * u) = S * u` for every vertex field
`u`, at every row. -/
theorem divergence_gradient_eq_stiffness (sqrt : K → K) (hs : IsSqrt sqrt) (solve : Solver K)
    (m : SurfaceMesh K) (hst : HasStoredFaceProperties solve m)
    (harea : ∀ fi, fi < m.n_faces → ∀ i : Fin (m.face fi).length,
      areaTol < triangle_area sqrt (m.area_points fi)
        (m.position (heFrom (m.face fi) i)) (m.position (heTo (m.face fi) i)))
    (u : Nat → K) (a : Nat) :
    (setup_Divergence_Matrix sqrt m).mulVec ((setup_Gradient_Matrix sqrt m).mulVec u) a
      = (setup_stiffness_matrix sqrt solve m).mulVec u a := by
  rw [divergence_gradient_apply,
    energySum_eq_bilin sqrt hs solve m hst harea u a m.faces 0 (List.drop_zero _),
    setup_stiffness_matrix_eq, mulVec_scale, mulVec_assembled m.faces
      (fun f => localStiffnessMatrix sqrt (facePoly m f)
        (polyTransposeMul (facePoly m f) (find_polygon_weights solve (facePoly m f)))
        (find_polygon_weights solve (facePoly m f)))]
  rw [neg_one_mul]
  congr 2
  apply List.map_congr_left
  intro f _
  exact bilin_prolonged m f _ u a


theorem storedTriangleMesh_stored (K : Type) [LinearOrderedField K] :
    HasStoredFaceProperties (thirdSolver K) (storedTriangleMesh K) := ⟨rfl, rfl⟩

theorem storedTriangleMesh_point (c : Fin 3) :
    (storedTriangleMesh ℝ).area_points 0 c = ![1 / 3, 1 / 3, 0] c := by
  have e : (storedTriangleMesh ℝ).area_points 0
      = polyTransposeMul (facePoly (triangleMesh ℝ) ([0, 1, 2] : List (Fin 3)))
          (fun _ => 1 / 3) := rfl
  rw [e]
  unfold polyTransposeMul facePoly
  change ∑ i : Fin 3, (triangleMesh ℝ).position (([0, 1, 2] : List (Fin 3)).get i) c * (1 / 3) = _
  rw [Fin.sum_univ_three]
  fin_cases c <;> simp [triangleMesh, Matrix.vecHead, Matrix.vecTail]

theorem storedTriangleMesh_area :
    ∀ fi, fi < (storedTriangleMesh ℝ).n_faces →
      ∀ i : Fin ((storedTriangleMesh ℝ).face fi).length,
        areaTol < triangle_area Real.sqrt ((storedTriangleMesh ℝ).area_points fi)
          ((storedTriangleMesh ℝ).position (heFrom ((storedTriangleMesh ℝ).face fi) i))
          ((storedTriangleMesh ℝ).position (heTo ((storedTriangleMesh ℝ).face fi) i)) := by
  intro fi hfi
  have h0 : fi = 0 := by
    have : (storedTriangleMesh ℝ).n_faces = 1 := rfl
    omega
  subst h0
  have key : ∀ i : Fin 3,
      crossSq ((storedTriangleMesh ℝ).area_points 0)
          ((triangleMesh ℝ).position (heFrom ([0, 1, 2] : List (Fin 3)) i))
          ((triangleMesh ℝ).position (heTo ([0, 1, 2] : List (Fin 3)) i)) = 1 / 3 * (1 / 3) := by
    intro i
    simp only [crossSq, dot_eq, cross_zero_eq, cross_one_eq, cross_two_eq, Pi.sub_apply,
      storedTriangleMesh_point]
    fin_cases i <;> simp [triangleMesh, heFrom, heTo, Matrix.vecHead, Matrix.vecTail] <;> norm_num
  intro i
  rw [triangle_area_eq]
  have hk := key i
  have e : Real.sqrt (crossSq ((storedTriangleMesh ℝ).area_points 0)
      ((storedTriangleMesh ℝ).position (heFrom ((storedTriangleMesh ℝ).face 0) i))
      ((storedTriangleMesh ℝ).position (heTo ((storedTriangleMesh ℝ).face 0) i))) = 1 / 3 :=
    sqrt_unique Real.sqrt isSqrt_real _ _ (by norm_num) hk.symm
  rw [e]
  unfold areaTol
  norm_num


theorem divergence_gradient_eq_stiffness_witness :
    IsSqrt Real.sqrt ∧ HasStoredFaceProperties (thirdSolver ℝ) (storedTriangleMesh ℝ) ∧
    (∀ fi, fi < (storedTriangleMesh ℝ).n_faces →
      ∀ i : Fin ((storedTriangleMesh ℝ).face fi).length,
        areaTol < triangle_area Real.sqrt ((storedTriangleMesh ℝ).area_points fi)
          ((storedTriangleMesh ℝ).position (heFrom ((storedTriangleMesh ℝ).face fi) i))
          ((storedTriangleMesh ℝ).position (heTo ((storedTriangleMesh ℝ).face fi) i))) ∧
    ∀ (u : Nat → ℝ) (a : Nat),
      (setup_Divergence_Matrix Real.sqrt (storedTriangleMesh ℝ)).mulVec
          ((setup_Gradient_Matrix Real.sqrt (storedTriangleMesh ℝ)).mulVec u) a
        = (setup_stiffness_matrix Real.sqrt (thirdSolver ℝ) (storedTriangleMesh ℝ)).mulVec u a :=
  ⟨isSqrt_real, storedTriangleMesh_stored ℝ, storedTriangleMesh_area,
    fun u a => divergence_gradient_eq_stiffness Real.sqrt isSqrt_real (thirdSolver ℝ)
      (storedTriangleMesh ℝ) (storedTriangleMesh_stored ℝ) storedTriangleMesh_area u a⟩

theorem storedTriangleMesh_weights :
    (storedTriangleMesh ℚ).area_weights 0 = [1 / 3, 1 / 3, 1 / 3] := rfl

theorem setup_prolongation_matrix_rows_witness :
    0 < (storedTriangleMesh ℚ).n_faces ∧
    ((storedTriangleMesh ℚ).area_weights 0).length = ((storedTriangleMesh ℚ).face 0).length ∧
    ((storedTriangleMesh ℚ).area_weights 0).sum = 1 ∧
    (setup_prolongation_matrix (storedTriangleMesh ℚ)).rowSum ((storedTriangleMesh ℚ).nv + 0)
      = 1 :=
  have h1 : 0 < (storedTriangleMesh ℚ).n_faces := Nat.zero_lt_one
  have h2 : ((storedTriangleMesh ℚ).area_weights 0).length
      = ((storedTriangleMesh ℚ).face 0).length := rfl
  have h3 : ((storedTriangleMesh ℚ).area_weights 0).sum = 1 := by
    rw [storedTriangleMesh_weights]
    norm_num
  ⟨h1, h2, h3, (setup_prolongation_matrix_rows (storedTriangleMesh ℚ)).2.2.2.2.2.2 0 h1 h2 h3⟩

end GradientLemmas

/-! ## The kite loop keeps the extended system balanced -/

section BalanceLemmas

variable {K : Type} [LinearOrderedField K]

theorem foldl_preserves {α β : Type} (P : α → Prop) (step : α → β → α)
    (h : ∀ s i, P s → P (step s i)) (l : List β) (s : α) (hs : P s) : P (l.foldl step s) := by
  induction l generalizing s with
  | nil => exact hs
  | cons a l ih => exact ih _ (h s a hs)

theorem sum_addAt_row {n : Nat} (M : Fin n → Fin n → K) (a b : Fin n) (x : K) (k : Fin n) :
    ∑ j, addAt M a b x k j = ∑ j, M k j + (if k = a then x else 0) := by
  unfold addAt
  by_cases hk : k = a
  · simp only [hk, true_and, if_true]
    have h : ∀ j, (if j = b then M a j + x else M a j) = M a j + (if j = b then x else 0) := by
      intro j
      by_cases hj : j = b <;> simp [hj]
    simp only [h, Finset.sum_add_distrib]
    simp
  · simp [hk]

theorem addAtVec_castSucc_apply {n : Nat} (ln : Fin (n + 1) → K) (a k : Fin n) (x : K) :
    addAtVec ln a.castSucc x k.castSucc = ln k.castSucc + (if k = a then x else 0) := by
  unfold addAtVec
  by_cases hk : k = a
  · simp [hk]
  · have : k.castSucc ≠ a.castSucc := fun h => hk (Fin.castSucc_injective n h)
    simp [hk, this]

theorem addAtVec_last_castSucc {n : Nat} (ln : Fin (n + 1) → K) (k : Fin n) (x : K) :
    addAtVec ln (Fin.last n) x k.castSucc = ln k.castSucc := by
  simp [addAtVec, (Fin.castSucc_lt_last k).ne]

theorem addAtVec_castSucc_last {n : Nat} (ln : Fin (n + 1) → K) (a : Fin n) (x : K) :
    addAtVec ln a.castSucc x (Fin.last n) = ln (Fin.last n) := by
  simp [addAtVec, (Fin.castSucc_lt_last a).ne']

theorem addAtVec_last_last {n : Nat} (ln : Fin (n + 1) → K) (x : K) :
    addAtVec ln (Fin.last n) x (Fin.last n) = ln (Fin.last n) + x := by
  simp [addAtVec]

theorem kiteUpdate_balanced {n : Nat} (L : Fin n → Fin n → K) (ln : Fin (n + 1) → K)
    (i i1 : Fin n) (l0 l1 l2 : K)
    (h1 : ∀ k : Fin n, ∑ j, L k j = - ln k.castSucc)
    (h2 : ∑ k : Fin n, ln k.castSucc = - ln (Fin.last n)) :
    (∀ k : Fin n, ∑ j, addAt (addAt (addAt (addAt (addAt (addAt L i1 i1 l0) i i l1) i1 i (-l2))
          i i1 (-l2)) i i l2) i1 i1 l2 k j
        = - addAtVec (addAtVec (addAtVec ln i1.castSucc (-l0)) i.castSucc (-l1)) (Fin.last n)
            (l0 + l1) k.castSucc)
      ∧ ∑ k : Fin n, addAtVec (addAtVec (addAtVec ln i1.castSucc (-l0)) i.castSucc (-l1))
            (Fin.last n) (l0 + l1) k.castSucc
        = - addAtVec (addAtVec (addAtVec ln i1.castSucc (-l0)) i.castSucc (-l1)) (Fin.last n)
            (l0 + l1) (Fin.last n) := by
  constructor
  · intro k
    simp only [sum_addAt_row, addAtVec_castSucc_apply, addAtVec_last_castSucc, h1 k]
    split_ifs <;> ring
  · simp only [addAtVec_castSucc_apply, addAtVec_last_castSucc, addAtVec_castSucc_last,
      addAtVec_last_last, Finset.sum_add_distrib, h2, Finset.sum_ite_eq', Finset.mem_univ,
      if_true]
    ring

/-- The kite loop of the stiffness matrix keeps the extended system balanced: every row of
`L` sums to minus the coupling `ln` of that row, and the couplings sum to minus `ln(n)`. -/
theorem stiffnessKite_balanced (sqrt : K → K) {n : Nat} (poly : Fin n → Fin 3 → K)
    (min : Fin 3 → K) (s : (Fin n → Fin n → K) × (Fin (n + 1) → K)) (i : Fin n)
    (h : (∀ k : Fin n, ∑ j, s.1 k j = - s.2 k.castSucc)
      ∧ ∑ k : Fin n, s.2 k.castSucc = - s.2 (Fin.last n)) :
    (∀ k : Fin n, ∑ j, (stiffnessKite sqrt poly min s i).1 k j
        = - (stiffnessKite sqrt poly min s i).2 k.castSucc)
      ∧ ∑ k : Fin n, (stiffnessKite sqrt poly min s i).2 k.castSucc
        = - (stiffnessKite sqrt poly min s i).2 (Fin.last n) := by
  unfold stiffnessKite
  dsimp only
  split_ifs with hA
  · exact kiteUpdate_balanced s.1 s.2 i (nextIdx i) _ _ _ h.1 h.2
  · exact h

/-- C18.  For every polygon, every point `min` and every weight vector `w` whose entries sum
to one, the matrix returned by `localStiffnessMatrix` is symmetric and each of its rows sums
to zero.  The kite accumulation leaves in every row of `L` the sum `-ln(k)`, and the
couplings `ln(0..n-1)` sum to `-ln(n)`; the sandwiching step cancels these row sums. -/
theorem localStiffnessMatrix_symmetric_rows_zero (sqrt : K → K) {n : Nat}
    (poly : Fin n → Fin 3 → K) (min : Fin 3 → K) (w : Fin n → K) (hw : ∑ i, w i = 1) :
    (∀ a b : Fin n,
        localStiffnessMatrix sqrt poly min w a b = localStiffnessMatrix sqrt poly min w b a)
      ∧ (∀ k : Fin n, ∑ j, localStiffnessMatrix sqrt poly min w k j = 0)
      ∧ (∀ k : Fin n,
          ∑ j, ((List.finRange n).foldl (stiffnessKite sqrt poly min) (0, 0)).1 k j
            = - ((List.finRange n).foldl (stiffnessKite sqrt poly min) (0, 0)).2 k.castSucc)
      ∧ ∑ k : Fin n, ((List.finRange n).foldl (stiffnessKite sqrt poly min) (0, 0)).2 k.castSucc
          = - ((List.finRange n).foldl (stiffnessKite sqrt poly min) (0, 0)).2 (Fin.last n) := by
  refine ⟨localStiffnessMatrix_symm sqrt poly min w,
    localStiffnessMatrix_rowSum sqrt poly min w hw, ?_⟩
  exact foldl_preserves
    (fun s : (Fin n → Fin n → K) × (Fin (n + 1) → K) =>
      (∀ k : Fin n, ∑ j, s.1 k j = - s.2 k.castSucc)
        ∧ ∑ k : Fin n, s.2 k.castSucc = - s.2 (Fin.last n))
    (stiffnessKite sqrt poly min)
    (fun s i h => stiffnessKite_balanced sqrt poly min s i h) (List.finRange n) (0, 0)
    ⟨fun k => by simp, by simp⟩

end BalanceLemmas

theorem localStiffnessMatrix_symmetric_rows_zero_witness :
    (∑ i : Fin 4, (fun _ => (1 / 4 : ℚ)) i = 1)
      ∧ ((∀ a b : Fin 4,
        localStiffnessMatrix (fun x => x) (unitSquare ℚ) (squareCentre ℚ) (fun _ => 1 / 4) a b
          = localStiffnessMatrix (fun x => x) (unitSquare ℚ) (squareCentre ℚ) (fun _ => 1 / 4) b a)
      ∧ (∀ k : Fin 4, ∑ j,
          localStiffnessMatrix (fun x => x) (unitSquare ℚ) (squareCentre ℚ) (fun _ => 1 / 4) k j = 0)
      ∧ (∀ k : Fin 4,
          ∑ j, ((List.finRange 4).foldl
              (stiffnessKite (fun x => x) (unitSquare ℚ) (squareCentre ℚ)) (0, 0)).1 k j
            = - ((List.finRange 4).foldl
              (stiffnessKite (fun x => x) (unitSquare ℚ) (squareCentre ℚ)) (0, 0)).2 k.castSucc)
      ∧ ∑ k : Fin 4, ((List.finRange 4).foldl
            (stiffnessKite (fun x => x) (unitSquare ℚ) (squareCentre ℚ)) (0, 0)).2 k.castSucc
          = - ((List.finRange 4).foldl
            (stiffnessKite (fun x => x) (unitSquare ℚ) (squareCentre ℚ)) (0, 0)).2 (Fin.last 4)) :=
  ⟨by norm_num, localStiffnessMatrix_symmetric_rows_zero (fun x => x) (unitSquare ℚ)
    (squareCentre ℚ) (fun _ => 1 / 4) (by norm_num)⟩

/-! ## The linear system of the weights as a stationarity condition -/

section StationarityTheorems

variable {K : Type} [LinearOrderedField K]

theorem sqAreaFunctional_expand {n : Nat} (poly : Fin n → Fin 3 → K) (q y : Fin 3 → K)
    (t : K) :
    sqAreaFunctional poly (fun h => q h + t * y h)
      = sqAreaFunctional poly q - 2 * t * areaForm poly y q
        + t ^ 2 * ∑ j, dot (cross (edgeVec poly j) y) (cross (edgeVec poly j) y) := by
  unfold sqAreaFunctional areaForm
  simp only [crossSq_edge, Finset.mul_sum, ← Finset.sum_add_distrib, ← Finset.sum_sub_distrib]
  apply Finset.sum_congr rfl
  intro j _
  simp only [dot_eq, cross_zero_eq, cross_one_eq, cross_two_eq, Pi.sub_apply]
  ring

theorem areaForm_combination {n : Nat} (poly : Fin n → Fin 3 → K) (v : Fin n → K)
    (q : Fin 3 → K) :
    areaForm poly (polyTransposeMul poly v) q = ∑ i, v i * areaForm poly (poly i) q := by
  simp only [areaForm_eq_dot]
  unfold polyTransposeMul
  simp only [dot_eq, Finset.sum_mul, Finset.mul_sum, ← Finset.sum_add_distrib]
  apply Finset.sum_congr rfl
  intro i _
  ring

theorem polygonJ_symm {n : Nat} (poly : Fin n → Fin 3 → K) (i k : Fin n) :
    polygonJ poly i k = polygonJ poly k i := by
  rw [polygonJ_eq, polygonJ_eq]
  congr 1
  apply Finset.sum_congr rfl
  intro j _
  simp only [dot_eq]
  ring

/-- C20.  In `find_polygon_weights` the six-accumulator computation gives
`J(i,k) = 1/2 * sum_j (d_j × x_i).(d_j × x_k)` and `b(i) = 1/2 * sum_j (d_j × x_j).(d_j × x_i)`
with `d_j = x_j - x_{(j+1) mod n}`; `J` is symmetric; along every direction `v` of weight
space the squared-area functional at `p = sum_k w_k x_k` expands exactly with first-order
coefficient `4 * v.(J w - b)`, so `J w = b` is its stationarity condition in `w`. -/
theorem find_polygon_weights_system_stationarity {n : Nat} (poly : Fin n → Fin 3 → K) :
    (∀ i k : Fin n, polygonJ poly i k
        = 1 / 2 * ∑ j, dot (cross (edgeVec poly j) (poly i)) (cross (edgeVec poly j) (poly k)))
      ∧ (∀ i : Fin n, polygonB poly i
        = 1 / 2 * ∑ j, dot (cross (edgeVec poly j) (poly j)) (cross (edgeVec poly j) (poly i)))
      ∧ (∀ j : Fin n, edgeVec poly j = poly j - poly (nextIdx j))
      ∧ (∀ i k : Fin n, polygonJ poly i k = polygonJ poly k i)
      ∧ (∀ (w v : Fin n → K) (t : K),
          sqAreaFunctional poly (polyTransposeMul poly (fun k => w k + t * v k))
            = sqAreaFunctional poly (polyTransposeMul poly w)
              + t * (4 * ∑ i, v i * (∑ k, polygonJ poly i k * w k - polygonB poly i))
              + t ^ 2 * ∑ j, dot (cross (edgeVec poly j) (polyTransposeMul poly v))
                  (cross (edgeVec poly j) (polyTransposeMul poly v)))
      ∧ (∀ w : Fin n → K, (∀ i : Fin n, ∑ k, polygonJ poly i k * w k = polygonB poly i)
          ↔ ∀ v : Fin n → K,
              4 * ∑ i, v i * (∑ k, polygonJ poly i k * w k - polygonB poly i) = 0) := by
  refine ⟨polygonJ_eq poly, polygonB_eq poly, fun _ => rfl, polygonJ_symm poly, ?_, ?_⟩
  · intro w v t
    have hP : polyTransposeMul poly (fun k => w k + t * v k)
        = fun h => polyTransposeMul poly w h + t * polyTransposeMul poly v h := by
      funext h
      unfold polyTransposeMul
      simp only [mul_add, Finset.sum_add_distrib, Finset.mul_sum]
      congr 1
      apply Finset.sum_congr rfl
      intro i _
      ring
    rw [hP, sqAreaFunctional_expand, areaForm_combination]
    have hr : ∀ i : Fin n, areaForm poly (poly i) (polyTransposeMul poly w)
        = -2 * (∑ k, polygonJ poly i k * w k - polygonB poly i) := by
      intro i
      rw [polygon_residual]
      ring
    simp only [hr, Finset.mul_sum]
    rw [sub_eq_add_neg, ← Finset.sum_neg_distrib]
    congr 2
    apply Finset.sum_congr rfl
    intro i _
    ring
  · intro w
    constructor
    · intro h v
      simp [h]
    · intro h i
      have := h (Pi.single i 1)
      simp only [Pi.single_apply, ite_mul, one_mul, zero_mul, Finset.sum_ite_eq',
        Finset.mem_univ, if_true] at this
      linarith

end StationarityTheorems

/-! ## The hat-function gradient -/

section HatGradientTheorems

variable {K : Type} [LinearOrderedField K]

theorem eps_pos : (0 : K) < eps := by
  unfold eps
  norm_num

theorem crossSq_pos_of_area (sqrt : K → K) (hs : IsSqrt sqrt) (i j k : Fin 3 → K)
    (ha : ¬ triangle_area sqrt i j k < eps) : 0 < crossSq i j k := by
  apply crossSq_pos_of_sqrt_pos sqrt hs
  rw [triangle_area_eq] at ha
  have := @eps_pos K _
  have h := not_lt.mp ha
  linarith

theorem gradient_hat_function_degenerate (sqrt : K → K) (i j k : Fin 3 → K)
    (ha : triangle_area sqrt i j k < eps) : gradient_hat_function sqrt i j k = 0 := by
  unfold gradient_hat_function
  dsimp only
  rw [if_pos ha]

theorem sqrt_div (sqrt : K → K) (hs : IsSqrt sqrt) (x y : K) (hx : 0 ≤ x) (hy : 0 < y) :
    sqrt (x / y) = sqrt x / sqrt y := by
  obtain ⟨hx0, hx2⟩ := hs x hx
  obtain ⟨hy0, hy2⟩ := hs y (le_of_lt hy)
  have hyne : sqrt y ≠ 0 := by
    intro h
    rw [h, mul_zero] at hy2
    linarith
  apply sqrt_unique sqrt hs _ _ (div_nonneg hx0 hy0)
  rw [div_mul_div_comm, hx2, hy2]

/-- Squared length of the hat gradient of a non-degenerate triangle. -/
theorem hat_gradient_dot_self (i j k : Fin 3 → K) (hD : crossSq i j k ≠ 0) :
    dot (fun c => (dot (k - j) (k - j) * (i - j) c - dot (i - j) (k - j) * (k - j) c)
          / crossSq i j k)
        (fun c => (dot (k - j) (k - j) * (i - j) c - dot (i - j) (k - j) * (k - j) c)
          / crossSq i j k)
      = dot (k - j) (k - j) / crossSq i j k := by
  have hg := crossSq_eq_gram i j k
  have hss : (i - j) 0 * (i - j) 0 + (i - j) 1 * (i - j) 1 + (i - j) 2 * (i - j) 2
      = dot (i - j) (i - j) := rfl
  have hm : (i - j) 0 * (k - j) 0 + (i - j) 1 * (k - j) 1 + (i - j) 2 * (k - j) 2
      = dot (i - j) (k - j) := rfl
  have hbb : (k - j) 0 * (k - j) 0 + (k - j) 1 * (k - j) 1 + (k - j) 2 * (k - j) 2
      = dot (k - j) (k - j) := rfl
  generalize crossSq i j k = D at *
  generalize dot (i - j) (i - j) = ss at *
  generalize dot (i - j) (k - j) = m at *
  generalize dot (k - j) (k - j) = bb at *
  generalize i - j = s at *
  generalize k - j = b at *
  simp only [dot_eq]
  field_simp
  linear_combination D * (bb ^ 2 * hss - 2 * bb * m * hm + m ^ 2 * hbb) - bb * D * hg

/-- C17.  For all points `i`, `j`, `k`: if the area of the triangle `(i, j, k)` is at least
`1e-10`, the vector `g` returned by `gradient_hat_function` is the gradient of the hat
function that is one at `i` and zero at `j` and `k`: `g` is a combination of the edge vectors
`i - j` and `k - j` (it lies in the plane of the triangle), `g.(k - j) = 0`, `g.(i - j) = 1`,
and its length is `|k - j| / (2 * area)`; if the area is below `1e-10`, `g` is zero. -/
theorem gradient_hat_function_hat_gradient (sqrt : K → K) (hs : IsSqrt sqrt)
    (i j k : Fin 3 → K) :
    (eps ≤ triangle_area sqrt i j k →
      (∃ a b : K, ∀ c, gradient_hat_function sqrt i j k c = a * (i - j) c + b * (k - j) c)
        ∧ dot (gradient_hat_function sqrt i j k) (k - j) = 0
        ∧ dot (gradient_hat_function sqrt i j k) (i - j) = 1
        ∧ norm sqrt (gradient_hat_function sqrt i j k)
            = norm sqrt (k - j) / (2 * triangle_area sqrt i j k))
      ∧ (triangle_area sqrt i j k < eps → gradient_hat_function sqrt i j k = 0) := by
  refine ⟨fun hA => ?_, gradient_hat_function_degenerate sqrt i j k⟩
  have ha : ¬ triangle_area sqrt i j k < eps := not_lt.mpr hA
  have hD := crossSq_pos_of_area sqrt hs i j k ha
  have hDne := ne_of_gt hD
  have hg : gradient_hat_function sqrt i j k
      = fun c => (dot (k - j) (k - j) * (i - j) c - dot (i - j) (k - j) * (k - j) c)
          / crossSq i j k :=
    funext (fun c => gradient_hat_function_eq sqrt hs i j k hD ha c)
  have hgram := crossSq_eq_gram i j k
  refine ⟨⟨dot (k - j) (k - j) / crossSq i j k, - dot (i - j) (k - j) / crossSq i j k, ?_⟩,
    ?_, ?_, ?_⟩
  · intro c
    rw [hg]
    field_simp
    ring
  · rw [hg]
    simp only [dot_eq]
    ring
  · rw [hg]
    have e : dot (fun c => (dot (k - j) (k - j) * (i - j) c
          - dot (i - j) (k - j) * (k - j) c) / crossSq i j k) (i - j)
        = (dot (i - j) (i - j) * dot (k - j) (k - j) - dot (i - j) (k - j) ^ 2)
            / crossSq i j k := by
      simp only [dot_eq]
      ring
    rw [e, ← hgram, div_self hDne]
  · unfold norm
    rw [hg, hat_gradient_dot_self i j k hDne, sqrt_div sqrt hs _ _ (dot_self_nonneg _) hD,
      triangle_area_eq]
    congr 1
    ring

end HatGradientTheorems

theorem gradient_hat_function_hat_gradient_witness :
    IsSqrt Real.sqrt
      ∧ (eps ≤ triangle_area Real.sqrt (unitSquare ℝ 3) (unitSquare ℝ 0) (unitSquare ℝ 1)
        ∧ ((eps ≤ triangle_area Real.sqrt (unitSquare ℝ 3) (unitSquare ℝ 0) (unitSquare ℝ 1) →
          (∃ a b : ℝ, ∀ c,
              gradient_hat_function Real.sqrt (unitSquare ℝ 3) (unitSquare ℝ 0) (unitSquare ℝ 1) c
                = a * (unitSquare ℝ 3 - unitSquare ℝ 0) c
                  + b * (unitSquare ℝ 1 - unitSquare ℝ 0) c)
            ∧ dot (gradient_hat_function Real.sqrt (unitSquare ℝ 3) (unitSquare ℝ 0)
                (unitSquare ℝ 1)) (unitSquare ℝ 1 - unitSquare ℝ 0) = 0
            ∧ dot (gradient_hat_function Real.sqrt (unitSquare ℝ 3) (unitSquare ℝ 0)
                (unitSquare ℝ 1)) (unitSquare ℝ 3 - unitSquare ℝ 0) = 1
            ∧ norm Real.sqrt (gradient_hat_function Real.sqrt (unitSquare ℝ 3) (unitSquare ℝ 0)
                (unitSquare ℝ 1))
                = norm Real.sqrt (unitSquare ℝ 1 - unitSquare ℝ 0)
                  / (2 * triangle_area Real.sqrt (unitSquare ℝ 3) (unitSquare ℝ 0)
                      (unitSquare ℝ 1)))
          ∧ (triangle_area Real.sqrt (unitSquare ℝ 3) (unitSquare ℝ 0) (unitSquare ℝ 1) < eps →
            gradient_hat_function Real.sqrt (unitSquare ℝ 3) (unitSquare ℝ 0) (unitSquare ℝ 1)
              = 0))) :=
  ⟨isSqrt_real, by
    rw [triangle_area_eq]
    have e : crossSq (unitSquare ℝ 3) (unitSquare ℝ 0) (unitSquare ℝ 1) = 1 := by
      simp [crossSq, dot_eq, cross_zero_eq, cross_one_eq, cross_two_eq, unitSquare]
    rw [e, Real.sqrt_one]
    unfold eps
    norm_num,
    gradient_hat_function_hat_gradient Real.sqrt isSqrt_real (unitSquare ℝ 3) (unitSquare ℝ 0)
      (unitSquare ℝ 1)⟩

/-! ## Row sums of the gradient matrix -/

section GradientRowTheorems

variable {K : Type} [LinearOrderedField K]

/-- The three hat gradients of a fan triangle `(P, A, B)` are all zero or sum to zero. -/
theorem hat_gradients_zero_or_sum (sqrt : K → K) (hs : IsSqrt sqrt) (P A B : Fin 3 → K) :
    (gradient_hat_function sqrt P A B = 0 ∧ gradient_hat_function sqrt A B P = 0
        ∧ gradient_hat_function sqrt B P A = 0)
      ∨ (¬ triangle_area sqrt P A B < eps ∧ ∀ c, gradient_hat_function sqrt P A B c
          + gradient_hat_function sqrt A B P c + gradient_hat_function sqrt B P A c = 0) := by
  have hA : triangle_area sqrt A B P = triangle_area sqrt P A B := by
    rw [triangle_area_eq, triangle_area_eq, crossSq_rot]
  have hB : triangle_area sqrt B P A = triangle_area sqrt P A B := by
    rw [triangle_area_eq, triangle_area_eq, crossSq_rot2]
  by_cases ha : triangle_area sqrt P A B < eps
  · left
    exact ⟨gradient_hat_function_degenerate sqrt P A B ha,
      gradient_hat_function_degenerate sqrt A B P (hA ▸ ha),
      gradient_hat_function_degenerate sqrt B P A (hB ▸ ha)⟩
  · right
    refine ⟨ha, fun c => ?_⟩
    have hD := crossSq_pos_of_area sqrt hs P A B ha
    rw [gradient_hat_function_eq sqrt hs P A B hD ha c,
      gradient_hat_function_eq sqrt hs A B P (by rw [crossSq_rot]; exact hD)
        (by rw [hA]; exact ha) c,
      gradient_hat_function_eq sqrt hs B P A (by rw [crossSq_rot2]; exact hD)
        (by rw [hB]; exact ha) c, crossSq_rot P A B, crossSq_rot2 P A B]
    have h := congrFun (fan_numerators P A B 1 1 1) c
    simp only [mul_one, sub_self, mul_zero, add_zero] at h
    rw [← add_div, ← add_div, h, zero_div]

theorem hat_gradients_sum (sqrt : K → K) (hs : IsSqrt sqrt) (P A B : Fin 3 → K) (c : Fin 3) :
    gradient_hat_function sqrt P A B c + gradient_hat_function sqrt A B P c
      + gradient_hat_function sqrt B P A c = 0 := by
  rcases hat_gradients_zero_or_sum sqrt hs P A B with ⟨h1, h2, h3⟩ | ⟨_, h⟩
  · simp [h1, h2, h3]
  · exact h c

/-- The triplets of one face applied to a field that has the same value on the vertices of
the face and on its virtual point give zero in every row. -/
theorem applyL_faceGradientTriplets_const (sqrt : K → K) (hs : IsSqrt sqrt)
    (mesh : SurfaceMesh K) (f : List (Fin mesh.nv)) (fi k : Nat) (x : Nat → K) (c : K)
    (hv : ∀ v : Fin mesh.nv, x v.val = c) (hp : x (mesh.nv + fi) = c) (r : Nat) :
    applyL (faceGradientTriplets sqrt mesh f fi k) x r = 0 := by
  unfold faceGradientTriplets
  dsimp only
  rw [applyL_flatMap]
  apply sum_map_zero
  intro i _
  rw [applyL_flatMap]
  apply sum_map_zero
  intro j _
  simp only [applyL, List.map_cons, List.map_nil, List.sum_cons, List.sum_nil, hv, hp,
    add_zero]
  split_ifs
  · have h := hat_gradients_sum sqrt hs (mesh.area_points fi) (mesh.position (heFrom f i))
      (mesh.position (heTo f i)) j
    rw [← add_assoc, ← add_mul, ← add_mul, h, zero_mul]
  · simp

theorem applyL_gradientTriplets_const (sqrt : K → K) (hs : IsSqrt sqrt)
    (mesh : SurfaceMesh K) (x : Nat → K) (c : K) (hv : ∀ v : Fin mesh.nv, x v.val = c)
    (fs : List (List (Fin mesh.nv))) (fi k : Nat)
    (hp : ∀ a, a < fs.length → x (mesh.nv + (fi + a)) = c) (r : Nat) :
    applyL (gradientTriplets sqrt mesh fs fi k) x r = 0 := by
  induction fs generalizing fi k with
  | nil => simp [gradientTriplets, applyL]
  | cons f rest ih =>
    rw [gradientTriplets, applyL_append,
      applyL_faceGradientTriplets_const sqrt hs mesh f fi k x c hv
        (by simpa using hp 0 (by simp)),
      ih (fi + 1) (k + f.length) (fun a ha => by
        have := hp (a + 1) (by simpa using ha)
        have e : fi + (a + 1) = fi + 1 + a := by omega
        rw [e] at this
        exact this), add_zero]

/-- With stored weights summing to one the prolongation maps a constant vertex field to the
same constant on the vertices and on the virtual points. -/
theorem mulVec_prolongation_const (mesh : SurfaceMesh K)
    (hlen : ∀ fi, fi < mesh.n_faces → (mesh.area_weights fi).length = (mesh.face fi).length)
    (hsum : ∀ fi, fi < mesh.n_faces → (mesh.area_weights fi).sum = 1) (c : K) (r : Nat)
    (hr : r < mesh.nv + mesh.n_faces) :
    (setup_prolongation_matrix mesh).mulVec (fun _ => c) r = c := by
  by_cases h : r < mesh.nv
  · exact mulVec_prolongation_top mesh _ r h
  · obtain ⟨fi, rfl⟩ : ∃ fi, r = mesh.nv + fi := ⟨r - mesh.nv, by omega⟩
    have hfi : fi < mesh.n_faces := by omega
    rw [mulVec_prolongation_bottom mesh _ fi hfi, ← Finset.sum_mul,
      sum_vecAt _ _ (hlen fi hfi), hsum fi hfi, one_mul]

/-- C19.  For every mesh whose stored per-face weight vectors each sum to one, every row of
the gradient matrix `G` of `setup_Gradient_Matrix` sums to zero and `G` maps every constant
vertex field to zero: the three hat-function gradients of a fan triangle are all zero or sum
to the zero vector, and the prolongation maps a constant field to the same constant. -/
theorem setup_Gradient_Matrix_rows_sum_zero (sqrt : K → K) (hs : IsSqrt sqrt)
    (mesh : SurfaceMesh K)
    (hlen : ∀ fi, fi < mesh.n_faces → (mesh.area_weights fi).length = (mesh.face fi).length)
    (hsum : ∀ fi, fi < mesh.n_faces → (mesh.area_weights fi).sum = 1) :
    (∀ r : Nat, (setup_Gradient_Matrix sqrt mesh).rowSum r = 0)
      ∧ (∀ (c : K) (r : Nat), (setup_Gradient_Matrix sqrt mesh).mulVec (fun _ => c) r = 0)
      ∧ (∀ P A B : Fin 3 → K,
          (gradient_hat_function sqrt P A B = 0 ∧ gradient_hat_function sqrt A B P = 0
              ∧ gradient_hat_function sqrt B P A = 0)
            ∨ (¬ triangle_area sqrt P A B < eps ∧ ∀ c, gradient_hat_function sqrt P A B c
                + gradient_hat_function sqrt A B P c + gradient_hat_function sqrt B P A c = 0))
      ∧ (∀ (c : K) (r : Nat), r < mesh.nv + mesh.n_faces →
          (setup_prolongation_matrix mesh).mulVec (fun _ => c) r = c) := by
  have hconst : ∀ (c : K) (r : Nat),
      (setup_Gradient_Matrix sqrt mesh).mulVec (fun _ => c) r = 0 := by
    intro c r
    rw [mulVec_gradient]
    apply applyL_gradientTriplets_const sqrt hs mesh _ c
    · intro v
      exact mulVec_prolongation_const mesh hlen hsum c v.val (by have := v.isLt; omega)
    · intro a ha
      rw [zero_add]
      exact mulVec_prolongation_const mesh hlen hsum c _
        (by unfold SurfaceMesh.n_faces; omega)
  refine ⟨fun r => ?_, hconst, hat_gradients_zero_or_sum sqrt hs,
    mulVec_prolongation_const mesh hlen hsum⟩
  rw [rowSum_eq_mulVec]
  exact hconst 1 r

end GradientRowTheorems

theorem storedTriangleMesh_weights_length :
    ∀ fi, fi < (storedTriangleMesh ℝ).n_faces →
      ((storedTriangleMesh ℝ).area_weights fi).length
        = ((storedTriangleMesh ℝ).face fi).length := by
  intro fi hfi
  have h0 : fi = 0 := by
    have : (storedTriangleMesh ℝ).n_faces = 1 := rfl
    omega
  subst h0
  simp [storedTriangleMesh, setup_face_point_properties, SurfaceMesh.area_weights,
    SurfaceMesh.face, triangleMesh]

theorem storedTriangleMesh_weights_sum :
    ∀ fi, fi < (storedTriangleMesh ℝ).n_faces →
      ((storedTriangleMesh ℝ).area_weights fi).sum = 1 := by
  intro fi hfi
  have h0 : fi = 0 := by
    have : (storedTriangleMesh ℝ).n_faces = 1 := rfl
    omega
  subst h0
  simp [storedTriangleMesh, setup_face_point_properties, SurfaceMesh.area_weights,
    triangleMesh, find_polygon_weights, thirdSolver, List.ofFn_succ]
  norm_num

theorem setup_Gradient_Matrix_rows_sum_zero_witness :
    IsSqrt Real.sqrt
      ∧ (∀ fi, fi < (storedTriangleMesh ℝ).n_faces →
          ((storedTriangleMesh ℝ).area_weights fi).length
            = ((storedTriangleMesh ℝ).face fi).length)
      ∧ (∀ fi, fi < (storedTriangleMesh ℝ).n_faces →
          ((storedTriangleMesh ℝ).area_weights fi).sum = 1)
      ∧ ((∀ r : Nat, (setup_Gradient_Matrix Real.sqrt (storedTriangleMesh ℝ)).rowSum r = 0)
        ∧ (∀ (c : ℝ) (r : Nat),
            (setup_Gradient_Matrix Real.sqrt (storedTriangleMesh ℝ)).mulVec (fun _ => c) r = 0)
        ∧ (∀ P A B : Fin 3 → ℝ,
            (gradient_hat_function Real.sqrt P A B = 0 ∧ gradient_hat_function Real.sqrt A B P = 0
                ∧ gradient_hat_function Real.sqrt B P A = 0)
              ∨ (¬ triangle_area Real.sqrt P A B < eps
                ∧ ∀ c, gradient_hat_function Real.sqrt P A B c
                  + gradient_hat_function Real.sqrt A B P c
                  + gradient_hat_function Real.sqrt B P A c = 0))
        ∧ (∀ (c : ℝ) (r : Nat),
            r < (storedTriangleMesh ℝ).nv + (storedTriangleMesh ℝ).n_faces →
            (setup_prolongation_matrix (storedTriangleMesh ℝ)).mulVec (fun _ => c) r = c)) :=
  ⟨isSqrt_real, storedTriangleMesh_weights_length, storedTriangleMesh_weights_sum,
    setup_Gradient_Matrix_rows_sum_zero Real.sqrt isSqrt_real (storedTriangleMesh ℝ)
      storedTriangleMesh_weights_length storedTriangleMesh_weights_sum⟩

/-! ## Total of the local mass matrix -/

section MassTotalTheorems

variable {K : Type} [LinearOrderedField K]

theorem sqrt_four_mul (sqrt : K → K) (hs : IsSqrt sqrt) (x : K) (hx : 0 ≤ x) :
    sqrt (4 * x) = 2 * sqrt x := by
  obtain ⟨h0, h2⟩ := hs x hx
  apply sqrt_unique sqrt hs _ _ (mul_nonneg (by norm_num) h0)
  rw [mul_mul_mul_comm, h2]
  norm_num

/-- With an exact square root the area used by the mass loop is the area of the triangle
spanned by the boundary edge and the point `min`. -/
theorem massArea_eq (sqrt : K → K) (hs : IsSqrt sqrt) {n : Nat} (poly : Fin n → Fin 3 → K)
    (min : Fin 3 → K) (i : Fin n) :
    massArea sqrt poly min i = triangle_area sqrt min (poly i) (poly (nextIdx i)) := by
  unfold massArea
  dsimp only
  rw [heron_arg sqrt hs, sqrt_four_mul sqrt hs _ (crossSq_nonneg _ _ _), triangle_area_eq]
  ring

theorem massForm_one (a : K) : massForm a 1 1 1 1 1 1 = a := by
  unfold massForm
  ring

/-- The entries of the local mass matrix add up to the sum of the kite areas. -/
theorem localMassMatrix_total (sqrt : K → K) {n : Nat} (poly : Fin n → Fin 3 → K)
    (min : Fin 3 → K) (w : Fin n → K) (hw : ∑ i, w i = 1) :
    ∑ a, ∑ b, localMassMatrix sqrt poly min w a b = ∑ i, massArea sqrt poly min i := by
  have h := bilin_localMassMatrix sqrt poly min w (fun _ => 1) (fun _ => 1)
  have hw1 : wdot w (fun _ => (1 : K)) = 1 := by
    unfold wdot
    simp only [mul_one]
    exact hw
  simp only [hw1, massForm_one] at h
  rw [← h]
  unfold bilin
  simp

theorem unitSquare_crossSq (i : Fin 4) :
    crossSq (squareCentre K) (unitSquare K i) (unitSquare K (nextIdx i)) = 1 / 2 * (1 / 2) := by
  fin_cases i <;>
  simp [crossSq, dot_eq, cross_zero_eq, cross_one_eq, cross_two_eq, unitSquare, squareCentre,
    nextIdx, Matrix.vecHead, Matrix.vecTail] <;> norm_num

theorem unitSquare_kite_area (sqrt : K → K) (hs : IsSqrt sqrt) (i : Fin 4) :
    triangle_area sqrt (squareCentre K) (unitSquare K i) (unitSquare K (nextIdx i)) = 1 / 4 := by
  rw [triangle_area_eq, sqrt_unique sqrt hs _ (1 / 2) (by norm_num) (unitSquare_crossSq i).symm]
  norm_num

/-- C12.  For every polygon, virtual point and weight vector whose entries sum to one, the
row sums of the matrix returned by `localMassMatrix` add up to the total area of the kites
(the triangles spanned by each boundary edge and the virtual point); for the planar unit
square with its centre as virtual point and weights `1/4` they add up to one. -/
theorem localMassMatrix_row_sums_total_area (sqrt : K → K) (hs : IsSqrt sqrt) :
    (∀ (n : Nat) (poly : Fin n → Fin 3 → K) (min : Fin 3 → K) (w : Fin n → K),
        ∑ i, w i = 1 →
        ∑ a, ∑ b, localMassMatrix sqrt poly min w a b
          = ∑ i, triangle_area sqrt min (poly i) (poly (nextIdx i)))
      ∧ ∑ a, ∑ b, localMassMatrix sqrt (unitSquare K) (squareCentre K) (fun _ => 1 / 4) a b
          = 1 := by
  have hgen : ∀ (n : Nat) (poly : Fin n → Fin 3 → K) (min : Fin 3 → K) (w : Fin n → K),
      ∑ i, w i = 1 →
      ∑ a, ∑ b, localMassMatrix sqrt poly min w a b
        = ∑ i, triangle_area sqrt min (poly i) (poly (nextIdx i)) := by
    intro n poly min w hw
    rw [localMassMatrix_total sqrt poly min w hw]
    exact Finset.sum_congr rfl (fun i _ => massArea_eq sqrt hs poly min i)
  refine ⟨hgen, ?_⟩
  rw [hgen 4 (unitSquare K) (squareCentre K) (fun _ => 1 / 4) (by simp)]
  simp only [unitSquare_kite_area sqrt hs]
  simp

end MassTotalTheorems

theorem localMassMatrix_row_sums_total_area_witness :
    IsSqrt Real.sqrt
      ∧ ((∀ (n : Nat) (poly : Fin n → Fin 3 → ℝ) (min : Fin 3 → ℝ) (w : Fin n → ℝ),
          ∑ i, w i = 1 →
          ∑ a, ∑ b, localMassMatrix Real.sqrt poly min w a b
            = ∑ i, triangle_area Real.sqrt min (poly i) (poly (nextIdx i)))
        ∧ ∑ a, ∑ b, localMassMatrix Real.sqrt (unitSquare ℝ) (squareCentre ℝ)
            (fun _ => 1 / 4) a b = 1) :=
  ⟨isSqrt_real, localMassMatrix_row_sums_total_area Real.sqrt isSqrt_real⟩

/-! ## The local stiffness matrix of the unit square -/

section UnitSquareTheorems

variable {K : Type} [LinearOrderedField K]

theorem unitSquare_spoke (i : Fin 4) :
    squaredNorm (unitSquare K i - squareCentre K) = 1 / 2 := by
  fin_cases i <;>
  simp [squaredNorm, unitSquare, squareCentre, Matrix.vecHead, Matrix.vecTail] <;> norm_num

theorem unitSquare_edge (i : Fin 4) :
    squaredNorm (unitSquare K i - unitSquare K (nextIdx i)) = 1 := by
  fin_cases i <;>
  simp [squaredNorm, unitSquare, nextIdx, Matrix.vecHead, Matrix.vecTail]

/-- The kite coefficients of the unit square with its centre: half the cotangents of the
angles `45°`, `45°`, `90°`. -/
theorem unitSquare_stiffnessCoef (sqrt : K → K) (hs : IsSqrt sqrt) (i : Fin 4) :
    stiffnessCoef sqrt (unitSquare K) (squareCentre K) i = ![1 / 2, 1 / 2, 0] := by
  have hσ : sqrt (crossSq (squareCentre K) (unitSquare K i) (unitSquare K (nextIdx i)))
      = 1 / 2 :=
    sqrt_unique sqrt hs _ (1 / 2) (by norm_num) (unitSquare_crossSq i).symm
  rw [stiffnessCoef_eq sqrt hs _ _ _ (by rw [hσ]; unfold areaTol; norm_num), hσ,
    unitSquare_spoke, unitSquare_spoke, unitSquare_edge]
  norm_num

/-- The local stiffness matrix of the unit square with its centre and weights `1/4`. -/
theorem unitSquare_stiffness_entries (sqrt : K → K) (hs : IsSqrt sqrt) (a b : Fin 4) :
    localStiffnessMatrix sqrt (unitSquare K) (squareCentre K) (fun _ => 1 / 4) a b
      = if a = b then 3 / 4 else -(1 / 4) := by
  rw [← bilin_single (localStiffnessMatrix sqrt (unitSquare K) (squareCentre K)
    (fun _ => 1 / 4)) a b, bilin_localStiffnessMatrix]
  have n0 : nextIdx (0 : Fin 4) = 1 := rfl
  have n1 : nextIdx (1 : Fin 4) = 2 := rfl
  have n2 : nextIdx (2 : Fin 4) = 3 := rfl
  have n3 : nextIdx (3 : Fin 4) = 0 := rfl
  simp only [unitSquare_stiffnessCoef sqrt hs, cotForm, wdot, Matrix.cons_val_zero,
    Matrix.cons_val_one, Matrix.head_cons, Matrix.cons_val_two, Matrix.tail_cons,
    Fin.sum_univ_four, n0, n1, n2, n3, Pi.single_apply]
  have e : ∀ u0 u1 u2 u3 v0 v1 v2 v3 : K,
      1 / 2 * ((u1 - (1 / 4 * u0 + 1 / 4 * u1 + 1 / 4 * u2 + 1 / 4 * u3))
            * (v1 - (1 / 4 * v0 + 1 / 4 * v1 + 1 / 4 * v2 + 1 / 4 * v3)))
          + 1 / 2 * ((u0 - (1 / 4 * u0 + 1 / 4 * u1 + 1 / 4 * u2 + 1 / 4 * u3))
            * (v0 - (1 / 4 * v0 + 1 / 4 * v1 + 1 / 4 * v2 + 1 / 4 * v3)))
          + 0 * ((u0 - u1) * (v0 - v1))
        + (1 / 2 * ((u2 - (1 / 4 * u0 + 1 / 4 * u1 + 1 / 4 * u2 + 1 / 4 * u3))
            * (v2 - (1 / 4 * v0 + 1 / 4 * v1 + 1 / 4 * v2 + 1 / 4 * v3)))
          + 1 / 2 * ((u1 - (1 / 4 * u0 + 1 / 4 * u1 + 1 / 4 * u2 + 1 / 4 * u3))
            * (v1 - (1 / 4 * v0 + 1 / 4 * v1 + 1 / 4 * v2 + 1 / 4 * v3)))
          + 0 * ((u1 - u2) * (v1 - v2)))
        + (1 / 2 * ((u3 - (1 / 4 * u0 + 1 / 4 * u1 + 1 / 4 * u2 + 1 / 4 * u3))
            * (v3 - (1 / 4 * v0 + 1 / 4 * v1 + 1 / 4 * v2 + 1 / 4 * v3)))
          + 1 / 2 * ((u2 - (1 / 4 * u0 + 1 / 4 * u1 + 1 / 4 * u2 + 1 / 4 * u3))
            * (v2 - (1 / 4 * v0 + 1 / 4 * v1 + 1 / 4 * v2 + 1 / 4 * v3)))
          + 0 * ((u2 - u3) * (v2 - v3)))
        + (1 / 2 * ((u0 - (1 / 4 * u0 + 1 / 4 * u1 + 1 / 4 * u2 + 1 / 4 * u3))
            * (v0 - (1 / 4 * v0 + 1 / 4 * v1 + 1 / 4 * v2 + 1 / 4 * v3)))
          + 1 / 2 * ((u3 - (1 / 4 * u0 + 1 / 4 * u1 + 1 / 4 * u2 + 1 / 4 * u3))
            * (v3 - (1 / 4 * v0 + 1 / 4 * v1 + 1 / 4 * v2 + 1 / 4 * v3)))
          + 0 * ((u3 - u0) * (v3 - v0)))
      = u0 * v0 + u1 * v1 + u2 * v2 + u3 * v3
        - 1 / 4 * (u0 + u1 + u2 + u3) * (v0 + v1 + v2 + v3) := by
    intros
    ring
  rw [e]
  fin_cases a <;> fin_cases b <;> simp <;> norm_num

/-- C11, amended.  For the planar unit square with its centre as virtual point
and weights `1/4`, `localStiffnessMatrix` returns `3/4` on the diagonal and `-1/4` at every
other position, for vertices sharing an edge and for diagonally opposite vertices alike. -/
theorem localStiffnessMatrix_unit_square (sqrt : K → K) (hs : IsSqrt sqrt) (a b : Fin 4) :
    localStiffnessMatrix sqrt (unitSquare K) (squareCentre K) (fun _ => 1 / 4) a b
      = if a = b then 3 / 4 else -(1 / 4) :=
  unitSquare_stiffness_entries sqrt hs a b

end UnitSquareTheorems

/-- C11, as stated, fails: on the unit square with its centre and weights `1/4` the entries of
`localStiffnessMatrix` are not the bilinear-quad values `2/3`, `-1/6`, `-1/3`; the diagonal
entry `(0,0)` is `3/4`, the entry `(0,1)` of an edge and the entry `(0,2)` of a diagonal are
both `-1/4`. -/
theorem localStiffnessMatrix_unit_square_not_Q1 :
    localStiffnessMatrix Real.sqrt (unitSquare ℝ) (squareCentre ℝ) (fun _ => 1 / 4) 0 0 = 3 / 4
      ∧ localStiffnessMatrix Real.sqrt (unitSquare ℝ) (squareCentre ℝ) (fun _ => 1 / 4) 0 1
          = -(1 / 4)
      ∧ localStiffnessMatrix Real.sqrt (unitSquare ℝ) (squareCentre ℝ) (fun _ => 1 / 4) 0 2
          = -(1 / 4)
      ∧ localStiffnessMatrix Real.sqrt (unitSquare ℝ) (squareCentre ℝ) (fun _ => 1 / 4) 0 0
          ≠ 2 / 3
      ∧ localStiffnessMatrix Real.sqrt (unitSquare ℝ) (squareCentre ℝ) (fun _ => 1 / 4) 0 1
          ≠ -(1 / 6)
      ∧ localStiffnessMatrix Real.sqrt (unitSquare ℝ) (squareCentre ℝ) (fun _ => 1 / 4) 0 2
          ≠ -(1 / 3) := by
  have h := unitSquare_stiffness_entries Real.sqrt isSqrt_real
  refine ⟨?_, ?_, ?_, ?_, ?_, ?_⟩
  · rw [h]; simp
  · rw [h]; simp
  · rw [h]; simp
  · rw [h]; norm_num
  · rw [h]; simp
  · rw [h]; simp

theorem localStiffnessMatrix_unit_square_witness :
    IsSqrt Real.sqrt
      ∧ localStiffnessMatrix Real.sqrt (unitSquare ℝ) (squareCentre ℝ) (fun _ => 1 / 4) 0 2
          = if (0 : Fin 4) = 2 then 3 / 4 else -(1 / 4) :=
  ⟨isSqrt_real, localStiffnessMatrix_unit_square Real.sqrt isSqrt_real 0 2⟩

/-! ## The mass loop has no area tolerance -/

section MassToleranceTheorems

variable {K : Type} [LinearOrderedField K]

theorem addAt_zero {n m : Nat} (M : Fin n → Fin m → K) (r : Fin n) (c : Fin m) :
    addAt M r c 0 = M := by
  funext a b
  simp [addAt]

theorem addAtVec_zero {n : Nat} (ln : Fin n → K) (r : Fin n) : addAtVec ln r 0 = ln := by
  funext a
  simp [addAtVec]

/-- A kite of area zero leaves the state of the mass loop unchanged. -/
theorem massKite_of_area_zero (sqrt : K → K) {n : Nat} (poly : Fin n → Fin 3 → K)
    (min : Fin 3 → K) (s : (Fin n → Fin n → K) × (Fin (n + 1) → K)) (i : Fin n)
    (h : massArea sqrt poly min i = 0) : massKite sqrt poly min s i = s := by
  unfold massArea at h
  unfold massKite
  dsimp only at h ⊢
  rw [h]
  simp only [mul_zero, addAt_zero, addAtVec_zero]

theorem massKiteSkipping_zero (sqrt : K → K) (hs : IsSqrt sqrt) {n : Nat}
    (poly : Fin n → Fin 3 → K) (min : Fin 3 → K) :
    massKiteSkipping 0 sqrt poly min = massKite sqrt poly min := by
  funext s i
  unfold massKiteSkipping
  split_ifs with h
  · rfl
  · have h0 := massArea_nonneg sqrt hs poly min i
    exact (massKite_of_area_zero sqrt poly min s i (le_antisymm (not_lt.mp h) h0)).symm

/-- C13, amended.  `localMassMatrix` has no area tolerance: every kite is accumulated with
its area, also a kite whose area is at or below `1e-7`.  A kite contributes zero only when
its area is zero: the returned matrix equals the one obtained by accumulating only the kites
whose area exceeds `0`. -/
theorem localMassMatrix_skips_only_zero_area (sqrt : K → K) (hs : IsSqrt sqrt) {n : Nat}
    (poly : Fin n → Fin 3 → K) (min : Fin 3 → K) (w : Fin n → K) :
    localMassMatrix sqrt poly min w = localMassMatrixSkipping 0 sqrt poly min w := by
  unfold localMassMatrix localMassMatrixSkipping
  rw [massKiteSkipping_zero sqrt hs]

theorem extBilin_massKiteSkipping (tol : K) (sqrt : K → K) {n : Nat}
    (poly : Fin n → Fin 3 → K) (min : Fin 3 → K) (w : Fin n → K)
    (s : (Fin n → Fin n → K) × (Fin (n + 1) → K)) (i : Fin n) (u v : Fin n → K) :
    extBilin w (massKiteSkipping tol sqrt poly min s i) u v
      = extBilin w s u v + (if massArea sqrt poly min i > tol then
          massForm (massArea sqrt poly min i) (u i) (u (nextIdx i)) (wdot w u)
            (v i) (v (nextIdx i)) (wdot w v) else 0) := by
  unfold massKiteSkipping
  split_ifs with h
  · exact extBilin_massKite sqrt poly min w s i u v
  · rw [add_zero]

theorem bilin_localMassMatrixSkipping (tol : K) (sqrt : K → K) {n : Nat}
    (poly : Fin n → Fin 3 → K) (min : Fin 3 → K) (w u v : Fin n → K) :
    bilin (localMassMatrixSkipping tol sqrt poly min w) u v
      = ∑ i, (if massArea sqrt poly min i > tol then
          massForm (massArea sqrt poly min i) (u i) (u (nextIdx i)) (wdot w u)
            (v i) (v (nextIdx i)) (wdot w v) else 0) := by
  unfold localMassMatrixSkipping
  rw [bilin_sandwich, extBilin_foldl w _ _ u v
    (fun s i => extBilin_massKiteSkipping tol sqrt poly min w s i u v), extBilin_zero, zero_add,
    sum_map_finRange]

theorem tinyTriangle_crossSq (i : Fin 3) :
    crossSq (tinyTriangle K 0) (tinyTriangle K i) (tinyTriangle K (nextIdx i))
      = if i = 1 then 12 / 100000000 * (12 / 100000000) else 0 := by
  have n0 : nextIdx (0 : Fin 3) = 1 := rfl
  have n1 : nextIdx (1 : Fin 3) = 2 := rfl
  have n2 : nextIdx (2 : Fin 3) = 0 := rfl
  fin_cases i <;>
  simp [crossSq, dot_eq, cross_zero_eq, cross_one_eq, cross_two_eq, tinyTriangle, n0, n1, n2,
    Matrix.vecHead, Matrix.vecTail]
  norm_num

/-- The kite areas of the small triangle seen from its first vertex: the kite of edge
`(1, 2)` has area `6e-8`, the two kites at the first vertex have area zero. -/
theorem tinyTriangle_massArea (sqrt : K → K) (hs : IsSqrt sqrt) (i : Fin 3) :
    massArea sqrt (tinyTriangle K) (tinyTriangle K 0) i
      = if i = 1 then 6 / 100000000 else 0 := by
  rw [massArea_eq sqrt hs, triangle_area_eq, tinyTriangle_crossSq]
  split_ifs
  · rw [sqrt_unique sqrt hs _ (12 / 100000000) (by norm_num) rfl]
    norm_num
  · rw [sqrt_unique sqrt hs 0 0 le_rfl (by ring)]
    norm_num

theorem tinyTriangle_mass_entry (sqrt : K → K) (hs : IsSqrt sqrt) :
    localMassMatrix sqrt (tinyTriangle K) (tinyTriangle K 0) ![1, 0, 0] 1 1
        = 1 / 100000000
      ∧ localMassMatrixSkipping areaTol sqrt (tinyTriangle K) (tinyTriangle K 0) ![1, 0, 0] 1 1
        = 0 := by
  have n0 : nextIdx (0 : Fin 3) = 1 := rfl
  have n1 : nextIdx (1 : Fin 3) = 2 := rfl
  have n2 : nextIdx (2 : Fin 3) = 0 := rfl
  have hsmall : ¬ ((6 : K) / 100000000 > areaTol) := by
    unfold areaTol
    norm_num
  constructor
  · rw [← bilin_single (localMassMatrix sqrt (tinyTriangle K) (tinyTriangle K 0) ![1, 0, 0])
      1 1, bilin_localMassMatrix]
    simp only [tinyTriangle_massArea sqrt hs, Fin.sum_univ_three, massForm, wdot]
    simp [n0, n1, n2]
    norm_num
  · rw [← bilin_single (localMassMatrixSkipping areaTol sqrt (tinyTriangle K)
      (tinyTriangle K 0) ![1, 0, 0]) 1 1, bilin_localMassMatrixSkipping]
    simp only [tinyTriangle_massArea sqrt hs, Fin.sum_univ_three]
    simp [hsmall, areaTol_pos.le, not_lt.mpr (@areaTol_pos K _).le]

end MassToleranceTheorems

/-- C13, as stated, fails: for the small triangle `(0,0,0), (3e-4,0,0), (0,4e-4,0)` with the
point `(0,0,0)` and the weights `(1,0,0)` the kite of edge `(1, 2)` has area `6e-8`, at or
below `1e-7`, and `localMassMatrix` still accumulates it: the entry `(1,1)` is `1e-8`, while
the matrix that skips kites at or below the tolerance has the entry `0`. -/
theorem localMassMatrix_accumulates_small_kite :
    massArea Real.sqrt (tinyTriangle ℝ) (tinyTriangle ℝ 0) 1 = 6 / 100000000
      ∧ massArea Real.sqrt (tinyTriangle ℝ) (tinyTriangle ℝ 0) 1 ≤ areaTol
      ∧ localMassMatrix Real.sqrt (tinyTriangle ℝ) (tinyTriangle ℝ 0) ![1, 0, 0] 1 1
          = 1 / 100000000
      ∧ localMassMatrixSkipping areaTol Real.sqrt (tinyTriangle ℝ) (tinyTriangle ℝ 0)
          ![1, 0, 0] 1 1 = 0
      ∧ localMassMatrix Real.sqrt (tinyTriangle ℝ) (tinyTriangle ℝ 0) ![1, 0, 0]
          ≠ localMassMatrixSkipping areaTol Real.sqrt (tinyTriangle ℝ) (tinyTriangle ℝ 0)
              ![1, 0, 0] := by
  have ha := tinyTriangle_massArea Real.sqrt isSqrt_real 1
  rw [if_pos rfl] at ha
  have he := tinyTriangle_mass_entry Real.sqrt isSqrt_real
  refine ⟨ha, ?_, he.1, he.2, ?_⟩
  · rw [ha]
    unfold areaTol
    norm_num
  · intro h
    have h1 := he.1
    rw [h, he.2] at h1
    norm_num at h1

theorem localMassMatrix_skips_only_zero_area_witness :
    IsSqrt Real.sqrt
      ∧ localMassMatrix Real.sqrt (tinyTriangle ℝ) (tinyTriangle ℝ 0) ![1, 0, 0]
          = localMassMatrixSkipping 0 Real.sqrt (tinyTriangle ℝ) (tinyTriangle ℝ 0)
              ![1, 0, 0] :=
  ⟨isSqrt_real, localMassMatrix_skips_only_zero_area Real.sqrt isSqrt_real (tinyTriangle ℝ)
    (tinyTriangle ℝ 0) ![1, 0, 0]⟩

/-! ## The area test of the stiffness loop -/

section StiffnessToleranceTheorems

variable {K : Type} [LinearOrderedField K]

/-- The area of the mass loop is Heron's formula on the three edge lengths of the kite. -/
theorem kiteHeronArea_eq_massArea (sqrt : K → K) {n : Nat} (poly : Fin n → Fin 3 → K)
    (min : Fin 3 → K) (i : Fin n) :
    kiteHeronArea sqrt poly min i = massArea sqrt poly min i := by
  unfold kiteHeronArea heronArea massArea
  dsimp only
  congr 2
  ring

/-- The value `area = 0.5 * sqrt(arg)` of the stiffness loop is twice the Heron area of the
kite. -/
theorem stiffness_area_eq (sqrt : K → K) {n : Nat} (poly : Fin n → Fin 3 → K)
    (min : Fin 3 → K) (i : Fin n) :
    2 * kiteHeronArea sqrt poly min i
      = 1 / 2 * sqrt ((sqrt (squaredNorm (poly (nextIdx i) - min))
          + (sqrt (squaredNorm (poly i - min)) + sqrt (squaredNorm (poly i - poly (nextIdx i)))))
        * (sqrt (squaredNorm (poly i - poly (nextIdx i)))
          - (sqrt (squaredNorm (poly (nextIdx i) - min)) - sqrt (squaredNorm (poly i - min))))
        * (sqrt (squaredNorm (poly i - poly (nextIdx i)))
          + (sqrt (squaredNorm (poly (nextIdx i) - min)) - sqrt (squaredNorm (poly i - min))))
        * (sqrt (squaredNorm (poly (nextIdx i) - min))
          + (sqrt (squaredNorm (poly i - min))
            - sqrt (squaredNorm (poly i - poly (nextIdx i)))))) := by
  rw [kiteHeronArea_eq_massArea]
  unfold massArea
  dsimp only
  ring

/-- The kite step of the stiffness loop, with its test written on the Heron area. -/
theorem stiffnessKite_eq (sqrt : K → K) {n : Nat} (poly : Fin n → Fin 3 → K)
    (min : Fin 3 → K) (s : (Fin n → Fin n → K) × (Fin (n + 1) → K)) (i : Fin n) :
    stiffnessKite sqrt poly min s i
      = if 2 * kiteHeronArea sqrt poly min i > areaTol then
          (addAt (addAt (addAt (addAt (addAt (addAt s.1 (nextIdx i) (nextIdx i)
              (1 / 4 * (squaredNorm (poly i - min) + squaredNorm (poly i - poly (nextIdx i))
                - squaredNorm (poly (nextIdx i) - min)) / (2 * kiteHeronArea sqrt poly min i)))
            i i
              (1 / 4 * (squaredNorm (poly i - poly (nextIdx i))
                + squaredNorm (poly (nextIdx i) - min) - squaredNorm (poly i - min))
                / (2 * kiteHeronArea sqrt poly min i)))
            (nextIdx i) i
              (-(1 / 4 * (squaredNorm (poly (nextIdx i) - min) + squaredNorm (poly i - min)
                - squaredNorm (poly i - poly (nextIdx i)))
                / (2 * kiteHeronArea sqrt poly min i))))
            i (nextIdx i)
              (-(1 / 4 * (squaredNorm (poly (nextIdx i) - min) + squaredNorm (poly i - min)
                - squaredNorm (poly i - poly (nextIdx i)))
                / (2 * kiteHeronArea sqrt poly min i))))
            i i
              (1 / 4 * (squaredNorm (poly (nextIdx i) - min) + squaredNorm (poly i - min)
                - squaredNorm (poly i - poly (nextIdx i)))
                / (2 * kiteHeronArea sqrt poly min i)))
            (nextIdx i) (nextIdx i)
              (1 / 4 * (squaredNorm (poly (nextIdx i) - min) + squaredNorm (poly i - min)
                - squaredNorm (poly i - poly (nextIdx i)))
                / (2 * kiteHeronArea sqrt poly min i)),
           addAtVec (addAtVec (addAtVec s.2 (nextIdx i).castSucc
              (-(1 / 4 * (squaredNorm (poly i - min) + squaredNorm (poly i - poly (nextIdx i))
                - squaredNorm (poly (nextIdx i) - min)) / (2 * kiteHeronArea sqrt poly min i))))
            i.castSucc
              (-(1 / 4 * (squaredNorm (poly i - poly (nextIdx i))
                + squaredNorm (poly (nextIdx i) - min) - squaredNorm (poly i - min))
                / (2 * kiteHeronArea sqrt poly min i))))
            (Fin.last n)
              (1 / 4 * (squaredNorm (poly i - min) + squaredNorm (poly i - poly (nextIdx i))
                - squaredNorm (poly (nextIdx i) - min)) / (2 * kiteHeronArea sqrt poly min i)
              + 1 / 4 * (squaredNorm (poly i - poly (nextIdx i))
                + squaredNorm (poly (nextIdx i) - min) - squaredNorm (poly i - min))
                / (2 * kiteHeronArea sqrt poly min i)))
        else s := by
  rw [stiffness_area_eq]
  rfl

theorem kiteUpdate_diag {n : Nat} (L : Fin n → Fin n → K) (i i1 : Fin n) (hne : i ≠ i1)
    (l0 l1 l2 : K) :
    addAt (addAt (addAt (addAt (addAt (addAt L i1 i1 l0) i i l1) i1 i (-l2)) i i1 (-l2))
        i i l2) i1 i1 l2 i i = L i i + (l1 + l2) := by
  simp [addAt, hne]
  ring

theorem kiteUpdate_last {n : Nat} (ln : Fin (n + 1) → K) (i i1 : Fin n) (l0 l1 : K) :
    addAtVec (addAtVec (addAtVec ln i1.castSucc (-l0)) i.castSucc (-l1)) (Fin.last n)
        (l0 + l1) (Fin.last n) = ln (Fin.last n) + (l0 + l1) := by
  rw [addAtVec_last_last, addAtVec_castSucc_last, addAtVec_castSucc_last]

theorem squaredNorm_pos_of_crossSq (p a b : Fin 3 → K) (h : 0 < crossSq p a b) :
    0 < squaredNorm (a - b) ∧ 0 < squaredNorm (b - p) := by
  have h1 : crossSq p a b = dot (a - b) (a - b) * dot (p - b) (p - b)
      - dot (a - b) (p - b) ^ 2 := by
    rw [← crossSq_rot p a b]
    exact crossSq_eq_gram a b p
  have e : dot (p - b) (p - b) = squaredNorm (b - p) := by
    simp only [dot_eq, squaredNorm, Pi.sub_apply]
    ring
  rw [e, ← squaredNorm_eq_dot] at h1
  have ha := squaredNorm_nonneg (a - b)
  have hb := squaredNorm_nonneg (b - p)
  have hsq := sq_nonneg (dot (a - b) (p - b))
  constructor
  · rcases ha.lt_or_eq with h2 | h2
    · exact h2
    · rw [← h2] at h1
      nlinarith
  · rcases hb.lt_or_eq with h2 | h2
    · exact h2
    · rw [← h2] at h1
      nlinarith

/-- Twice the Heron area of a kite is the length of the cross product of its two spokes. -/
theorem two_kiteHeronArea (sqrt : K → K) (hs : IsSqrt sqrt) {n : Nat}
    (poly : Fin n → Fin 3 → K) (min : Fin 3 → K) (i : Fin n) :
    2 * kiteHeronArea sqrt poly min i = sqrt (crossSq min (poly i) (poly (nextIdx i))) := by
  rw [kiteHeronArea_eq_massArea, massArea_eq sqrt hs, triangle_area_eq]
  ring

/-- A kite that passes the test of the stiffness loop changes the state: the diagonal entry
`L(i, i)` and the coupling `ln(n)` strictly increase. -/
theorem stiffnessKite_contributes (sqrt : K → K) (hs : IsSqrt sqrt) {n : Nat}
    (poly : Fin n → Fin 3 → K) (min : Fin 3 → K)
    (s : (Fin n → Fin n → K) × (Fin (n + 1) → K)) (i : Fin n)
    (h : areaTol < 2 * kiteHeronArea sqrt poly min i) :
    (stiffnessKite sqrt poly min s i).1 i i
        = s.1 i i + squaredNorm (poly (nextIdx i) - min)
            / (2 * (2 * kiteHeronArea sqrt poly min i))
      ∧ (stiffnessKite sqrt poly min s i).2 (Fin.last n)
        = s.2 (Fin.last n) + squaredNorm (poly i - poly (nextIdx i))
            / (2 * (2 * kiteHeronArea sqrt poly min i))
      ∧ s.1 i i < (stiffnessKite sqrt poly min s i).1 i i
      ∧ s.2 (Fin.last n) < (stiffnessKite sqrt poly min s i).2 (Fin.last n) := by
  have hA : 0 < 2 * kiteHeronArea sqrt poly min i := lt_trans areaTol_pos h
  have hD : 0 < crossSq min (poly i) (poly (nextIdx i)) := by
    apply crossSq_pos_of_sqrt_pos sqrt hs
    rw [← two_kiteHeronArea sqrt hs]
    exact hA
  obtain ⟨hedge, hspoke⟩ := squaredNorm_pos_of_crossSq _ _ _ hD
  have hne : i ≠ nextIdx i := by
    intro hc
    rw [← hc, sub_self] at hedge
    simp [squaredNorm] at hedge
  have e1 : (stiffnessKite sqrt poly min s i).1 i i
      = s.1 i i + squaredNorm (poly (nextIdx i) - min)
          / (2 * (2 * kiteHeronArea sqrt poly min i)) := by
    rw [stiffnessKite_eq, if_pos h]
    dsimp only
    rw [kiteUpdate_diag _ _ _ hne]
    congr 1
    field_simp
    ring
  have e2 : (stiffnessKite sqrt poly min s i).2 (Fin.last n)
      = s.2 (Fin.last n) + squaredNorm (poly i - poly (nextIdx i))
          / (2 * (2 * kiteHeronArea sqrt poly min i)) := by
    rw [stiffnessKite_eq, if_pos h]
    dsimp only
    rw [kiteUpdate_last]
    congr 1
    field_simp
    ring
  refine ⟨e1, e2, ?_, ?_⟩
  · rw [e1]
    have : 0 < squaredNorm (poly (nextIdx i) - min)
        / (2 * (2 * kiteHeronArea sqrt poly min i)) := div_pos hspoke (by linarith)
    linarith
  · rw [e2]
    have : 0 < squaredNorm (poly i - poly (nextIdx i))
        / (2 * (2 * kiteHeronArea sqrt poly min i)) := div_pos hedge (by linarith)
    linarith

theorem stiffnessKite_skips (sqrt : K → K) {n : Nat}
    (poly : Fin n → Fin 3 → K) (min : Fin 3 → K)
    (s : (Fin n → Fin n → K) × (Fin (n + 1) → K)) (i : Fin n)
    (h : 2 * kiteHeronArea sqrt poly min i ≤ areaTol) :
    stiffnessKite sqrt poly min s i = s := by
  rw [stiffnessKite_eq, if_neg (not_lt.mpr h)]

/-- C14, amended.  In `localStiffnessMatrix` the value compared with the tolerance is
`0.5 * sqrt(arg)`, twice the Heron area of the kite.  A kite contributes to the local matrix
and to the virtual-point couplings if and only if twice its Heron area is strictly greater
than `1e-7`, that is if its Heron area exceeds `0.5e-7`; every kite whose Heron area is at or
below `0.5e-7` contributes zero. -/
theorem stiffnessKite_contributes_iff (sqrt : K → K) (hs : IsSqrt sqrt) {n : Nat}
    (poly : Fin n → Fin 3 → K) (min : Fin 3 → K)
    (s : (Fin n → Fin n → K) × (Fin (n + 1) → K)) (i : Fin n) :
    (stiffnessKite sqrt poly min s i ≠ s ↔ areaTol < 2 * kiteHeronArea sqrt poly min i)
      ∧ (areaTol < 2 * kiteHeronArea sqrt poly min i →
          s.1 i i < (stiffnessKite sqrt poly min s i).1 i i
            ∧ s.2 (Fin.last n) < (stiffnessKite sqrt poly min s i).2 (Fin.last n))
      ∧ (2 * kiteHeronArea sqrt poly min i ≤ areaTol →
          stiffnessKite sqrt poly min s i = s ∧ stiffnessCoef sqrt poly min i = 0) := by
  refine ⟨⟨fun hne => ?_, fun h heq => ?_⟩, fun h => ?_, fun h => ?_⟩
  · by_contra hc
    exact hne (stiffnessKite_skips sqrt poly min s i (not_lt.mp hc))
  · have h4 := (stiffnessKite_contributes sqrt hs poly min s i h).2.2.2
    rw [heq] at h4
    exact lt_irrefl _ h4
  · exact (stiffnessKite_contributes sqrt hs poly min s i h).2.2
  · refine ⟨stiffnessKite_skips sqrt poly min s i h, ?_⟩
    unfold stiffnessCoef
    dsimp only
    rw [← stiffness_area_eq, if_neg (not_lt.mpr h)]

end StiffnessToleranceTheorems

/-- C14, as stated, fails: for the small triangle `(0,0,0), (3e-4,0,0), (0,4e-4,0)` with the
point `(0,0,0)` the kite of edge `(1, 2)` has Heron area `6e-8`, at or below `1e-7`, and the
stiffness loop still accumulates it: starting from the zero state the coupling `ln(n)`
becomes `25/24`. -/
theorem stiffnessKite_accumulates_small_kite :
    kiteHeronArea Real.sqrt (tinyTriangle ℝ) (tinyTriangle ℝ 0) 1 = 6 / 100000000
      ∧ kiteHeronArea Real.sqrt (tinyTriangle ℝ) (tinyTriangle ℝ 0) 1 ≤ areaTol
      ∧ (stiffnessKite Real.sqrt (tinyTriangle ℝ) (tinyTriangle ℝ 0) (0, 0) 1).2 (Fin.last 3)
          = 25 / 24
      ∧ stiffnessKite Real.sqrt (tinyTriangle ℝ) (tinyTriangle ℝ 0) (0, 0) 1 ≠ (0, 0) := by
  have ha : kiteHeronArea Real.sqrt (tinyTriangle ℝ) (tinyTriangle ℝ 0) 1
      = 6 / 100000000 := by
    rw [kiteHeronArea_eq_massArea, tinyTriangle_massArea Real.sqrt isSqrt_real, if_pos rfl]
  have hpass : areaTol < 2 * kiteHeronArea Real.sqrt (tinyTriangle ℝ) (tinyTriangle ℝ 0) 1 := by
    rw [ha]
    unfold areaTol
    norm_num
  have hc := (stiffnessKite_contributes Real.sqrt isSqrt_real (tinyTriangle ℝ)
    (tinyTriangle ℝ 0) (0, 0) 1 hpass).2.1
  have hedge : squaredNorm (tinyTriangle ℝ 1 - tinyTriangle ℝ (nextIdx 1))
      = 25 / 100000000 := by
    have n1 : nextIdx (1 : Fin 3) = 2 := rfl
    simp [squaredNorm, tinyTriangle, n1, Matrix.vecHead, Matrix.vecTail]
    norm_num
  have hval : (stiffnessKite Real.sqrt (tinyTriangle ℝ) (tinyTriangle ℝ 0) (0, 0) 1).2
      (Fin.last 3) = 25 / 24 := by
    rw [hc, hedge, ha]
    norm_num
  refine ⟨ha, ?_, hval, ?_⟩
  · rw [ha]
    unfold areaTol
    norm_num
  · intro h
    rw [h] at hval
    norm_num at hval

theorem stiffnessKite_contributes_iff_witness :
    IsSqrt Real.sqrt
      ∧ ((stiffnessKite Real.sqrt (tinyTriangle ℝ) (tinyTriangle ℝ 0) (0, 0) 1 ≠ (0, 0)
          ↔ areaTol < 2 * kiteHeronArea Real.sqrt (tinyTriangle ℝ) (tinyTriangle ℝ 0) 1)
        ∧ (areaTol < 2 * kiteHeronArea Real.sqrt (tinyTriangle ℝ) (tinyTriangle ℝ 0) 1 →
          ((0 : (Fin 3 → Fin 3 → ℝ) × (Fin (3 + 1) → ℝ)).1 1 1
              < (stiffnessKite Real.sqrt (tinyTriangle ℝ) (tinyTriangle ℝ 0) (0, 0) 1).1 1 1
            ∧ (0 : (Fin 3 → Fin 3 → ℝ) × (Fin (3 + 1) → ℝ)).2 (Fin.last 3)
              < (stiffnessKite Real.sqrt (tinyTriangle ℝ) (tinyTriangle ℝ 0) (0, 0) 1).2
                  (Fin.last 3)))
        ∧ (2 * kiteHeronArea Real.sqrt (tinyTriangle ℝ) (tinyTriangle ℝ 0) 1 ≤ areaTol →
          stiffnessKite Real.sqrt (tinyTriangle ℝ) (tinyTriangle ℝ 0) (0, 0) 1 = (0, 0)
            ∧ stiffnessCoef Real.sqrt (tinyTriangle ℝ) (tinyTriangle ℝ 0) 1 = 0)) :=
  ⟨isSqrt_real, stiffnessKite_contributes_iff Real.sqrt isSqrt_real (tinyTriangle ℝ)
    (tinyTriangle ℝ 0) (0, 0) 1⟩

/-! ## The area-weighted centroid of a single triangle -/

section CentroidTheorems

variable {K : Type} [LinearOrderedField K]

theorem centroid_triangle (mesh : SurfaceMesh K) (v0 v1 v2 : Fin mesh.nv) :
    centroid mesh [v0, v1, v2]
      = fun h => (mesh.position v0 h + mesh.position v1 h + mesh.position v2 h) / 3 := by
  funext h
  unfold centroid
  show (∑ i : Fin 3, mesh.position ([v0, v1, v2].get i) h) / ((3 : Nat) : K) = _
  rw [Fin.sum_univ_three]
  simp

theorem crossSq_centroid (a b c : Fin 3 → K) :
    crossSq (fun h => (a h + b h + c h) / 3) a b = crossSq a b c / 9
      ∧ crossSq (fun h => (a h + b h + c h) / 3) b c = crossSq a b c / 9
      ∧ crossSq (fun h => (a h + b h + c h) / 3) c a = crossSq a b c / 9 := by
  refine ⟨?_, ?_, ?_⟩ <;>
  · simp only [crossSq, dot_eq, cross_zero_eq, cross_one_eq, cross_two_eq, Pi.sub_apply]
    ring

theorem sqrt_div_nine (sqrt : K → K) (hs : IsSqrt sqrt) (x : K) (hx : 0 ≤ x) :
    sqrt (x / 9) = sqrt x / 3 := by
  obtain ⟨h0, h2⟩ := hs x hx
  apply sqrt_unique sqrt hs _ _ (div_nonneg h0 (by norm_num))
  rw [div_mul_div_comm, h2]
  norm_num

/-- The face area of a triangle face is the area of the triangle. -/
theorem face_area_triangle (sqrt : K → K) (hs : IsSqrt sqrt) (mesh : SurfaceMesh K)
    (v0 v1 v2 : Fin mesh.nv) :
    face_area sqrt mesh [v0, v1, v2]
      = triangle_area sqrt (mesh.position v0) (mesh.position v1) (mesh.position v2) := by
  unfold face_area
  dsimp only
  show ∑ i : Fin 3, triangle_area sqrt (centroid mesh [v0, v1, v2])
      (mesh.position (heFrom [v0, v1, v2] i)) (mesh.position (heTo [v0, v1, v2] i)) = _
  have f0 : heFrom [v0, v1, v2] (0 : Fin 3) = v2 := rfl
  have f1 : heFrom [v0, v1, v2] (1 : Fin 3) = v0 := by simp [heFrom]
  have f2 : heFrom [v0, v1, v2] (2 : Fin 3) = v1 := by simp [heFrom]
  have t0 : heTo [v0, v1, v2] (0 : Fin 3) = v0 := rfl
  have t1 : heTo [v0, v1, v2] (1 : Fin 3) = v1 := rfl
  have t2 : heTo [v0, v1, v2] (2 : Fin 3) = v2 := rfl
  obtain ⟨c1, c2, c3⟩ := crossSq_centroid (mesh.position v0) (mesh.position v1)
    (mesh.position v2)
  rw [Fin.sum_univ_three, f0, f1, f2, t0, t1, t2, centroid_triangle]
  simp only [triangle_area_eq, c1, c2, c3, sqrt_div_nine sqrt hs _ (crossSq_nonneg _ _ _)]
  ring

theorem centroidStep_eq (sqrt : K → K) (mesh : SurfaceMesh K) (s : (Fin 3 → K) × K)
    (f : List (Fin mesh.nv)) :
    centroidStep sqrt mesh s f
      = (fun h => s.1 h + face_area sqrt mesh f * centroid mesh f h,
          s.2 + face_area sqrt mesh f) := rfl

theorem area_weighted_centroid_single (sqrt : K → K) (mesh : SurfaceMesh K)
    (f : List (Fin mesh.nv)) (hf : mesh.faces = [f]) :
    area_weighted_centroid sqrt mesh
      = if face_area sqrt mesh f = 0 then none
        else some (fun h => face_area sqrt mesh f * centroid mesh f h
          / face_area sqrt mesh f) := by
  unfold area_weighted_centroid
  rw [hf]
  simp only [List.foldl, centroidStep_eq, Pi.zero_apply, zero_add]

/-- The result of `area_weighted_centroid` on a mesh with a single triangle face. -/
theorem area_weighted_centroid_triangle_eq (sqrt : K → K) (hs : IsSqrt sqrt)
    (mesh : SurfaceMesh K) (v0 v1 v2 : Fin mesh.nv) (hf : mesh.faces = [[v0, v1, v2]]) :
    area_weighted_centroid sqrt mesh
      = if crossSq (mesh.position v0) (mesh.position v1) (mesh.position v2) = 0 then none
        else some (fun h =>
          (mesh.position v0 h + mesh.position v1 h + mesh.position v2 h) / 3) := by
  have hD := crossSq_nonneg (mesh.position v0) (mesh.position v1) (mesh.position v2)
  obtain ⟨hσ0, hσ2⟩ := hs _ hD
  rw [area_weighted_centroid_single sqrt mesh _ hf, face_area_triangle sqrt hs,
    triangle_area_eq, centroid_triangle]
  by_cases h0 : crossSq (mesh.position v0) (mesh.position v1) (mesh.position v2) = 0
  · have hz : (1 : K) / 2
        * sqrt (crossSq (mesh.position v0) (mesh.position v1) (mesh.position v2)) = 0 := by
      rw [h0, sqrt_unique sqrt hs 0 0 le_rfl (by ring), mul_zero]
    rw [if_pos h0, if_pos hz]
  · have hz : sqrt (crossSq (mesh.position v0) (mesh.position v1) (mesh.position v2)) ≠ 0 := by
      intro h
      rw [h, mul_zero] at hσ2
      exact h0 hσ2.symm
    have hz2 : (1 : K) / 2
        * sqrt (crossSq (mesh.position v0) (mesh.position v1) (mesh.position v2)) ≠ 0 :=
      mul_ne_zero (by norm_num) hz
    rw [if_neg h0, if_neg hz2]
    congr 1
    funext h
    rw [mul_div_assoc, mul_comm, div_mul_cancel₀ _ hz2]

/-- C16, amended.  For every mesh consisting of a single triangle face with vertices `a`,
`b`, `c` that do not lie on a line, `area_weighted_centroid` returns the centroid
`(a + b + c) / 3`. -/
theorem area_weighted_centroid_single_triangle (sqrt : K → K) (hs : IsSqrt sqrt)
    (mesh : SurfaceMesh K) (v0 v1 v2 : Fin mesh.nv) (hf : mesh.faces = [[v0, v1, v2]])
    (hD : crossSq (mesh.position v0) (mesh.position v1) (mesh.position v2) ≠ 0) :
    area_weighted_centroid sqrt mesh
      = some (fun h => (mesh.position v0 h + mesh.position v1 h + mesh.position v2 h) / 3) := by
  rw [area_weighted_centroid_triangle_eq sqrt hs mesh v0 v1 v2 hf, if_neg hD]

end CentroidTheorems

/-- C16, as stated, fails: for the mesh made of the single triangle
`(0,0,0), (1,0,0), (2,0,0)`, whose vertices lie on a line, the face area is zero, the final
division by the accumulated area has no value, and the result is not the centroid
`(1,0,0)`. -/
theorem area_weighted_centroid_collinear :
    (collinearMesh ℝ).faces = [([0, 1, 2] : List (Fin 3))]
      ∧ face_area Real.sqrt (collinearMesh ℝ) ([0, 1, 2] : List (Fin 3)) = 0
      ∧ area_weighted_centroid Real.sqrt (collinearMesh ℝ) = none
      ∧ area_weighted_centroid Real.sqrt (collinearMesh ℝ)
          ≠ some (fun h => ((collinearMesh ℝ).position (0 : Fin 3) h
              + (collinearMesh ℝ).position (1 : Fin 3) h
              + (collinearMesh ℝ).position (2 : Fin 3) h) / 3) := by
  have hD : crossSq ((collinearMesh ℝ).position (0 : Fin 3))
      ((collinearMesh ℝ).position (1 : Fin 3)) ((collinearMesh ℝ).position (2 : Fin 3)) = 0 := by
    simp [crossSq, dot_eq, cross_zero_eq, cross_one_eq, cross_two_eq, collinearMesh]
  have hn := area_weighted_centroid_triangle_eq Real.sqrt isSqrt_real (collinearMesh ℝ)
    (0 : Fin 3) (1 : Fin 3) (2 : Fin 3) rfl
  rw [if_pos hD] at hn
  refine ⟨rfl, ?_, hn, ?_⟩
  · rw [face_area_triangle Real.sqrt isSqrt_real (collinearMesh ℝ) (0 : Fin 3) (1 : Fin 3)
      (2 : Fin 3), triangle_area_eq, hD, Real.sqrt_zero, mul_zero]
  · rw [hn]
    exact fun h => Option.noConfusion h

theorem triangleMesh_crossSq_ne_zero :
    crossSq ((triangleMesh ℝ).position (0 : Fin 3)) ((triangleMesh ℝ).position (1 : Fin 3))
      ((triangleMesh ℝ).position (2 : Fin 3)) ≠ 0 := by
  simp [crossSq, dot_eq, cross_zero_eq, cross_one_eq, cross_two_eq, triangleMesh]

theorem area_weighted_centroid_single_triangle_witness :
    IsSqrt Real.sqrt ∧ (triangleMesh ℝ).faces = [([0, 1, 2] : List (Fin 3))]
      ∧ crossSq ((triangleMesh ℝ).position (0 : Fin 3)) ((triangleMesh ℝ).position (1 : Fin 3))
          ((triangleMesh ℝ).position (2 : Fin 3)) ≠ 0
      ∧ area_weighted_centroid Real.sqrt (triangleMesh ℝ)
          = some (fun h => ((triangleMesh ℝ).position (0 : Fin 3) h
              + (triangleMesh ℝ).position (1 : Fin 3) h
              + (triangleMesh ℝ).position (2 : Fin 3) h) / 3) :=
  ⟨isSqrt_real, rfl, triangleMesh_crossSq_ne_zero,
    area_weighted_centroid_single_triangle Real.sqrt isSqrt_real (triangleMesh ℝ) (0 : Fin 3)
      (1 : Fin 3) (2 : Fin 3) rfl triangleMesh_crossSq_ne_zero⟩

/-! ## The surface area of a regular polygon -/

section RegularPolygonTheorems

variable {K : Type} [LinearOrderedField K]

/-- The face area of the single face of `singleFaceMesh`, as a sum over the vertex indices:
the fan triangle of vertex `i` is spanned by the centroid, the cyclically preceding vertex and
vertex `i`. -/
theorem face_area_singleFace (sqrt : K → K) (n : Nat) (pos : Fin n → Fin 3 → K) :
    face_area sqrt (singleFaceMesh n pos) (List.finRange n)
      = ∑ i : Fin n, triangle_area sqrt (fun h => (∑ j, pos j h) / (n : K))
          (pos ⟨(i.val + (n - 1)) % n, Nat.mod_lt _ i.pos⟩) (pos i) := by
  have hlen : (List.finRange n).length = n := List.length_finRange n
  have hget : ∀ j : Fin (List.finRange n).length,
      (List.finRange n).get j = Fin.cast hlen j := by
    intro j
    apply Fin.ext
    simp
  have hC : centroid (singleFaceMesh n pos) (List.finRange n)
      = fun h => (∑ j, pos j h) / (n : K) := by
    funext h
    unfold centroid
    congr 1
    · apply Fintype.sum_equiv (finCongr hlen)
      intro j
      rw [hget]
      rfl
    · simp
  unfold face_area
  dsimp only
  rw [hC]
  apply Fintype.sum_equiv (finCongr hlen)
  intro i
  have h1 : heTo (List.finRange n) i = Fin.cast hlen i := hget i
  have h2 : heFrom (List.finRange n) i
      = ⟨((Fin.cast hlen i).val + (n - 1)) % n, Nat.mod_lt _ (Fin.cast hlen i).pos⟩ := by
    unfold heFrom
    rw [hget]
    apply Fin.ext
    simp
  rw [h1, h2]
  rfl

theorem polygon_surface_area_singleFace (sqrt : K → K) (n : Nat) (pos : Fin n → Fin 3 → K) :
    polygon_surface_area sqrt (singleFaceMesh n pos)
      = face_area sqrt (singleFaceMesh n pos) (List.finRange n) := by
  unfold polygon_surface_area
  show (0 : K) + face_area sqrt (singleFaceMesh n pos) (List.finRange n) = _
  rw [zero_add]

end RegularPolygonTheorems

/-- The `n`-th roots of unity sum to zero: real and imaginary part. -/
theorem sum_cos_sin_roots (n : Nat) (hn : 1 < n) :
    ∑ k in range n, Real.cos (2 * Real.pi * k / n) = 0
      ∧ ∑ k in range n, Real.sin (2 * Real.pi * k / n) = 0 := by
  have h := (Complex.isPrimitiveRoot_exp n (by omega)).geom_sum_eq_zero hn
  have hterm : ∀ k : Nat, Complex.exp (2 * Real.pi * Complex.I / n) ^ k
      = Complex.exp (((2 * Real.pi * k / n : ℝ) : ℂ) * Complex.I) := by
    intro k
    rw [← Complex.exp_nat_mul]
    congr 1
    push_cast
    ring
  simp only [hterm] at h
  constructor
  · have hre := congrArg Complex.re h
    rw [Complex.re_sum] at hre
    simpa only [Complex.exp_ofReal_mul_I_re, Complex.zero_re] using hre
  · have him := congrArg Complex.im h
    rw [Complex.im_sum] at him
    simpa only [Complex.exp_ofReal_mul_I_im, Complex.zero_im] using him

/-- The angle step between a vertex of the regular polygon and its cyclic predecessor has
the sine of `2 * pi / n`. -/
theorem sin_step (n : Nat) (hn : 0 < n) (i : Nat) (hi : i < n) :
    Real.sin (2 * Real.pi * i / n - 2 * Real.pi * ((i + (n - 1)) % n : Nat) / n)
      = Real.sin (2 * Real.pi / n) := by
  have hn0 : (n : ℝ) ≠ 0 := by exact_mod_cast hn.ne'
  rcases Nat.eq_zero_or_pos i with h0 | h0
  · subst h0
    have e : (0 + (n - 1)) % n = n - 1 := by
      rw [Nat.zero_add]
      exact Nat.mod_eq_of_lt (by omega)
    rw [e, Nat.cast_sub hn]
    have e2 : 2 * Real.pi * ((0 : Nat) : ℝ) / n - 2 * Real.pi * ((n : ℝ) - ((1 : Nat) : ℝ)) / n
        = 2 * Real.pi / n - 2 * Real.pi := by
      field_simp
      ring
    rw [e2, Real.sin_sub_two_pi]
  · have e : (i + (n - 1)) % n = i - 1 := by
      have : i + (n - 1) = (i - 1) + n := by omega
      rw [this, Nat.add_mod_right]
      exact Nat.mod_eq_of_lt (by omega)
    rw [e, Nat.cast_sub h0]
    congr 1
    field_simp
    ring

theorem sin_two_pi_div_nonneg (n : Nat) (hn : 3 ≤ n) : 0 ≤ Real.sin (2 * Real.pi / n) := by
  have hn3 : (3 : ℝ) ≤ n := by exact_mod_cast hn
  have hpos : (0 : ℝ) < n := by linarith
  apply Real.sin_nonneg_of_nonneg_of_le_pi
  · positivity
  · rw [div_le_iff₀ hpos]
    nlinarith [Real.pi_pos]

theorem crossSq_planar (a0 a1 b0 b1 : ℝ) :
    crossSq (0 : Fin 3 → ℝ) ![a0, a1, 0] ![b0, b1, 0]
      = (a0 * b1 - a1 * b0) * (a0 * b1 - a1 * b0) := by
  simp [crossSq, dot_eq, cross_zero_eq, cross_one_eq, cross_two_eq]

/-- The centroid of the vertices of a regular polygon around the origin is the origin. -/
theorem regular_polygon_centroid (n : Nat) (hn : 3 ≤ n) (r : ℝ) :
    (fun h : Fin 3 => (∑ j : Fin n, (![r * Real.cos (2 * Real.pi * j.val / n),
        r * Real.sin (2 * Real.pi * j.val / n), 0] : Fin 3 → ℝ) h) / (n : ℝ)) = 0 := by
  obtain ⟨hc, hsn⟩ := sum_cos_sin_roots n (by omega)
  have h0 : ∑ j : Fin n, r * Real.cos (2 * Real.pi * j.val / n) = 0 := by
    rw [Fin.sum_univ_eq_sum_range (fun k => r * Real.cos (2 * Real.pi * k / n)) n,
      ← Finset.mul_sum, hc, mul_zero]
  have h1 : ∑ j : Fin n, r * Real.sin (2 * Real.pi * j.val / n) = 0 := by
    rw [Fin.sum_univ_eq_sum_range (fun k => r * Real.sin (2 * Real.pi * k / n)) n,
      ← Finset.mul_sum, hsn, mul_zero]
  funext h
  fin_cases h
  · simp [h0]
  · simp [h1]
  · simp

/-- The area of one fan triangle of the regular polygon. -/
theorem regular_polygon_fan_area (sqrt : ℝ → ℝ) (hs : IsSqrt sqrt) (n : Nat) (hn : 3 ≤ n)
    (r : ℝ) (i : Fin n) :
    triangle_area sqrt (0 : Fin 3 → ℝ)
        ![r * Real.cos (2 * Real.pi * ((i.val + (n - 1)) % n : Nat) / n),
          r * Real.sin (2 * Real.pi * ((i.val + (n - 1)) % n : Nat) / n), 0]
        ![r * Real.cos (2 * Real.pi * i.val / n), r * Real.sin (2 * Real.pi * i.val / n), 0]
      = 1 / 2 * (r ^ 2 * Real.sin (2 * Real.pi / n)) := by
  have hstep := sin_step n (by omega) i.val i.isLt
  rw [Real.sin_sub] at hstep
  have hnn : 0 ≤ r ^ 2 * Real.sin (2 * Real.pi / n) :=
    mul_nonneg (sq_nonneg r) (sin_two_pi_div_nonneg n hn)
  rw [triangle_area_eq, crossSq_planar]
  congr 1
  apply sqrt_unique sqrt hs _ _ hnn
  rw [← hstep]
  ring

/-- C15.  For every `n >= 3` and every circumradius `r` (in particular every `r > 0`),
`polygon_surface_area` of the mesh consisting of the single planar regular `n`-gon face with
the vertices `r * (cos(2 pi k / n), sin(2 pi k / n), 0)`, `k = 0 .. n-1`, equals the
closed-form area `(n / 2) * r^2 * sin(2 pi / n)`. -/
theorem polygon_surface_area_regular_polygon (sqrt : ℝ → ℝ) (hs : IsSqrt sqrt) (n : Nat)
    (hn : 3 ≤ n) (r : ℝ) :
    polygon_surface_area sqrt (singleFaceMesh n (fun k : Fin n =>
        (![r * Real.cos (2 * Real.pi * k.val / n), r * Real.sin (2 * Real.pi * k.val / n), 0]
          : Fin 3 → ℝ)))
      = n / 2 * r ^ 2 * Real.sin (2 * Real.pi / n) := by
  rw [polygon_surface_area_singleFace, face_area_singleFace, regular_polygon_centroid n hn r]
  simp only [regular_polygon_fan_area sqrt hs n hn r, Finset.sum_const, Finset.card_univ,
    Fintype.card_fin, nsmul_eq_mul]
  ring

theorem polygon_surface_area_regular_polygon_witness :
    IsSqrt Real.sqrt ∧ 3 ≤ 4
      ∧ polygon_surface_area Real.sqrt (singleFaceMesh 4 (fun k : Fin 4 =>
          (![1 * Real.cos (2 * Real.pi * k.val / (4 : Nat)),
            1 * Real.sin (2 * Real.pi * k.val / (4 : Nat)), 0] : Fin 3 → ℝ)))
        = (4 : Nat) / 2 * 1 ^ 2 * Real.sin (2 * Real.pi / (4 : Nat)) :=
  ⟨isSqrt_real, by decide,
    polygon_surface_area_regular_polygon Real.sqrt isSqrt_real 4 (by decide) 1⟩

end PolyDiffGeo
